import Mathlib

/-
Verification development for the MangoType content-composition core.

The development shallowly embeds the three engines of the repository
(rule-based lint engine, autofix engine, scheduling/retry queue engine)
and the character/weight counter, and proves the specified properties
about them.

Modelling conventions:
  * JavaScript strings are modelled as lists of UTF-16 code units
    (`Str := List Nat`); all regular expressions in the source are
    compiled per code unit (none uses the `u` flag), so offsets in the
    model coincide with JavaScript string offsets.
  * ISO timestamp strings are identified with their epoch-millisecond
    values (`Int`); `Date` parsing and formatting are environment
    functionality and are abstracted.
  * 32-bit integer arithmetic (`Math.imul`, `>>> 0`) is modelled with
    `Nat` arithmetic modulo `2 ^ 32`.
  * Effectful id generation (`createId`) is modelled by threading a
    counter through an id-generator function supplied by the
    environment; the rich-document formatter (`toRichHtml`, an external
    module) and the mock metrics generator (floating point) are likewise
    supplied as environment parameters.
-/

/-- UTF-16 code-unit string. -/
abbrev Str := List Nat

/-- Convert a Lean string literal to its code-unit list (BMP text only,
which covers every literal appearing in the source). -/
def su (s : String) : Str := s.toList.map Char.toNat

namespace Mango

/-! ## Queue engine data model (src lib/workspace) -/

inductive DraftKind where
  | tweet | thread | article
deriving DecidableEq

inductive QueueStatus where
  | pending | failed
deriving DecidableEq

inductive MediaType where
  | image | video | gif
deriving DecidableEq

structure MediaItem where
  id : Str
  mtype : MediaType
  name : Str
deriving DecidableEq

structure PollData where
  question : Str
  options : List Str
deriving DecidableEq

structure ThreadPost where
  id : Str
  text : Str
  media : List MediaItem
  poll : Option PollData
deriving DecidableEq

structure QueueItem where
  id : Str
  publishAt : Int
  createdAt : Int
  updatedAt : Int
  preview : Str
  postCount : Nat
  posts : List ThreadPost
  sourceDraftId : Option Str
  draftKind : Option DraftKind
  status : QueueStatus
  attemptCount : Nat
  maxAttempts : Nat
  lastAttemptAt : Option Int
  nextRetryAt : Option Int
  lastError : Option Str
deriving DecidableEq

structure PostMetrics where
  impressions : Int
  likes : Int
  reposts : Int
  replies : Int
  bookmarks : Int
  profileClicks : Int
  engagementRate : Int
deriving DecidableEq

structure PublishedItem where
  id : Str
  sourceQueueId : Str
  publishedAt : Int
  preview : Str
  postCount : Nat
  posts : List ThreadPost
  sourceDraftId : Option Str
  draftKind : Option DraftKind
  metrics : PostMetrics
deriving DecidableEq

inductive ActivityLevel where
  | info | warn | error
deriving DecidableEq

structure ActivityLog where
  id : Str
  atTime : Int
  level : ActivityLevel
  event : String
  message : Str
  queueItemId : Option Str
  draftId : Option Str
deriving DecidableEq

structure QueueRunResult where
  remaining : List QueueItem
  published : List PublishedItem
  activity : List ActivityLog
  attempted : Nat
  succeeded : Nat
  failed : Nat

/-- Environment for the queue engine: the current time, the id
generator (`createId` results, numbered by call), the post normaliser
(`normalizePosts`, which depends on the external formatting module
`toRichHtml` and on fresh id generation), the mock metrics generator
(`generateMockMetrics`, floating-point arithmetic left abstract) and
the date formatter (`formatDateTime`). -/
structure QueueEnv where
  now : Int
  mkId : Nat → Str
  normPosts : List ThreadPost → List ThreadPost
  genMetrics : QueueItem → PostMetrics
  fmtTime : Int → Str

/-- DEFAULT_QUEUE_MAX_ATTEMPTS -/
def DEFAULT_QUEUE_MAX_ATTEMPTS : Nat := 3

/-- DRAFT_KIND_LABELS, lower-cased as used in the publish log message. -/
def draftKindLabelLower : DraftKind → String
  | .tweet => "tweet"
  | .thread => "thread"
  | .article => "article"

/-! ## stripHtml and buildPreview -/

/-- JavaScript whitespace class (the set matched by a bare regexp
whitespace class and removed by trim). -/
def jsWs (c : Nat) : Bool :=
  c = 0x20 || c = 0x09 || c = 0x0A || c = 0x0B || c = 0x0C || c = 0x0D ||
  c = 0xA0 || c = 0x1680 || (0x2000 ≤ c && c ≤ 0x200A) || c = 0x2028 ||
  c = 0x2029 || c = 0x202F || c = 0x205F || c = 0x3000 || c = 0xFEFF

/-- Lower-case an ASCII letter code unit (used for case-insensitive
regexp matching of ASCII patterns). -/
def lowerU (c : Nat) : Nat := if 0x41 ≤ c && c ≤ 0x5A then c + 0x20 else c

theorem dropWhileLenLe (p : Nat → Bool) (rest : Str) :
    (rest.dropWhile p).length ≤ rest.length := by
  induction rest with
  | nil => simp [List.dropWhile]
  | cons a t ih =>
    simp only [List.dropWhile]
    by_cases h : p a
    · simp [h]; omega
    · simp [h]

theorem takeWhileLenLe (p : Nat → Bool) (rest : Str) :
    (rest.takeWhile p).length ≤ rest.length := by
  induction rest with
  | nil => simp [List.takeWhile]
  | cons a t ih =>
    simp only [List.takeWhile]
    by_cases h : p a
    · simp [h]; omega
    · simp [h]

/-- First replacement of stripHtml: a br tag (case-insensitive, optional
whitespace and optional slash) becomes a newline.  Returns the length of
the match when the input starts with such a tag, otherwise zero. -/
def brTagLen (s : Str) : Nat :=
  match s with
  | 0x3C :: c1 :: c2 :: rest =>
    if lowerU c1 = 0x62 && lowerU c2 = 0x72 then
      let wsn := (rest.takeWhile jsWs).length
      match rest.drop wsn with
      | 0x2F :: 0x3E :: _ => wsn + 5
      | 0x3E :: _ => wsn + 4
      | _ => 0
    else 0
  | _ => 0

/-- Tag names whose closing tags stripHtml turns into newlines. -/
def closingTagNames : List Str :=
  [su "p", su "div", su "h1", su "h2", su "h3", su "blockquote", su "li"]

/-- Second replacement of stripHtml: a closing tag from the fixed tag
list (case-insensitive) becomes a newline; zero when there is no match. -/
def closeTagLen (s : Str) : Nat :=
  match s with
  | 0x3C :: 0x2F :: rest =>
    ((closingTagNames.filterMap (fun name =>
      if (rest.take name.length).map lowerU = name &&
          (rest.drop name.length).head? = some 0x3E then
        some (name.length + 3)
      else none)).head?).getD 0
  | _ => 0

/-- Third replacement of stripHtml: any remaining tag-like run (an
opening angle bracket, one or more non-closing-bracket units, a closing
angle bracket) is removed; zero when there is no match. -/
def anyTagLen (s : Str) : Nat :=
  match s with
  | 0x3C :: rest =>
    let body := rest.takeWhile (fun c => c ≠ 0x3E)
    if body.length = 0 then 0
    else match rest.drop body.length with
      | 0x3E :: _ => body.length + 2
      | _ => 0
  | _ => 0

/-- First pass of stripHtml: globally replace every br tag with a
newline, scanning left to right and resuming after each match. -/
def stripBrPass : Str → Str
  | [] => []
  | c :: rest =>
    let n := brTagLen (c :: rest)
    if h : 0 < n then 0x0A :: stripBrPass ((c :: rest).drop n)
    else c :: stripBrPass rest
termination_by s => s.length
decreasing_by
  all_goals simp [List.length_drop]
  all_goals omega

/-- Second pass of stripHtml: globally replace every closing tag from
the fixed tag list with a newline. -/
def stripClosePass : Str → Str
  | [] => []
  | c :: rest =>
    let n := closeTagLen (c :: rest)
    if h : 0 < n then 0x0A :: stripClosePass ((c :: rest).drop n)
    else c :: stripClosePass rest
termination_by s => s.length
decreasing_by
  all_goals simp [List.length_drop]
  all_goals omega

/-- Third pass of stripHtml: globally delete every remaining tag-like
run (angle bracket, one or more non-closing-bracket units, closing
angle bracket). -/
def stripTagPass : Str → Str
  | [] => []
  | c :: rest =>
    let n := anyTagLen (c :: rest)
    if h : 0 < n then stripTagPass ((c :: rest).drop n)
    else c :: stripTagPass rest
termination_by s => s.length
decreasing_by
  all_goals simp [List.length_drop]
  all_goals omega

/-- stripHtml: the four sequential global replacements of the source,
applied one after the other (br tags to newlines, then listed closing
tags to newlines, then any remaining tag deleted, then every
non-breaking space turned into an ordinary space). -/
def stripHtml (s : Str) : Str :=
  (stripTagPass (stripClosePass (stripBrPass s))).map
    (fun c => if c = 0xA0 then 0x20 else c)

/-- JavaScript trim. -/
def trimU (s : Str) : Str :=
  ((s.dropWhile jsWs).reverse.dropWhile jsWs).reverse

/-- Collapse every whitespace run to a single ASCII space (the
whitespace-run replacement used by buildPreview). -/
def collapseWsRuns : Str → Str
  | [] => []
  | c :: rest =>
    if jsWs c then 0x20 :: collapseWsRuns (rest.dropWhile jsWs)
    else c :: collapseWsRuns rest
termination_by s => s.length
decreasing_by
  all_goals simp
  calc (List.dropWhile jsWs rest).length ≤ rest.length := dropWhileLenLe jsWs rest
    _ < rest.length + 1 := by omega

/-- buildPreview -/
def buildPreview (posts : List ThreadPost) : Str :=
  match (posts.map (fun post => trimU (stripHtml post.text))).find?
      (fun value => value.length > 0) with
  | some first => (collapseWsRuns first).take 80
  | none => su "(Empty)"

/-! ## Hashing and the simulated publish outcome -/

/-- hashString: FNV-1a-style hash over UTF-16 code units; `Math.imul`
and the final unsigned shift are 32-bit modular arithmetic. -/
def hashString (value : Str) : Nat :=
  value.foldl (fun hash c => ((hash.xor c) * 16777619) % 4294967296) 2166136261

/-- shouldFailQueueAttempt -/
def shouldFailQueueAttempt (item : QueueItem) : Bool :=
  let seed := hashString (item.id ++ su "-" ++ item.preview)
  if item.attemptCount ≤ 1 then decide (seed % 7 = 0)
  else if item.attemptCount = 2 then decide (seed % 31 = 0)
  else false

/-- computeRetryTimeIso (timestamps as epoch milliseconds). -/
def computeRetryTimeIso (fromTime : Int) (attempt : Nat) : Int :=
  let retryMinutes : List Nat := [2, 10, 30]
  let index := min (retryMinutes.length - 1) (attempt - 1)
  fromTime + (retryMinutes.getD index 0 : Nat) * 60 * 1000

/-! ## Queue operations -/

/-- buildQueueItem (createId supplied as `newId`, current time as `now`). -/
def buildQueueItem (env : QueueEnv) (newId : Str) (posts : List ThreadPost)
    (scheduleAt : Int) (srcDraft : Option Str) (dKind : Option DraftKind) :
    QueueItem :=
  let cleanPosts := env.normPosts posts
  { id := newId
    publishAt := scheduleAt
    createdAt := env.now
    updatedAt := env.now
    preview := buildPreview cleanPosts
    postCount := cleanPosts.length
    posts := cleanPosts
    sourceDraftId := srcDraft
    draftKind := dKind
    status := .pending
    attemptCount := 0
    maxAttempts := DEFAULT_QUEUE_MAX_ATTEMPTS
    lastAttemptAt := none
    nextRetryAt := none
    lastError := none }

/-- publishQueueItem (createId supplied as `newId`). -/
def publishQueueItem (env : QueueEnv) (newId : Str) (item : QueueItem) :
    PublishedItem :=
  { id := newId
    sourceQueueId := item.id
    publishedAt := env.now
    preview := item.preview
    postCount := item.postCount
    posts := item.posts
    sourceDraftId := item.sourceDraftId
    draftKind := item.draftKind
    metrics := env.genMetrics item }

/-- createActivityLog (id and timestamp supplied). -/
def createActivityLog (newId : Str) (atTime : Int) (level : ActivityLevel)
    (event : String) (message : Str) (queueItemId draftId : Option Str) :
    ActivityLog :=
  { id := newId, atTime := atTime, level := level, event := event,
    message := message, queueItemId := queueItemId, draftId := draftId }

/-- isPendingDue condition of runDueQueue. -/
def isPendingDue (now : Int) (item : QueueItem) : Bool :=
  decide (item.status = .pending) && decide (item.publishAt ≤ now)

/-- isRetryDue condition of runDueQueue. -/
def isRetryDue (now : Int) (item : QueueItem) : Bool :=
  decide (item.status = .failed) &&
  (match item.nextRetryAt with
   | some t => decide (t ≤ now)
   | none => false) &&
  decide (item.attemptCount < item.maxAttempts)

/-- The selection condition of runDueQueue for one item. -/
def isDueItem (now : Int) (item : QueueItem) : Bool :=
  isPendingDue now item || isRetryDue now item

/-- The `attemptedItem` built for a due item. -/
def attemptedItemOf (now : Int) (item : QueueItem) : QueueItem :=
  { item with
    attemptCount := item.attemptCount + 1
    lastAttemptAt := some now
    updatedAt := now }

/-- The `failedItem` built for a due item whose attempt failed. -/
def failedItemOf (now : Int) (item : QueueItem) : QueueItem :=
  let nextAttempt := item.attemptCount + 1
  let retriesRemaining := decide (nextAttempt < item.maxAttempts)
  { attemptedItemOf now item with
    status := .failed
    nextRetryAt :=
      if retriesRemaining then some (computeRetryTimeIso now nextAttempt)
      else none
    lastError :=
      some (if retriesRemaining then
              su "Temporary delivery failure. Auto retry scheduled."
            else su "Max retries reached. Manual retry required.") }

/-- Accumulator of the forEach loop inside runDueQueue; `nextId` numbers
the createId calls made so far. -/
structure RunAcc where
  remaining : List QueueItem
  published : List PublishedItem
  activity : List ActivityLog
  attempted : Nat
  succeeded : Nat
  failed : Nat
  nextId : Nat

def initRunAcc : RunAcc :=
  { remaining := [], published := [], activity := [],
    attempted := 0, succeeded := 0, failed := 0, nextId := 0 }

/-- The body of the forEach loop inside runDueQueue. -/
def processDueItem (env : QueueEnv) (acc : RunAcc) (item : QueueItem) :
    RunAcc :=
  if ¬ (isDueItem env.now item = true) then
    { acc with remaining := acc.remaining ++ [item] }
  else
    let nextAttempt := item.attemptCount + 1
    let attemptedItem := attemptedItemOf env.now item
    if ¬ (shouldFailQueueAttempt attemptedItem = true) then
      { acc with
        attempted := acc.attempted + 1
        succeeded := acc.succeeded + 1
        published := acc.published ++
          [publishQueueItem env (env.mkId acc.nextId) attemptedItem]
        activity := acc.activity ++
          [createActivityLog (env.mkId (acc.nextId + 1)) env.now .info
            "queue_publish_succeeded"
            (su "Published scheduled " ++
              su (draftKindLabelLower (item.draftKind.getD .thread)) ++
              su " (" ++ item.preview.take 36 ++ su ").")
            (some item.id) item.sourceDraftId]
        nextId := acc.nextId + 2 }
    else
      let retriesRemaining := decide (nextAttempt < item.maxAttempts)
      let failedItem := failedItemOf env.now item
      { acc with
        attempted := acc.attempted + 1
        failed := acc.failed + 1
        remaining := acc.remaining ++ [failedItem]
        activity := acc.activity ++
          [createActivityLog (env.mkId acc.nextId) env.now
            (if retriesRemaining then .warn else .error)
            (if retriesRemaining then "queue_retry_scheduled"
             else "queue_retry_exhausted")
            (if retriesRemaining then
              su "Publish failed, retry #" ++ su (Nat.repr (nextAttempt + 1)) ++
                su " at " ++
                env.fmtTime (computeRetryTimeIso env.now nextAttempt) ++ su "."
             else
              su "Publish failed after " ++ su (Nat.repr nextAttempt) ++
                su " attempts.")
            (some item.id) item.sourceDraftId]
        nextId := acc.nextId + 1 }

/-- Stable insertion of an element into a list sorted by an integer key
(models the stable ECMAScript sort with a numeric comparator). -/
def sInsert {α : Type} (key : α → Int) (a : α) : List α → List α
  | [] => [a]
  | b :: t => if key a ≤ key b then a :: b :: t else b :: sInsert key a t

/-- Stable sort by an integer key. -/
def sSort {α : Type} (key : α → Int) : List α → List α
  | [] => []
  | a :: t => sInsert key a (sSort key t)

/-- sortQueueAsc comparator key: the effective due time. -/
def queueSortKey (a : QueueItem) : Int :=
  match a.status, a.nextRetryAt with
  | .failed, some t => t
  | _, _ => a.publishAt

/-- sortPublishedDesc comparator key (descending by publish time). -/
def publishedSortKey (a : PublishedItem) : Int := - a.publishedAt

/-- runDueQueue -/
def runDueQueue (env : QueueEnv) (queue : List QueueItem) : QueueRunResult :=
  let acc := queue.foldl (processDueItem env) initRunAcc
  { remaining := sSort queueSortKey acc.remaining
    published := sSort publishedSortKey acc.published
    activity := acc.activity
    attempted := acc.attempted
    succeeded := acc.succeeded
    failed := acc.failed }

/-- retryQueueItem -/
def retryQueueItem (now : Int) (item : QueueItem) : QueueItem :=
  { item with
    status := .pending
    publishAt := now
    updatedAt := now
    attemptCount := 0
    lastAttemptAt := none
    nextRetryAt := none
    lastError := none }

/-- normalizeQueueItem.  With code units, `Number.isFinite` checks hold
for every `Nat`, so the attempt-count clamp reduces to the identity and
the max-attempts clamp to a positivity test; the empty-string repairs of
the timestamp fields concern only string falsiness and have no
counterpart on epoch integers. -/
def normalizeQueueItem (normPosts : List ThreadPost → List ThreadPost)
    (input : QueueItem) : QueueItem :=
  let maxAttempts :=
    if 0 < input.maxAttempts then input.maxAttempts
    else DEFAULT_QUEUE_MAX_ATTEMPTS
  let attemptCount := input.attemptCount
  { input with
    status := match input.status with
      | .failed => .failed
      | _ => .pending
    attemptCount := attemptCount
    maxAttempts := maxAttempts
    posts := normPosts input.posts
    postCount :=
      if 0 < input.postCount then input.postCount
      else max 1 input.posts.length
    preview :=
      if 0 < (trimU input.preview).length then input.preview
      else buildPreview input.posts
    lastError := input.lastError
    lastAttemptAt := input.lastAttemptAt
    nextRetryAt := input.nextRetryAt }

/-! ## Character/weight counter (src lib x-count) -/

/-- The result record of the external weighting collaborator
(twitter-text parseTweet), as far as getXCount consumes it. -/
structure ParsedTweet where
  weightedLength : Int
  permillage : Int

structure XCountResult where
  weightedLength : Int
  remaining : Int
  valid : Bool
  permillage : Int

/-- getXCount, parametrised by the external weighting collaborator. -/
def getXCount (parseTweet : Str → ParsedTweet) (text : Str) : XCountResult :=
  let parsed := parseTweet text
  let weightedLength := parsed.weightedLength
  { weightedLength := weightedLength
    remaining := 25000 - weightedLength
    valid := decide (weightedLength ≤ 25000)
    permillage := parsed.permillage }

/-! ## Lint engine data model (src lib rule-engine) -/

inductive RuleId where
  | R001 | R002 | R003 | R004 | R005 | R006 | R007
  | R101 | R102 | R103 | R104
  | C201 | C202 | C203
deriving DecidableEq

inductive RuleLevel where
  | error | warn
deriving DecidableEq

inductive RuleCategory where
  | strict | suggestion | controversial
deriving DecidableEq

structure RuleDefinition where
  id : RuleId
  label : String
  description : String
  level : RuleLevel
  category : RuleCategory
  enabledByDefault : Bool
  autofix : Bool

/-- A detected lint issue.  The source also derives a string `id` field
deterministically from `ruleId`, `start`, `end` and `excerpt`, all of
which are present here, so the `id` field is not duplicated. -/
structure RuleIssue where
  ruleId : RuleId
  level : RuleLevel
  message : String
  start : Nat
  stop : Nat
  excerpt : Str
  suggestion : Option String
deriving DecidableEq

/-- RuleState: mapping from rule id to enabled flag. -/
def RuleState := RuleId → Bool

def RULE_DEFINITIONS : List RuleDefinition :=
  [ { id := .R001, label := "中英文之间加空格",
      description := "中文与英文字符之间建议保留一个空格。",
      level := .error, category := .strict,
      enabledByDefault := true, autofix := true },
    { id := .R002, label := "中文与数字之间加空格",
      description := "中文字符与阿拉伯数字之间建议保留一个空格。",
      level := .error, category := .strict,
      enabledByDefault := true, autofix := true },
    { id := .R003, label := "数字与单位之间加空格",
      description := "数字与常见英文单位之间建议保留一个空格，% 与 ° 除外。",
      level := .error, category := .strict,
      enabledByDefault := true, autofix := true },
    { id := .R004, label := "全角标点前后无多余空格",
      description := "全角标点前后不应保留英文空格。",
      level := .error, category := .strict,
      enabledByDefault := true, autofix := true },
    { id := .R005, label := "省略号统一为……",
      description := "统一省略号写法并保持后续文本可读性。",
      level := .error, category := .strict,
      enabledByDefault := true, autofix := true },
    { id := .R006, label := "破折号前后加空格",
      description := "破折号建议使用“ —— ”格式。",
      level := .error, category := .strict,
      enabledByDefault := true, autofix := true },
    { id := .R007, label := "数字统一半角",
      description := "中文内容中的数字默认使用半角字符。",
      level := .error, category := .strict,
      enabledByDefault := true, autofix := true },
    { id := .R101, label := "避免重复标点",
      description := "连续重复标点会降低可读性。",
      level := .warn, category := .suggestion,
      enabledByDefault := true, autofix := false },
    { id := .R102, label := "中文语境标点风格",
      description := "中文语境中优先使用全角中文标点。",
      level := .warn, category := .suggestion,
      enabledByDefault := true, autofix := false },
    { id := .R103, label := "专有名词大小写",
      description := "专有名词应保持官方写法。",
      level := .warn, category := .suggestion,
      enabledByDefault := true, autofix := false },
    { id := .R104, label := "不地道缩写提醒",
      description := "避免使用容易误解的缩写。",
      level := .warn, category := .suggestion,
      enabledByDefault := true, autofix := false },
    { id := .C201, label := "链接前后空格风格",
      description := "链接与中文之间是否保留空格可团队自定义。",
      level := .warn, category := .controversial,
      enabledByDefault := false, autofix := false },
    { id := .C202, label := "引号风格",
      description := "简体中文可在「」与“”中选择统一风格。",
      level := .warn, category := .controversial,
      enabledByDefault := false, autofix := false },
    { id := .C203, label := "情绪标点容忍度",
      description := "控制连续 ?! 组合的强度。",
      level := .warn, category := .controversial,
      enabledByDefault := false, autofix := false } ]

/-- createDefaultRuleState -/
def createDefaultRuleState : RuleState := fun rid =>
  ((RULE_DEFINITIONS.find? (fun r => decide (r.id = rid))).map
    (fun r => r.enabledByDefault)).getD false

def DEFAULT_WHITELIST : List Str := [su "豆瓣FM"]

def UNITS : List Str :=
  [su "kb", su "mb", su "gb", su "tb", su "kib", su "mib", su "gib",
   su "tib", su "bps", su "kbps", su "mbps", su "gbps", su "tbps",
   su "hz", su "khz", su "mhz", su "ghz", su "kg", su "g", su "mg",
   su "km", su "m", su "cm", su "mm", su "ms", su "s", su "w", su "kw",
   su "v", su "a"]

def PROPER_NOUNS : List String :=
  ["GitHub", "JavaScript", "TypeScript", "HTML5", "React", "Next.js",
   "Node.js", "Twitter", "LeanCloud"]

/-- BAD_ABBREVIATIONS: literal word-bounded pattern, case-insensitivity
flag, suggested expansion. -/
def BAD_ABBREVIATIONS : List (Str × Bool × String) :=
  [(su "Js", false, "JavaScript"), (su "h5", false, "HTML5"),
   (su "FED", false, "前端开发者"), (su "RJS", false, "React"),
   (su "backbone", true, "Backbone.js"), (su "angular", true, "Angular")]

/-! ## Character classes of the lint regular expressions -/

def isCJK (c : Nat) : Bool := 0x4E00 ≤ c && c ≤ 0x9FFF

def isLatin (c : Nat) : Bool :=
  (0x41 ≤ c && c ≤ 0x5A) || (0x61 ≤ c && c ≤ 0x7A)

def isDigitU (c : Nat) : Bool := 0x30 ≤ c && c ≤ 0x39

/-- Word character of a JavaScript word boundary (no u flag). -/
def isWordU (c : Nat) : Bool := isLatin c || isDigitU c || c = 0x5F

def isFwDigit (c : Nat) : Bool := 0xFF10 ≤ c && c ≤ 0xFF19

/-- CLOSE_PUNC class. -/
def isClosePunc (c : Nat) : Bool :=
  c = 0xFF0C || c = 0x3002 || c = 0xFF01 || c = 0xFF1F || c = 0xFF1B ||
  c = 0xFF1A || c = 0x3001 || c = 0xFF09 || c = 0x3011 || c = 0x300B ||
  c = 0x300D || c = 0x300F

/-- OPEN_PUNC class. -/
def isOpenPunc (c : Nat) : Bool :=
  c = 0xFF08 || c = 0x3010 || c = 0x300A || c = 0x300C || c = 0x300E

/-- Repeated-punctuation class of R101. -/
def isRepPunc (c : Nat) : Bool :=
  c = 0x21 || c = 0x3F || c = 0xFF01 || c = 0xFF1F || c = 0x3002

/-- ASCII punctuation class of R102. -/
def isHalfPunc (c : Nat) : Bool :=
  c = 0x21 || c = 0x3F || c = 0x2C || c = 0x2E || c = 0x3A || c = 0x3B

/-- Curly-quote class of C202. -/
def isCurlyQuote (c : Nat) : Bool :=
  c = 0x201C || c = 0x201D || c = 0x2018 || c = 0x2019

/-- Emotion-punctuation class of C203. -/
def isEmoPunc (c : Nat) : Bool :=
  c = 0x21 || c = 0x3F || c = 0xFF1F || c = 0xFF01

/-- The negated class of the R005 lookahead (whitespace or one of the
listed full-width punctuation marks). -/
def isEllStop (c : Nat) : Bool :=
  jsWs c || c = 0xFF0C || c = 0x3002 || c = 0xFF01 || c = 0xFF1F ||
  c = 0xFF1B || c = 0xFF1A || c = 0x3001

/-! ## Matchers: each compiles one source regular expression into a scan
producing the list of match spans, following the ECMAScript global-exec
semantics (leftmost match, ordered alternation, greedy repetition,
scanning resuming after each match). -/

/-- Matcher of a two-unit adjacency alternation `AB|BA`
(used by R001, R002, R102). -/
def pairMatches (p q : Nat → Bool) : Nat → Str → List (Nat × Nat)
  | _, [] => []
  | _, [_] => []
  | i, c1 :: c2 :: rest =>
    if (p c1 && q c2) || (q c1 && p c2) then
      (i, i + 2) :: pairMatches p q (i + 2) rest
    else pairMatches p q (i + 1) (c2 :: rest)

/-- Word boundary after a word character: end of input or a non-word
unit. -/
def noWordNext : Str → Bool
  | [] => true
  | c :: _ => !(isWordU c)

/-- Whether the first unit of a string satisfies a predicate. -/
def headSat (p : Nat → Bool) : Str → Bool
  | [] => false
  | c :: _ => p c

/-- Matcher of the R003 detection regexp: a digit, then (by ordered
greedy alternation, equivalently) a maximal run of one to five ASCII
letters closed by a word boundary. -/
def m003F : Nat → Nat → Str → List (Nat × Nat)
  | 0, _, _ => []
  | _, _, [] => []
  | fuel + 1, i, c :: rest =>
    if isDigitU c then
      let l := (rest.takeWhile isLatin).length
      if 1 ≤ l && l ≤ 5 && noWordNext (rest.drop l) then
        (i, i + 1 + l) :: m003F fuel (i + 1 + l) (rest.drop l)
      else m003F fuel (i + 1) rest
    else m003F fuel (i + 1) rest

def m003 (i : Nat) (s : Str) : List (Nat × Nat) := m003F s.length i s

/-- Matcher of the R004 regexp: whitespace run before a closing mark, or
an opening mark followed by a whitespace run. -/
def m004F : Nat → Nat → Str → List (Nat × Nat)
  | 0, _, _ => []
  | _, _, [] => []
  | fuel + 1, i, c :: rest =>
    if jsWs c then
      let l := (rest.takeWhile jsWs).length
      if headSat isClosePunc (rest.drop l) then
        (i, i + l + 2) :: m004F fuel (i + l + 2) (rest.drop (l + 1))
      else if (rest.drop l).length = 0 then []
      else m004F fuel (i + l + 1) (rest.drop l)
    else if isOpenPunc c then
      let l := (rest.takeWhile jsWs).length
      if 0 < l then (i, i + 1 + l) :: m004F fuel (i + 1 + l) (rest.drop l)
      else m004F fuel (i + 1) rest
    else m004F fuel (i + 1) rest

def m004 (i : Nat) (s : Str) : List (Nat × Nat) := m004F s.length i s

/-- Whether the R005 ellipsis-pair alternative matches at an ellipsis
unit: the next unit is another ellipsis and the one after it exists and
is outside the stop class. -/
def ellPairAt : Str → Bool
  | c2 :: c3 :: _ => c2 = 0x2026 && !(isEllStop c3)
  | _ => false

/-- Matcher of the R005 regexp: three or more ASCII periods, or three or
more full-width periods, or a canonical ellipsis pair followed (without
consuming it) by a unit outside the stop class. -/
def m005F : Nat → Nat → Str → List (Nat × Nat)
  | 0, _, _ => []
  | _, _, [] => []
  | fuel + 1, i, c :: rest =>
    if c = 0x2E then
      let l := (rest.takeWhile (fun x => decide (x = 0x2E))).length
      if 2 ≤ l then (i, i + 1 + l) :: m005F fuel (i + 1 + l) (rest.drop l)
      else m005F fuel (i + 1 + l) (rest.drop l)
    else if c = 0x3002 then
      let l := (rest.takeWhile (fun x => decide (x = 0x3002))).length
      if 2 ≤ l then (i, i + 1 + l) :: m005F fuel (i + 1 + l) (rest.drop l)
      else m005F fuel (i + 1 + l) (rest.drop l)
    else if c = 0x2026 then
      if ellPairAt rest then (i, i + 2) :: m005F fuel (i + 2) (rest.drop 1)
      else m005F fuel (i + 1) rest
    else m005F fuel (i + 1) rest

def m005 (i : Nat) (s : Str) : List (Nat × Nat) := m005F s.length i s

/-- Matcher of the R006 regexp: a non-whitespace unit before an em-dash
pair, or an em-dash pair before a non-whitespace unit, or a double
hyphen. -/
def m006 : Nat → Str → List (Nat × Nat)
  | _, [] => []
  | _, [_] => []
  | i, [c1, c2] =>
    if c1 = 0x2D && c2 = 0x2D then [(i, i + 2)] else []
  | i, c1 :: c2 :: c3 :: rest =>
    if !(jsWs c1) && c2 = 0x2014 && c3 = 0x2014 then
      (i, i + 3) :: m006 (i + 3) rest
    else if c1 = 0x2014 && c2 = 0x2014 && !(jsWs c3) then
      (i, i + 3) :: m006 (i + 3) rest
    else if c1 = 0x2D && c2 = 0x2D then
      (i, i + 2) :: m006 (i + 2) (c3 :: rest)
    else m006 (i + 1) (c2 :: c3 :: rest)

/-- Matcher of a one-unit character class (R007, C202). -/
def classMatches (p : Nat → Bool) : Nat → Str → List (Nat × Nat)
  | _, [] => []
  | i, c :: rest =>
    if p c then (i, i + 1) :: classMatches p (i + 1) rest
    else classMatches p (i + 1) rest

/-- Matcher of a greedy character-class run of a minimum length
(R101, C203). -/
def runMatchesF (p : Nat → Bool) (minLen : Nat) : Nat → Nat → Str →
    List (Nat × Nat)
  | 0, _, _ => []
  | _, _, [] => []
  | fuel + 1, i, c :: rest =>
    if p c then
      let l := (rest.takeWhile p).length
      if minLen ≤ 1 + l then
        (i, i + 1 + l) :: runMatchesF p minLen fuel (i + 1 + l) (rest.drop l)
      else runMatchesF p minLen fuel (i + 1 + l) (rest.drop l)
    else runMatchesF p minLen fuel (i + 1) rest

def runMatches (p : Nat → Bool) (minLen : Nat) (i : Nat) (s : Str) :
    List (Nat × Nat) := runMatchesF p minLen s.length i s

/-- Matcher of a literal pattern, optionally case-insensitive on ASCII
letters (whitelist terms, proper nouns). -/
def litMatchesF (pat : Str) (ci : Bool) : Nat → Nat → Str →
    List (Nat × Nat)
  | 0, _, _ => []
  | _, _, [] => []
  | fuel + 1, i, c :: rest =>
    let norm := fun (x : Nat) => if ci then lowerU x else x
    if ((c :: rest).take pat.length).map norm = pat.map norm then
      (i, i + pat.length) ::
        litMatchesF pat ci fuel (i + pat.length) (rest.drop (pat.length - 1))
    else litMatchesF pat ci fuel (i + 1) rest

def litMatches (pat : Str) (ci : Bool) (i : Nat) (s : Str) :
    List (Nat × Nat) := litMatchesF pat ci s.length i s

/-- Matcher of a word-bounded literal pattern (R104); `prevW` records
whether the unit before the current scan position is a word unit. -/
def wordLitMatchesF (pat : Str) (ci : Bool) : Nat → Bool → Nat → Str →
    List (Nat × Nat)
  | 0, _, _, _ => []
  | _, _, _, [] => []
  | fuel + 1, prevW, i, c :: rest =>
    let norm := fun (x : Nat) => if ci then lowerU x else x
    if !prevW && ((c :: rest).take pat.length).map norm = pat.map norm &&
        noWordNext ((c :: rest).drop pat.length) then
      (i, i + pat.length) ::
        wordLitMatchesF pat ci fuel true (i + pat.length)
          (rest.drop (pat.length - 1))
    else wordLitMatchesF pat ci fuel (isWordU c) (i + 1) rest

def wordLitMatches (pat : Str) (ci : Bool) (prevW : Bool) (i : Nat)
    (s : Str) : List (Nat × Nat) := wordLitMatchesF pat ci s.length prevW i s

/-- Length of the link protocol alternative of C201 when the input
starts with it: https then s-optional (greedy), colon, double slash, or
the www-dot alternative where allowed. -/
def protoLen (withWww : Bool) (s : Str) : Nat :=
  if (s.take 8) = su "https://" then 8
  else if (s.take 7) = su "http://" then 7
  else if withWww && (s.take 4) = su "www." then 4
  else 0

/-- Index of the last unit satisfying a predicate. -/
def lastIdxP (p : Nat → Bool) (l : Str) : Option Nat :=
  match l.reverse.findIdx? p with
  | some k => some (l.length - 1 - k)
  | none => none

/-- Matcher of the C201 regexp: a CJK unit directly before a link
protocol, or a protocol followed greedily by non-whitespace ending at
the last CJK unit of the run. -/
def mC201F : Nat → Nat → Str → List (Nat × Nat)
  | 0, _, _ => []
  | _, _, [] => []
  | fuel + 1, i, c :: rest =>
    if isCJK c then
      let pl := protoLen true rest
      if 0 < pl then
        (i, i + 1 + pl) :: mC201F fuel (i + 1 + pl) (rest.drop pl)
      else mC201F fuel (i + 1) rest
    else
      let pl := protoLen false (c :: rest)
      if 0 < pl then
        let run := ((c :: rest).drop pl).takeWhile (fun x => !(jsWs x))
        match lastIdxP isCJK run with
        | some j =>
          if 1 ≤ j then
            (i, i + pl + j + 1) ::
              mC201F fuel (i + pl + j + 1) (rest.drop (pl + j))
          else mC201F fuel (i + 1) rest
        | none => mC201F fuel (i + 1) rest
      else mC201F fuel (i + 1) rest

def mC201 (i : Nat) (s : Str) : List (Nat × Nat) := mC201F s.length i s

/-! ## lintText assembly -/

/-- Substring by half-open offsets. -/
def sliceU (s : Str) (a b : Nat) : Str := (s.drop a).take (b - a)

/-- Order-preserving de-duplication (Set insertion order). -/
def dedupFirst : List Str → List Str
  | [] => []
  | t :: rest => t :: (dedupFirst rest).filter (fun x => x ≠ t)

/-- uniqueTerms: trim, drop empty entries, de-duplicate keeping the
first occurrence. -/
def uniqueTerms (terms : List Str) : List Str :=
  dedupFirst ((terms.map trimU).filter (fun t => t.length ≠ 0))

/-- findTermRanges: every literal occurrence of every term, in term
order then match order. -/
def findTermRanges (source : Str) (terms : List Str) :
    List (Nat × Nat) :=
  terms.flatMap (fun term => litMatches term false 0 source)

/-- isIgnoredRange -/
def isIgnoredRange (start stop : Nat) (ranges : List (Nat × Nat)) : Bool :=
  ranges.any (fun r => decide (start ≥ r.1) && decide (stop ≤ r.2))

/-- createIssue (the derived string id is determined by the recorded
fields, see RuleIssue). -/
def createIssue (ruleId : RuleId) (start stop : Nat) (excerpt : Str)
    (message : String) (suggestion : Option String) : RuleIssue :=
  { ruleId := ruleId
    level := ((RULE_DEFINITIONS.find? (fun r => decide (r.id = ruleId))).map
      (fun r => r.level)).getD .warn
    message := message
    start := start
    stop := stop
    excerpt := excerpt
    suggestion := suggestion }

/-- pushRegexIssues: turn the match spans of one rule into issues,
dropping matches fully contained in an ignored range. -/
def pushRegexIssues (source : Str) (ruleId : RuleId) (message : String)
    (suggestion : Option String) (ignoredRanges : List (Nat × Nat))
    (spans : List (Nat × Nat)) : List RuleIssue :=
  (spans.filter (fun sp => !(isIgnoredRange sp.1 sp.2 ignoredRanges))).map
    (fun sp => createIssue ruleId sp.1 sp.2 (sliceU source sp.1 sp.2)
      message suggestion)

/-- The issues of lintText before the final sort, in rule registration
order then match order. -/
def lintTextRaw (input : Str) (ruleState : RuleState)
    (customWhitelist : List Str) : List RuleIssue :=
  let whitelist := uniqueTerms (DEFAULT_WHITELIST ++ customWhitelist)
  let ignoredRanges := findTermRanges input whitelist
  (if ruleState .R001 then
    pushRegexIssues input .R001 "中英文之间需要增加空格。"
      (some "在中文和英文之间插入一个空格。") ignoredRanges
      (pairMatches isCJK isLatin 0 input)
  else []) ++
  (if ruleState .R002 then
    pushRegexIssues input .R002 "中文与数字之间需要增加空格。"
      (some "在中文和数字之间插入一个空格。") ignoredRanges
      (pairMatches isCJK isDigitU 0 input)
  else []) ++
  (if ruleState .R003 then
    pushRegexIssues input .R003 "数字与单位之间需要增加空格。"
      (some "例如 10 Gbps、20 TB。") [] (m003 0 input)
  else []) ++
  (if ruleState .R004 then
    pushRegexIssues input .R004 "全角标点与其他字符之间不加空格。"
      (some "删除标点前后多余的空格。") [] (m004 0 input)
  else []) ++
  (if ruleState .R005 then
    pushRegexIssues input .R005 "省略号应统一为“……”并保持后续可读性。"
      (some "统一为“……”并在必要时补空格。") [] (m005 0 input)
  else []) ++
  (if ruleState .R006 then
    pushRegexIssues input .R006 "破折号前后应增加空格。"
      (some "改成“ —— ”。") [] (m006 0 input)
  else []) ++
  (if ruleState .R007 then
    pushRegexIssues input .R007 "数字应使用半角字符。"
      (some "将全角数字改为半角数字。") [] (classMatches isFwDigit 0 input)
  else []) ++
  (if ruleState .R101 then
    pushRegexIssues input .R101 "检测到重复使用标点符号。"
      (some "保留 1 个标点，或最多 2 个情绪组合。") []
      (runMatches isRepPunc 2 0 input)
  else []) ++
  (if ruleState .R102 then
    pushRegexIssues input .R102 "中文语境中建议使用全角中文标点。"
      (some "将 ! ? , . : ; 改为对应全角形式。") []
      (pairMatches isCJK isHalfPunc 0 input)
  else []) ++
  (if ruleState .R103 then
    PROPER_NOUNS.flatMap (fun expected =>
      ((litMatches (su expected) true 0 input).filter
        (fun sp => sliceU input sp.1 sp.2 ≠ su expected)).map
        (fun sp => createIssue .R103 sp.1 sp.2 (sliceU input sp.1 sp.2)
          ("专有名词大小写建议改为 " ++ expected ++ "。") (some expected)))
  else []) ++
  (if ruleState .R104 then
    BAD_ABBREVIATIONS.flatMap (fun abbr =>
      pushRegexIssues input .R104 "检测到不地道缩写。"
        (some ("建议改为 " ++ abbr.2.2 ++ "。")) []
        (wordLitMatches abbr.1 abbr.2.1 false 0 input))
  else []) ++
  (if ruleState .C201 then
    pushRegexIssues input .C201 "链接前后空格风格未统一。"
      (some "根据团队习惯统一链接前后空格。") [] (mC201 0 input)
  else []) ++
  (if ruleState .C202 then
    pushRegexIssues input .C202 "当前使用了弯引号。"
      (some "可按团队标准改为「」与『』。") []
      (classMatches isCurlyQuote 0 input)
  else []) ++
  (if ruleState .C203 then
    pushRegexIssues input .C203 "情绪标点强度较高。"
      (some "建议减少重复 ?! 组合。") [] (runMatches isEmoPunc 3 0 input)
  else [])

/-- Sort key of the final issue sort (the ECMAScript numeric comparator
on start offsets; the sort is stable). -/
def issueSortKey (issue : RuleIssue) : Int := issue.start

/-! ## Autofix engine (src lib rule-engine, fix functions) -/

/-- Global replacement of one literal pattern (the source builds the
regexp from an escaped literal).  Scanning resumes after each
replacement, per the ECMAScript global-replace semantics.  The head
unit of the pattern is split off so that the recursion always consumes
at least one unit. -/
def replGo (p0 : Nat) (prest repl : Str) : Str → Str
  | [] => []
  | c :: rest =>
    if (p0 :: prest).isPrefixOf (c :: rest) then
      repl ++ replGo p0 prest repl (rest.drop prest.length)
    else c :: replGo p0 prest repl rest
termination_by s => s.length
decreasing_by
  all_goals simp [List.length_drop]
  all_goals omega

/-- replace with a global regexp of an escaped literal; the empty
pattern inserts the replacement at every position, as the empty regexp
does. -/
def replaceAll (pat repl s : Str) : Str :=
  match pat with
  | [] => repl ++ s.flatMap (fun c => c :: repl)
  | p0 :: prest => replGo p0 prest repl s

structure ProtectedTerm where
  token : Str
  term : Str
deriving DecidableEq

/-- The placeholder token of protectTerms for a term index. -/
def tokenOf (i : Nat) : Str := su "__TERM_" ++ su (Nat.repr i) ++ su "__"

/-- protectTerms -/
def protectTermsGo (idx : Nat) (text : Str) :
    List Str → Str × List ProtectedTerm
  | [] => (text, [])
  | term :: rest =>
    let token := tokenOf idx
    let r := protectTermsGo (idx + 1) (replaceAll term token text) rest
    (r.1, { token := token, term := term } :: r.2)

def protectTerms (input : Str) (terms : List Str) :
    Str × List ProtectedTerm :=
  protectTermsGo 0 input terms

/-- restoreTerms -/
def restoreTerms (input : Str) (replacements : List ProtectedTerm) : Str :=
  replacements.foldl (fun text item => replaceAll item.token item.term text)
    input

/-- One global pass of an adjacency-insertion replacement
`(A)(B) -> A space B`; the match consumes both units, and a unit
satisfying B never starts a match, so consuming both units coincides
with the regexp semantics. -/
def insPair (p q : Nat → Bool) : Str → Str
  | [] => []
  | [c] => [c]
  | c1 :: c2 :: rest =>
    if p c1 && q c2 then c1 :: 0x20 :: c2 :: insPair p q rest
    else c1 :: insPair p q (c2 :: rest)

/-- The two-or-more-spaces collapse replacement: every run of ASCII
spaces becomes a single space (a run of one is returned unchanged by
both). -/
def collapseSp : Str → Str
  | [] => []
  | [c] => [c]
  | c1 :: c2 :: rest =>
    if c1 = 0x20 && c2 = 0x20 then collapseSp (c2 :: rest)
    else c1 :: collapseSp (c2 :: rest)

/-- The CJK/Latin and Latin/CJK insertion passes followed by the space
collapse (the protected-text body of fixSpacingBetweenCjkAndLatin, and
with digits the whole of fixSpacingBetweenCjkAndNumber). -/
def spacingCore (q : Nat → Bool) (s : Str) : Str :=
  collapseSp (insPair q isCJK (insPair isCJK q s))

/-- fixSpacingBetweenCjkAndLatin -/
def fixSpacingBetweenCjkAndLatin (input : Str) (customWhitelist : List Str) :
    Str :=
  let whitelist := uniqueTerms (DEFAULT_WHITELIST ++ customWhitelist)
  let protectedText := protectTerms input whitelist
  let fixed := spacingCore isLatin protectedText.1
  restoreTerms fixed protectedText.2

/-- fixSpacingBetweenCjkAndNumber -/
def fixSpacingBetweenCjkAndNumber (input : Str) : Str :=
  spacingCore isDigitU input

/-- fixSpacingBetweenNumberAndUnit.  The regexp matches a digit and a
maximal one-to-five-letter run closed by a word boundary (as in m003);
the callback inserts the space only when the lower-cased unit is in the
vocabulary.  A match never contains a digit after its first unit, so
resuming after the match coincides with advancing one unit at a time. -/
def fixSpacingBetweenNumberAndUnit : Str → Str
  | [] => []
  | c :: rest =>
    if isDigitU c then
      let run := rest.takeWhile isLatin
      let l := run.length
      if 1 ≤ l && l ≤ 5 && noWordNext (rest.drop l) &&
          UNITS.contains (run.map lowerU) then
        c :: 0x20 :: fixSpacingBetweenNumberAndUnit rest
      else c :: fixSpacingBetweenNumberAndUnit rest
    else c :: fixSpacingBetweenNumberAndUnit rest

/-- The guard of fixSpacingBetweenNumberAndUnit on the text after a
digit: a one-to-five letter run closed by a word boundary whose
lower-cased text is in the unit vocabulary. -/
def unitCond (rest : Str) : Bool :=
  let run := rest.takeWhile isLatin
  let l := run.length
  1 ≤ l && l ≤ 5 && noWordNext (rest.drop l) && UNITS.contains (run.map lowerU)

/-- First pass of fixPunctuationSpacing: delete every whitespace run
standing immediately before a closing full-width mark; `acc` holds the
pending whitespace run, reversed. -/
def delWsBeforeClose (acc : Str) : Str → Str
  | [] => acc.reverse
  | c :: rest =>
    if jsWs c then delWsBeforeClose (c :: acc) rest
    else if isClosePunc c then c :: delWsBeforeClose [] rest
    else acc.reverse ++ c :: delWsBeforeClose [] rest

/-- Second pass of fixPunctuationSpacing: delete every whitespace run
standing immediately after an opening full-width mark; `skip` is true
while inside such a run. -/
def delWsAfterOpen (skip : Bool) : Str → Str
  | [] => []
  | c :: rest =>
    if skip && jsWs c then delWsAfterOpen true rest
    else if isOpenPunc c then c :: delWsAfterOpen true rest
    else c :: delWsAfterOpen false rest

/-- fixPunctuationSpacing -/
def fixPunctuationSpacing (input : Str) : Str :=
  delWsAfterOpen false (delWsBeforeClose [] input)

/-- One of the three run-normalisation replacements of fixEllipsis:
every run of three or more `target` units becomes the canonical
ellipsis pair; shorter runs are kept.  `acc` counts pending target
units. -/
def runRepl (target : Nat) (acc : Nat) : Str → Str
  | [] =>
    if 3 ≤ acc then [0x2026, 0x2026] else List.replicate acc target
  | c :: rest =>
    if c = target then runRepl target (acc + 1) rest
    else
      (if 3 ≤ acc then [0x2026, 0x2026] else List.replicate acc target) ++
        c :: runRepl target 0 rest

/-- Fourth replacement of fixEllipsis: insert a space after an ellipsis
pair followed by a unit outside the stop class (lookahead, not
consumed). -/
def ellSpace : Str → Str
  | c1 :: c2 :: c3 :: rest =>
    if c1 = 0x2026 && c2 = 0x2026 && !(isEllStop c3) then
      c1 :: c2 :: 0x20 :: ellSpace (c3 :: rest)
    else c1 :: ellSpace (c2 :: c3 :: rest)
  | s => s

/-- fixEllipsis -/
def fixEllipsis (input : Str) : Str :=
  ellSpace (runRepl 0x2026 0 (runRepl 0x3002 0 (runRepl 0x2E 0 input)))

/-- One of the two dash-normalisation replacements of fixDash: an
optionally whitespace-padded `pairc` pair becomes a space-padded
em-dash pair.  `acc` holds the pending whitespace run (reversed,
absorbed by the leading whitespace of a match); `skip` absorbs the
trailing whitespace of the previous match. -/
def dashRepl (pairc : Nat) : Bool → Str → Str → Str
  | skip, acc, [] => acc.reverse
  | skip, acc, [c] =>
    if skip && jsWs c then acc.reverse else acc.reverse ++ [c]
  | skip, acc, c1 :: c2 :: rest =>
    if skip && jsWs c1 then dashRepl pairc true acc (c2 :: rest)
    else if jsWs c1 then dashRepl pairc false (c1 :: acc) (c2 :: rest)
    else if c1 = pairc && c2 = pairc then
      0x20 :: 0x2014 :: 0x2014 :: 0x20 :: dashRepl pairc true [] rest
    else acc.reverse ++ c1 :: dashRepl pairc false [] (c2 :: rest)

/-- fixDash -/
def fixDash (input : Str) : Str :=
  collapseSp (dashRepl 0x2D false [] (dashRepl 0x2014 false [] input))

/-- fixFullWidthDigits -/
def fixFullWidthDigits (input : Str) : Str :=
  input.map (fun c => if isFwDigit c then c - 0xFEE0 else c)

/-- applyRuleFix with an explicit whitelist argument. -/
def applyRuleFixW (input : Str) (ruleId : RuleId)
    (customWhitelist : List Str) : Str :=
  match ruleId with
  | .R001 => fixSpacingBetweenCjkAndLatin input customWhitelist
  | .R002 => fixSpacingBetweenCjkAndNumber input
  | .R003 => fixSpacingBetweenNumberAndUnit input
  | .R004 => fixPunctuationSpacing input
  | .R005 => fixEllipsis input
  | .R006 => fixDash input
  | .R007 => fixFullWidthDigits input
  | _ => input

/-- applyRuleFix at the default whitelist (the two-argument call). -/
def applyRuleFix (input : Str) (ruleId : RuleId) : Str :=
  applyRuleFixW input ruleId DEFAULT_WHITELIST

/-! ## Shape predicates used by the idempotence development -/

/-- No unit satisfying `p` immediately followed by one satisfying `q`. -/
def noAdj (p q : Nat → Bool) : Str → Bool
  | c1 :: c2 :: rest => (!(p c1 && q c2)) && noAdj p q (c2 :: rest)
  | _ => true

def isSp (c : Nat) : Bool := decide (c = 0x20)

/-- Whether a pattern occurs as a contiguous substring. -/
def hasSub (pat : Str) : Str → Bool
  | [] => pat.isEmpty
  | c :: rest => pat.isPrefixOf (c :: rest) || hasSub pat rest

/-- No run of three or more consecutive `t` units. -/
def noRun3 (t : Nat) : Str → Bool
  | c1 :: c2 :: c3 :: rest =>
    (!(decide (c1 = t) && decide (c2 = t) && decide (c3 = t))) &&
      noRun3 t (c2 :: c3 :: rest)
  | _ => true

/-- No ellipsis pair followed by a unit outside the stop class. -/
def noEllGap : Str → Bool
  | c1 :: c2 :: c3 :: rest =>
    (!(decide (c1 = 0x2026) && decide (c2 = 0x2026) && !(isEllStop c3))) &&
      noEllGap (c2 :: c3 :: rest)
  | _ => true

/-- The ASCII hyphen class used by the dash-pair analysis. -/
def isHy (c : Nat) : Bool := decide (c = 0x2D)

/-- Shape of a fixDash output: mode 0 scans after a non-whitespace unit
(or at the start), mode 1 after a whitespace unit, and mode 2 right
after an em-dash pair whose padding space is still unread. -/
inductive DG : Nat → Str → Prop where
  | nil0 {m : Nat} {s : Str} : m = 0 → s = [] → DG m s
  | nil1 {m : Nat} {s : Str} : m = 1 → s = [] → DG m s
  | blk {m : Nat} {s rest : Str} : m = 0 →
      s = 0x20 :: 0x2014 :: 0x2014 :: rest → DG 2 rest → DG m s
  | chain {m : Nat} {s rest : Str} : m = 2 →
      s = 0x20 :: 0x2014 :: 0x2014 :: rest → DG 2 rest → DG m s
  | blkEndNil {m : Nat} {s : Str} : m = 2 → s = [0x20] → DG m s
  | blkEnd {m : Nat} {s : Str} {c : Nat} {rest : Str} : m = 2 →
      s = 0x20 :: c :: rest → jsWs c = false → DG 1 (c :: rest) → DG m s
  | spCh {m : Nat} {s rest : Str} : (m = 0 ∨ m = 1) → s = 0x20 :: rest →
      (∀ d, rest.head? = some d → ¬ d = 0x20) → DG 1 rest → DG m s
  | otherCh {m : Nat} {s : Str} {c : Nat} {rest : Str} :
      (m = 0 ∨ m = 1) → s = c :: rest → ¬ c = 0x20 →
      ¬ (c = 0x2014 ∧ rest.head? = some 0x2014) →
      DG (if jsWs c then 1 else 0) rest → DG m s

/-- Shape of the text between the dash replacements and the final
space collapse: like DG, but pair chains may share one space or carry
two, and ordinary space runs are unrestricted. -/
inductive PD : Nat → Str → Prop where
  | nil0 {m : Nat} {s : Str} : m = 0 → s = [] → PD m s
  | nil1 {m : Nat} {s : Str} : m = 1 → s = [] → PD m s
  | blk {m : Nat} {s rest : Str} : m = 0 →
      s = 0x20 :: 0x2014 :: 0x2014 :: rest → PD 2 rest → PD m s
  | chain1 {m : Nat} {s rest : Str} : m = 2 →
      s = 0x20 :: 0x2014 :: 0x2014 :: rest → PD 2 rest → PD m s
  | chain2 {m : Nat} {s rest : Str} : m = 2 →
      s = 0x20 :: 0x20 :: 0x2014 :: 0x2014 :: rest → PD 2 rest → PD m s
  | blkEndNil {m : Nat} {s : Str} : m = 2 → s = [0x20] → PD m s
  | blkEnd {m : Nat} {s : Str} {c : Nat} {rest : Str} : m = 2 →
      s = 0x20 :: c :: rest → jsWs c = false → PD 1 (c :: rest) → PD m s
  | spCh {m : Nat} {s rest : Str} : (m = 0 ∨ m = 1) → s = 0x20 :: rest →
      PD 1 rest → PD m s
  | otherCh {m : Nat} {s : Str} {c : Nat} {rest : Str} :
      (m = 0 ∨ m = 1) → s = c :: rest → ¬ c = 0x20 →
      ¬ (c = 0x2014 ∧ rest.head? = some 0x2014) →
      PD (if jsWs c then 1 else 0) rest → PD m s

/-- The default whitelist term, as code units. -/
def dbTerm : Str := [0x8C46, 0x74E3, 0x46, 0x4D]

/-- The placeholder token of the default whitelist term. -/
def dbToken : Str := [0x5F, 0x5F, 0x54, 0x45, 0x52, 0x4D, 0x5F, 0x30,
  0x5F, 0x5F]

/-- lintText -/
def lintText (input : Str) (ruleState : RuleState)
    (customWhitelist : List Str) : List RuleIssue :=
  sSort issueSortKey (lintTextRaw input ruleState customWhitelist)

/-! ## Sample values used by witnesses -/

/-- A queue environment with trivial collaborators, used to evaluate
the queue operations on concrete inputs. -/
def env0 : QueueEnv :=
  { now := 0
    mkId := fun _ => []
    normPosts := fun p => p
    genMetrics := fun _ =>
      { impressions := 0, likes := 0, reposts := 0, replies := 0,
        bookmarks := 0, profileClicks := 0, engagementRate := 0 }
    fmtTime := fun _ => [] }

/-- A concrete queue item whose simulated first attempt fails
(the hash of "q1-p" is divisible by 7) and which is due at time 0. -/
def failDueItem : QueueItem :=
  { id := su "q1"
    publishAt := -3600000
    createdAt := -3600000
    updatedAt := -3600000
    preview := su "p"
    postCount := 1
    posts := []
    sourceDraftId := none
    draftKind := none
    status := .pending
    attemptCount := 0
    maxAttempts := 3
    lastAttemptAt := none
    nextRetryAt := none
    lastError := none }

/-- A concrete queue item that is not due at time 0. -/
def notDueItem : QueueItem :=
  { failDueItem with id := su "q0", publishAt := 3600000 }

/-- A malformed persisted queue item: failed, with more recorded
attempts than allowed attempts, and a retry time still set. -/
def c3BadInput : QueueItem :=
  { failDueItem with
    status := .failed
    attemptCount := 5
    maxAttempts := 3
    nextRetryAt := some 600000 }

/-- The invariant claimed by the spec for queue items: the attempt count
never exceeds the attempt budget, and a terminally failed item carries
no retry time. -/
def ClaimInv (item : QueueItem) : Prop :=
  item.attemptCount ≤ item.maxAttempts ∧
  (item.status = .failed → item.maxAttempts ≤ item.attemptCount →
    item.nextRetryAt = none)

/-- The inductive strengthening of `ClaimInv` maintained by the queue
operations: additionally the attempt budget is positive and a pending
item has no recorded attempts. -/
def QueueInv (item : QueueItem) : Prop :=
  item.attemptCount ≤ item.maxAttempts ∧
  1 ≤ item.maxAttempts ∧
  (item.status = .pending → item.attemptCount = 0) ∧
  (item.status = .failed → item.maxAttempts ≤ item.attemptCount →
    item.nextRetryAt = none)

instance (item : QueueItem) : Decidable (ClaimInv item) := by
  unfold ClaimInv
  infer_instance

instance (item : QueueItem) : Decidable (QueueInv item) := by
  unfold QueueInv
  infer_instance

/-- The queue item states reachable by the queue operations: an item
freshly built by buildQueueItem, or obtained from reachable items by
normalizeQueueItem, retryQueueItem, or by surviving in the remaining
queue of runDueQueue. -/
inductive ReachableItem : QueueItem → Prop where
  | build (env : QueueEnv) (newId : Str) (posts : List ThreadPost)
      (sched : Int) (src : Option Str) (dk : Option DraftKind) :
      ReachableItem (buildQueueItem env newId posts sched src dk)
  | normalize (np : List ThreadPost → List ThreadPost) (item : QueueItem) :
      ReachableItem item → ReachableItem (normalizeQueueItem np item)
  | retry (now : Int) (item : QueueItem) :
      ReachableItem item → ReachableItem (retryQueueItem now item)
  | run (env : QueueEnv) (q : List QueueItem) (j : QueueItem) :
      (∀ i ∈ q, ReachableItem i) →
      j ∈ (runDueQueue env q).remaining → ReachableItem j



end Mango

/-! # Theorems -/

namespace Mango

/-! ## Generic lemmas about the stable sort -/

theorem mem_sInsert {α : Type} (key : α → Int) (a x : α) (l : List α) :
    x ∈ sInsert key a l ↔ x = a ∨ x ∈ l := by
  induction l with
  | nil => simp [sInsert]
  | cons b t ih =>
    simp only [sInsert]
    by_cases h : key a ≤ key b
    · simp [h]
    · simp [h, ih]
      tauto

theorem mem_sSort {α : Type} (key : α → Int) (x : α) (l : List α) :
    x ∈ sSort key l ↔ x ∈ l := by
  induction l with
  | nil => simp [sSort]
  | cons b t ih => simp [sSort, mem_sInsert, ih]

theorem length_sInsert {α : Type} (key : α → Int) (a : α) (l : List α) :
    (sInsert key a l).length = l.length + 1 := by
  induction l with
  | nil => simp [sInsert]
  | cons b t ih =>
    simp only [sInsert]
    by_cases h : key a ≤ key b
    · simp [h]
    · simp [h, ih]

theorem length_sSort {α : Type} (key : α → Int) (l : List α) :
    (sSort key l).length = l.length := by
  induction l with
  | nil => simp [sSort]
  | cons b t ih => simp [sSort, length_sInsert, ih]

theorem pairwise_sInsert {α : Type} (key : α → Int) (a : α) (l : List α)
    (h : l.Pairwise (fun x y => key x ≤ key y)) :
    (sInsert key a l).Pairwise (fun x y => key x ≤ key y) := by
  induction l with
  | nil => simp [sInsert]
  | cons b t ih =>
    simp only [sInsert]
    rcases List.pairwise_cons.mp h with ⟨hb, ht⟩
    by_cases hk : key a ≤ key b
    · rw [if_pos hk]
      refine List.pairwise_cons.mpr ⟨?_, h⟩
      intro y hy
      rcases List.mem_cons.mp hy with rfl | hy
      · exact hk
      · exact le_trans hk (hb y hy)
    · rw [if_neg hk]
      refine List.pairwise_cons.mpr ⟨?_, ih ht⟩
      intro y hy
      rcases (mem_sInsert key a y t).mp hy with rfl | hy
      · omega
      · exact hb y hy

theorem pairwise_sSort {α : Type} (key : α → Int) (l : List α) :
    (sSort key l).Pairwise (fun x y => key x ≤ key y) := by
  induction l with
  | nil => simp [sSort]
  | cons b t ih => exact pairwise_sInsert key b (sSort key t) ih

theorem filter_sInsert {α : Type} (key : α → Int) (k : Int) (a : α)
    (l : List α) (h : l.Pairwise (fun x y => key x ≤ key y)) :
    (sInsert key a l).filter (fun x => decide (key x = k)) =
      if key a = k then a :: l.filter (fun x => decide (key x = k))
      else l.filter (fun x => decide (key x = k)) := by
  induction l with
  | nil =>
    by_cases hk : key a = k <;> simp [sInsert, List.filter, hk]
  | cons b t ih =>
    rcases List.pairwise_cons.mp h with ⟨hb, ht⟩
    simp only [sInsert]
    by_cases hab : key a ≤ key b
    · rw [if_pos hab]
      by_cases hk : key a = k <;> simp [List.filter_cons, hk]
    · rw [if_neg hab]
      have hba : key b < key a := by omega
      rw [List.filter_cons, ih ht]
      by_cases hbk : key b = k
      · have hak : ¬ key a = k := by omega
        simp [hbk, hak]
      · simp [hbk]

theorem filter_sSort {α : Type} (key : α → Int) (k : Int) (l : List α) :
    (sSort key l).filter (fun x => decide (key x = k)) =
      l.filter (fun x => decide (key x = k)) := by
  induction l with
  | nil => simp [sSort]
  | cons b t ih =>
    have hins := filter_sInsert key k b (sSort key t) (pairwise_sSort key t)
    rw [sSort, hins, List.filter_cons, ih]
    by_cases hk : key b = k
    · simp [hk]
    · simp [hk]

/-! ## Lemmas about the runDueQueue fold -/

theorem processDueItem_remaining_cases (env : QueueEnv) (acc : RunAcc)
    (item : QueueItem) :
    (processDueItem env acc item).remaining = acc.remaining ++ [item] ∨
    (processDueItem env acc item).remaining = acc.remaining ∨
    (isDueItem env.now item = true ∧
      (processDueItem env acc item).remaining =
        acc.remaining ++ [failedItemOf env.now item]) := by
  unfold processDueItem
  by_cases hd : isDueItem env.now item = true
  · simp only [hd]
    by_cases hf : shouldFailQueueAttempt (attemptedItemOf env.now item) = true
    · simp [hf]
    · simp [hf]
  · simp [hd]

theorem processDueItem_not_due (env : QueueEnv) (acc : RunAcc)
    (item : QueueItem) (h : isDueItem env.now item = false) :
    (processDueItem env acc item).remaining = acc.remaining ++ [item] := by
  unfold processDueItem
  simp [h]

theorem foldl_remaining_mem (env : QueueEnv) :
    ∀ (q : List QueueItem) (acc : RunAcc) (x : QueueItem),
      x ∈ acc.remaining ∨ (x ∈ q ∧ isDueItem env.now x = false) →
      x ∈ (q.foldl (processDueItem env) acc).remaining := by
  intro q
  induction q with
  | nil =>
    intro acc x hx
    rcases hx with hx | ⟨hx, _⟩
    · simpa using hx
    · simp at hx
  | cons h t ih =>
    intro acc x hx
    rw [List.foldl_cons]
    apply ih
    rcases hx with hx | ⟨hxm, hxd⟩
    · left
      rcases processDueItem_remaining_cases env acc h with hc | hc | ⟨_, hc⟩ <;>
        rw [hc] <;> simp [hx]
    · rcases List.mem_cons.mp hxm with rfl | hxm
      · left
        rw [processDueItem_not_due env acc x hxd]
        simp
      · right
        exact ⟨hxm, hxd⟩

theorem foldl_remaining_src (env : QueueEnv) :
    ∀ (q : List QueueItem) (acc : RunAcc) (j : QueueItem),
      j ∈ (q.foldl (processDueItem env) acc).remaining →
      j ∈ acc.remaining ∨
        ∃ i ∈ q, j = i ∨
          (isDueItem env.now i = true ∧ j = failedItemOf env.now i) := by
  intro q
  induction q with
  | nil =>
    intro acc j hj
    left
    simpa using hj
  | cons h t ih =>
    intro acc j hj
    rw [List.foldl_cons] at hj
    rcases ih (processDueItem env acc h) j hj with hj2 | ⟨i, hi, hc⟩
    · rcases processDueItem_remaining_cases env acc h with hc | hc | ⟨hdu, hc⟩ <;>
        rw [hc] at hj2
      · rcases List.mem_append.mp hj2 with hj3 | hj3
        · exact Or.inl hj3
        · refine Or.inr ⟨h, by simp, Or.inl ?_⟩
          simpa using hj3
      · exact Or.inl hj2
      · rcases List.mem_append.mp hj2 with hj3 | hj3
        · exact Or.inl hj3
        · refine Or.inr ⟨h, by simp, Or.inr ⟨hdu, ?_⟩⟩
          simpa using hj3
    · exact Or.inr ⟨i, List.mem_cons_of_mem h hi, hc⟩

theorem foldl_counts (env : QueueEnv) :
    ∀ (q : List QueueItem) (acc : RunAcc),
      let r := q.foldl (processDueItem env) acc
      r.attempted = acc.attempted + q.countP (fun i => isDueItem env.now i) ∧
      r.succeeded + r.failed + acc.attempted =
        r.attempted + acc.succeeded + acc.failed ∧
      r.published.length + acc.succeeded =
        r.succeeded + acc.published.length ∧
      r.remaining.length + r.published.length =
        acc.remaining.length + acc.published.length + q.length := by
  intro q
  induction q with
  | nil =>
    intro acc
    simp <;> omega
  | cons h t ih =>
    intro acc
    rw [List.foldl_cons]
    have step : (processDueItem env acc h).attempted =
          acc.attempted + (if isDueItem env.now h then 1 else 0) ∧
        (processDueItem env acc h).succeeded +
            (processDueItem env acc h).failed =
          acc.succeeded + acc.failed + (if isDueItem env.now h then 1 else 0) ∧
        (processDueItem env acc h).published.length + acc.succeeded =
          (processDueItem env acc h).succeeded + acc.published.length ∧
        (processDueItem env acc h).remaining.length +
            (processDueItem env acc h).published.length =
          acc.remaining.length + acc.published.length + 1 := by
      unfold processDueItem
      by_cases hd : isDueItem env.now h = true
      · simp only [hd]
        by_cases hf : shouldFailQueueAttempt (attemptedItemOf env.now h) = true
        · simp [hf] <;> omega
        · simp [hf] <;> omega
      · simp [hd] <;> omega
    rcases ih (processDueItem env acc h) with ⟨i1, i2, i3, i4⟩
    refine ⟨?_, ?_, ?_, ?_⟩
    · rw [i1, step.1, List.countP_cons]
      by_cases hd : isDueItem env.now h = true <;> simp [hd] <;> omega
    · have := step.2.1
      omega
    · have := step.2.2.1
      omega
    · rw [i4, step.2.2.2]
      simp
      omega

/-! ## Queue invariant lemmas -/

theorem queueInv_claimInv (item : QueueItem) (h : QueueInv item) :
    ClaimInv item := ⟨h.1, h.2.2.2⟩

theorem isDueItem_iff (now : Int) (item : QueueItem) :
    isDueItem now item = true ↔
      (item.status = .pending ∧ item.publishAt ≤ now) ∨
      (item.status = .failed ∧ ∃ t, item.nextRetryAt = some t ∧ t ≤ now ∧
        item.attemptCount < item.maxAttempts) := by
  unfold isDueItem isPendingDue isRetryDue
  cases hs : item.status <;> cases hr : item.nextRetryAt <;>
    simp [hs, hr] <;> tauto

theorem queueInv_failedItemOf (now : Int) (item : QueueItem)
    (hinv : QueueInv item) (hdue : isDueItem now item = true) :
    QueueInv (failedItemOf now item) := by
  obtain ⟨h1, h2, h3, _⟩ := hinv
  have hle : item.attemptCount + 1 ≤ item.maxAttempts := by
    rcases (isDueItem_iff now item).mp hdue with ⟨hp, _⟩ | ⟨_, t, _, _, hlt⟩
    · have := h3 hp
      omega
    · omega
  have hfs : (failedItemOf now item).status = .failed := rfl
  have hfa : (failedItemOf now item).attemptCount = item.attemptCount + 1 :=
    rfl
  have hfm : (failedItemOf now item).maxAttempts = item.maxAttempts := rfl
  have hfr : (failedItemOf now item).nextRetryAt =
      (if item.attemptCount + 1 < item.maxAttempts then
        some (computeRetryTimeIso now (item.attemptCount + 1))
      else none) := by
    unfold failedItemOf
    by_cases hrem : item.attemptCount + 1 < item.maxAttempts <;> simp [hrem]
  refine ⟨?_, ?_, ?_, ?_⟩
  · rw [hfa, hfm]
    exact hle
  · rw [hfm]
    exact h2
  · intro hp
    rw [hfs] at hp
    simp at hp
  · intro _ hge
    rw [hfa, hfm] at hge
    rw [hfr]
    have : ¬ item.attemptCount + 1 < item.maxAttempts := by omega
    simp [this]

/-- Claim C3 amended, conjunct for runDueQueue. -/
theorem runDueQueue_preserves_inv (env : QueueEnv) (q : List QueueItem)
    (hq : ∀ i ∈ q, QueueInv i) :
    ∀ j ∈ (runDueQueue env q).remaining, QueueInv j ∧ ClaimInv j := by
  intro j hj
  have hj2 : j ∈ (q.foldl (processDueItem env) initRunAcc).remaining := by
    have := (mem_sSort queueSortKey j
      ((q.foldl (processDueItem env) initRunAcc).remaining)).mp
    apply this
    simpa [runDueQueue] using hj
  rcases foldl_remaining_src env q initRunAcc j hj2 with hin | ⟨i, hi, hc⟩
  · simp [initRunAcc] at hin
  · rcases hc with rfl | ⟨hdue, rfl⟩
    · exact ⟨hq j hi, queueInv_claimInv j (hq j hi)⟩
    · have := queueInv_failedItemOf env.now i (hq i hi) hdue
      exact ⟨this, queueInv_claimInv _ this⟩

/-! ## Claim theorems for the queue engine -/

/-- Claim C2: in runDueQueue, an item is selected for an attempt exactly
when (pending and publishAt has passed) or (failed with a set retry time
that has passed and attempts remaining); the number of attempted items
is the number of items satisfying this condition, and every item not
satisfying it is returned unchanged in the remaining queue. -/
theorem c2_due_selection (env : QueueEnv) (queue : List QueueItem) :
    ((runDueQueue env queue).attempted =
      queue.countP (fun i => isDueItem env.now i)) ∧
    (∀ item ∈ queue, isDueItem env.now item = false →
      item ∈ (runDueQueue env queue).remaining) ∧
    (∀ item : QueueItem, isDueItem env.now item = true ↔
      (item.status = .pending ∧ item.publishAt ≤ env.now) ∨
      (item.status = .failed ∧ ∃ t, item.nextRetryAt = some t ∧
        t ≤ env.now ∧ item.attemptCount < item.maxAttempts)) := by
  refine ⟨?_, ?_, fun item => isDueItem_iff env.now item⟩
  · have := (foldl_counts env queue initRunAcc).1
    simpa [runDueQueue, initRunAcc] using this
  · intro item hmem hnd
    have : item ∈ (queue.foldl (processDueItem env) initRunAcc).remaining :=
      foldl_remaining_mem env queue initRunAcc item (Or.inr ⟨hmem, hnd⟩)
    simpa [runDueQueue, mem_sSort] using this

/-- Witness for c2_due_selection: a pending item scheduled in the future
is not selected and survives unchanged in the remaining queue. -/
theorem c2_due_selection_witness :
    notDueItem ∈ (runDueQueue env0 [notDueItem]).remaining :=
  (c2_due_selection env0 [notDueItem]).2.1 notDueItem (by simp) (by decide)

/-- Claim C3 counterexample: normalizeQueueItem, applied to a malformed
persisted item, returns a failed item whose attemptCount exceeds
maxAttempts and which still carries a nextRetryAt, so the claimed
invariant does not hold for every state reachable by the listed queue
operations. -/
theorem c3_counterexample :
    (normalizeQueueItem (fun p => p) c3BadInput).status = .failed ∧
    (normalizeQueueItem (fun p => p) c3BadInput).attemptCount = 5 ∧
    (normalizeQueueItem (fun p => p) c3BadInput).maxAttempts = 3 ∧
    (normalizeQueueItem (fun p => p) c3BadInput).nextRetryAt =
      some 600000 := by
  refine ⟨rfl, rfl, rfl, rfl⟩

/-- buildQueueItem establishes the strengthened invariant. -/
theorem buildQueueItem_inv (env : QueueEnv) (newId : Str)
    (posts : List ThreadPost) (sched : Int) (src : Option Str)
    (dk : Option DraftKind) :
    QueueInv (buildQueueItem env newId posts sched src dk) := by
  refine ⟨by simp [buildQueueItem, DEFAULT_QUEUE_MAX_ATTEMPTS], ?_, ?_, ?_⟩
  · simp [buildQueueItem, DEFAULT_QUEUE_MAX_ATTEMPTS]
  · intro _
    rfl
  · intro hf
    simp [buildQueueItem] at hf

/-- normalizeQueueItem preserves the strengthened invariant. -/
theorem normalizeQueueItem_pres (np : List ThreadPost → List ThreadPost)
    (item : QueueItem) (hinv : QueueInv item) :
    QueueInv (normalizeQueueItem np item) := by
  obtain ⟨h1, h2, h3, h4⟩ := hinv
  have hmax : 0 < item.maxAttempts := by omega
  have hstat : (normalizeQueueItem np item).status = item.status := by
    unfold normalizeQueueItem
    cases item.status <;> rfl
  have hnm : (normalizeQueueItem np item).maxAttempts = item.maxAttempts := by
    unfold normalizeQueueItem
    simp [hmax]
  have hna : (normalizeQueueItem np item).attemptCount =
      item.attemptCount := rfl
  have hnr : (normalizeQueueItem np item).nextRetryAt =
      item.nextRetryAt := rfl
  refine ⟨?_, ?_, ?_, ?_⟩
  · rw [hna, hnm]
    exact h1
  · rw [hnm]
    exact h2
  · rw [hstat, hna]
    exact h3
  · rw [hstat, hna, hnm, hnr]
    exact h4

/-- retryQueueItem establishes the strengthened invariant (given a
positive attempt budget). -/
theorem retryQueueItem_inv (now : Int) (item : QueueItem)
    (hinv : QueueInv item) : QueueInv (retryQueueItem now item) := by
  refine ⟨by simp [retryQueueItem], ?_, ?_, ?_⟩
  · have : (retryQueueItem now item).maxAttempts = item.maxAttempts := rfl
    rw [this]
    exact hinv.2.1
  · intro _
    rfl
  · intro hf
    simp [retryQueueItem] at hf

/-- Every reachable queue item satisfies the strengthened invariant. -/
theorem reachable_queueInv (item : QueueItem) (h : ReachableItem item) :
    QueueInv item := by
  induction h with
  | build env newId posts sched src dk =>
    exact buildQueueItem_inv env newId posts sched src dk
  | normalize np item _ ih => exact normalizeQueueItem_pres np item ih
  | retry now item _ ih => exact retryQueueItem_inv now item ih
  | run env q j _ hj ih => exact (runDueQueue_preserves_inv env q ih j hj).1

/-- Claim C3 amended: every queue item reachable from a buildQueueItem
output by the queue operations (normalizeQueueItem, retryQueueItem,
runDueQueue) satisfies attemptCount bounded by maxAttempts, and a
failed item with attemptCount at least maxAttempts carries no
nextRetryAt; normalizeQueueItem applied to an arbitrary malformed
persisted snapshot does not establish this, as the separate
counterexample shows. -/
theorem c3_queue_invariant (item : QueueItem) (h : ReachableItem item) :
    item.attemptCount ≤ item.maxAttempts ∧
    (item.status = .failed → item.maxAttempts ≤ item.attemptCount →
      item.nextRetryAt = none) :=
  queueInv_claimInv item (reachable_queueInv item h)

/-- Witness for c3_queue_invariant: a freshly built queue item,
renormalized, is reachable, and the invariant holds of it. -/
theorem c3_queue_invariant_witness :
    (normalizeQueueItem (fun p => p)
        (buildQueueItem env0 [] [] 0 none none)).attemptCount ≤
      (normalizeQueueItem (fun p => p)
        (buildQueueItem env0 [] [] 0 none none)).maxAttempts ∧
    ((normalizeQueueItem (fun p => p)
        (buildQueueItem env0 [] [] 0 none none)).status = .failed →
      (normalizeQueueItem (fun p => p)
          (buildQueueItem env0 [] [] 0 none none)).maxAttempts ≤
        (normalizeQueueItem (fun p => p)
          (buildQueueItem env0 [] [] 0 none none)).attemptCount →
      (normalizeQueueItem (fun p => p)
        (buildQueueItem env0 [] [] 0 none none)).nextRetryAt = none) :=
  c3_queue_invariant _
    (ReachableItem.normalize (fun p => p) _
      (ReachableItem.build env0 [] [] 0 none none))

/-- Claim C4: when the attempt on a due item fails, runDueQueue keeps
the item in the remaining queue with nextRetryAt set to now plus a
delay looked up by attempt number, 2 minutes after the first failed
attempt, 10 after the second, 30 after the third and beyond with the
index clamped to the last table entry, and leaves nextRetryAt unset
when no retries remain. -/
theorem c4_backoff_schedule (now : Int) :
    (computeRetryTimeIso now 1 = now + 2 * 60 * 1000) ∧
    (computeRetryTimeIso now 2 = now + 10 * 60 * 1000) ∧
    (∀ a : Nat, 3 ≤ a → computeRetryTimeIso now a = now + 30 * 60 * 1000) ∧
    (∀ (env : QueueEnv) (acc : RunAcc) (item : QueueItem),
      env.now = now →
      isDueItem now item = true →
      shouldFailQueueAttempt (attemptedItemOf now item) = true →
      (processDueItem env acc item).remaining =
        acc.remaining ++ [failedItemOf now item] ∧
      (failedItemOf now item).nextRetryAt =
        (if item.attemptCount + 1 < item.maxAttempts then
          some (computeRetryTimeIso now (item.attemptCount + 1))
        else none)) := by
  refine ⟨by simp [computeRetryTimeIso], by simp [computeRetryTimeIso],
    ?_, ?_⟩
  · intro a ha
    have hmin : (2 : Nat) ⊓ (a - 1) = 2 := by omega
    simp [computeRetryTimeIso, hmin]
  · intro env acc item hnow hdue hfail
    subst hnow
    constructor
    · unfold processDueItem
      simp [hdue, hfail]
    · unfold failedItemOf
      by_cases hrem : item.attemptCount + 1 < item.maxAttempts
      · simp [hrem]
      · simp [hrem]

/-- Witness for c4_backoff_schedule: a concrete pending item one hour
overdue whose simulated first attempt fails is rescheduled two minutes
after now. -/
theorem c4_backoff_schedule_witness :
    (processDueItem env0 initRunAcc failDueItem).remaining =
      [failedItemOf 0 failDueItem] ∧
    (failedItemOf 0 failDueItem).nextRetryAt = some 120000 := by
  have h := (c4_backoff_schedule 0).2.2.2 env0 initRunAcc failDueItem
    (by rfl) (by decide) (by decide)
  refine ⟨by simpa [initRunAcc] using h.1, ?_⟩
  rw [h.2]
  decide

/-! ## Claim theorems for the lint engine -/

/-- Claim C5 evaluation: with rule R003 enabled by default, lintText on
the input 10abc reports a number/unit spacing issue spanning 0abc even
though abc is not in the unit vocabulary; only the autofix consults the
vocabulary.  This contradicts the specified detection behaviour. -/
theorem c5_unit_vocabulary_bug :
    ((lintText (su "10abc") createDefaultRuleState DEFAULT_WHITELIST).map
      (fun i => (i.ruleId, i.start, i.stop))) = [(RuleId.R003, 1, 5)] ∧
    UNITS.contains ((su "abc").map lowerU) = false := by
  constructor
  · rfl
  · rfl

theorem mem_pushRegexIssues (source : Str) (rid : RuleId) (msg : String)
    (sugg : Option String) (ranges spans : List (Nat × Nat))
    (x : RuleIssue) (hx : x ∈ pushRegexIssues source rid msg sugg ranges spans) :
    x.ruleId = rid ∧ isIgnoredRange x.start x.stop ranges = false := by
  unfold pushRegexIssues at hx
  rcases List.mem_map.mp hx with ⟨sp, hsp, rfl⟩
  rcases List.mem_filter.mp hsp with ⟨_, hflt⟩
  refine ⟨rfl, ?_⟩
  simpa [createIssue] using hflt

theorem mem_iteNil {α : Type} {c : Prop} [Decidable c] {l : List α} {x : α}
    (h : x ∈ (if c then l else [])) : x ∈ l := by
  by_cases hc : c
  · simpa [hc] using h
  · simp [hc] at h

theorem lintTextRaw_whitelist (input : Str) (ruleState : RuleState)
    (wl : List Str) :
    ∀ x ∈ lintTextRaw input ruleState wl,
      (x.ruleId = .R001 ∨ x.ruleId = .R002) →
      isIgnoredRange x.start x.stop
        (findTermRanges input (uniqueTerms (DEFAULT_WHITELIST ++ wl))) =
          false := by
  intro x hx hid
  simp only [lintTextRaw, List.mem_append] at hx
  rcases hx with
    ((((((((((((hx | hx) | hx) | hx) | hx) | hx) | hx) | hx) | hx) | hx) | hx) | hx) | hx) | hx
  · exact (mem_pushRegexIssues _ _ _ _ _ _ _ (mem_iteNil hx)).2
  · exact (mem_pushRegexIssues _ _ _ _ _ _ _ (mem_iteNil hx)).2
  · have hr := (mem_pushRegexIssues _ _ _ _ _ _ _ (mem_iteNil hx)).1
    rw [hr] at hid
    rcases hid with h | h <;> simp at h
  · have hr := (mem_pushRegexIssues _ _ _ _ _ _ _ (mem_iteNil hx)).1
    rw [hr] at hid
    rcases hid with h | h <;> simp at h
  · have hr := (mem_pushRegexIssues _ _ _ _ _ _ _ (mem_iteNil hx)).1
    rw [hr] at hid
    rcases hid with h | h <;> simp at h
  · have hr := (mem_pushRegexIssues _ _ _ _ _ _ _ (mem_iteNil hx)).1
    rw [hr] at hid
    rcases hid with h | h <;> simp at h
  · have hr := (mem_pushRegexIssues _ _ _ _ _ _ _ (mem_iteNil hx)).1
    rw [hr] at hid
    rcases hid with h | h <;> simp at h
  · have hr := (mem_pushRegexIssues _ _ _ _ _ _ _ (mem_iteNil hx)).1
    rw [hr] at hid
    rcases hid with h | h <;> simp at h
  · have hr := (mem_pushRegexIssues _ _ _ _ _ _ _ (mem_iteNil hx)).1
    rw [hr] at hid
    rcases hid with h | h <;> simp at h
  · rcases List.mem_flatMap.mp (mem_iteNil hx) with ⟨noun, _, hmem⟩
    rcases List.mem_map.mp hmem with ⟨sp, _, rfl⟩
    rcases hid with h | h <;> simp [createIssue] at h
  · rcases List.mem_flatMap.mp (mem_iteNil hx) with ⟨abbr, _, hmem⟩
    have hr := (mem_pushRegexIssues _ _ _ _ _ _ _ hmem).1
    rw [hr] at hid
    rcases hid with h | h <;> simp at h
  · have hr := (mem_pushRegexIssues _ _ _ _ _ _ _ (mem_iteNil hx)).1
    rw [hr] at hid
    rcases hid with h | h <;> simp at h
  · have hr := (mem_pushRegexIssues _ _ _ _ _ _ _ (mem_iteNil hx)).1
    rw [hr] at hid
    rcases hid with h | h <;> simp at h
  · have hr := (mem_pushRegexIssues _ _ _ _ _ _ _ (mem_iteNil hx)).1
    rw [hr] at hid
    rcases hid with h | h <;> simp at h

/-- Claim C6: no issue reported by lintText for a whitelist-sensitive
rule (R001 or R002, the rules the source passes ignored ranges to) has
its span fully contained in an ignored range computed from the
whitelist terms. -/
theorem c6_whitelist_containment (input : Str) (ruleState : RuleState)
    (wl : List Str) :
    ∀ issue ∈ lintText input ruleState wl,
      (issue.ruleId = .R001 ∨ issue.ruleId = .R002) →
      isIgnoredRange issue.start issue.stop
        (findTermRanges input (uniqueTerms (DEFAULT_WHITELIST ++ wl))) =
          false := by
  intro issue hmem hid
  have hraw : issue ∈ lintTextRaw input ruleState wl :=
    (mem_sSort issueSortKey issue (lintTextRaw input ruleState wl)).mp
      (by simpa [lintText] using hmem)
  exact lintTextRaw_whitelist input ruleState wl issue hraw hid

/-- Witness for c6_whitelist_containment: the single issue reported for
the two-unit input with one CJK unit followed by one Latin letter is an
R001 issue whose span is not inside any ignored range. -/
theorem c6_whitelist_containment_witness :
    isIgnoredRange 0 2
      (findTermRanges (su "中A")
        (uniqueTerms (DEFAULT_WHITELIST ++ []))) = false :=
  c6_whitelist_containment (su "中A") createDefaultRuleState []
    (createIssue .R001 0 2 (su "中A") "中英文之间需要增加空格。"
      (some "在中文和英文之间插入一个空格。"))
    (by decide) (Or.inl rfl)

/-- Claim C7: the issues returned by lintText are non-decreasing in
start offset, and issues with equal start keep their original detection
order (rule registration order, then match order, as recorded by
lintTextRaw). -/
theorem c7_issue_ordering (input : Str) (ruleState : RuleState)
    (wl : List Str) :
    (lintText input ruleState wl).Pairwise
      (fun a b => a.start ≤ b.start) ∧
    ∀ s : Nat,
      (lintText input ruleState wl).filter (fun i => decide (i.start = s)) =
      (lintTextRaw input ruleState wl).filter
        (fun i => decide (i.start = s)) := by
  constructor
  · have h := pairwise_sSort issueSortKey (lintTextRaw input ruleState wl)
    refine h.imp ?_
    intro a b hab
    simpa [issueSortKey] using hab
  · intro s
    have h := filter_sSort issueSortKey (s : Int)
      (lintTextRaw input ruleState wl)
    have hcg : ∀ (l : List RuleIssue),
        l.filter (fun i => decide (issueSortKey i = (s : Int))) =
        l.filter (fun i => decide (i.start = s)) := by
      intro l
      apply List.filter_congr
      intro i _
      simp [issueSortKey]
    rw [← hcg, ← hcg, lintText]
    exact h

/-- Claim C8: the simulated publish outcome is a deterministic function
of the item id, preview and attempt count: with the FNV-1a-style hash of
id ++ "-" ++ preview, the first attempt fails exactly when the hash is
divisible by 7, the second exactly when divisible by 31, and the third
and later attempts never fail. -/
theorem c8_simulated_outcome (item : QueueItem) :
    (item.attemptCount = 1 →
      (shouldFailQueueAttempt item = true ↔
        hashString (item.id ++ su "-" ++ item.preview) % 7 = 0)) ∧
    (item.attemptCount = 2 →
      (shouldFailQueueAttempt item = true ↔
        hashString (item.id ++ su "-" ++ item.preview) % 31 = 0)) ∧
    (3 ≤ item.attemptCount → shouldFailQueueAttempt item = false) := by
  refine ⟨?_, ?_, ?_⟩
  · intro h1
    simp [shouldFailQueueAttempt, h1]
  · intro h2
    simp [shouldFailQueueAttempt, h2]
  · intro h3
    have hn1 : ¬ item.attemptCount ≤ 1 := by omega
    have hn2 : ¬ item.attemptCount = 2 := by omega
    simp [shouldFailQueueAttempt, hn1, hn2]

/-- Witness for c8_simulated_outcome: the concrete item with id q1 and
preview p fails its first attempt because its hash is divisible by 7. -/
theorem c8_simulated_outcome_witness :
    shouldFailQueueAttempt (attemptedItemOf 0 failDueItem) = true :=
  ((c8_simulated_outcome (attemptedItemOf 0 failDueItem)).1
    (by rfl)).mpr (by decide)

/-- Claim C9: getXCount passes the collaborator-computed weightedLength
and permillage through unchanged, reports valid exactly when the
weighted length is at most 25000, and reports remaining as 25000 minus
the weighted length (possibly negative). -/
theorem c9_x_count (parseTweet : Str → ParsedTweet) (text : Str) :
    ((getXCount parseTweet text).valid = true ↔
      (parseTweet text).weightedLength ≤ 25000) ∧
    (getXCount parseTweet text).remaining =
      25000 - (parseTweet text).weightedLength ∧
    (getXCount parseTweet text).weightedLength =
      (parseTweet text).weightedLength ∧
    (getXCount parseTweet text).permillage =
      (parseTweet text).permillage := by
  refine ⟨?_, rfl, rfl, rfl⟩
  simp [getXCount]

/-- Claim C10: runDueQueue is conservative: attempted equals succeeded
plus failed, succeeded equals the number of published items returned,
and the remaining and published items together account for exactly the
input queue items. -/
theorem c10_run_conservation (env : QueueEnv) (queue : List QueueItem) :
    (runDueQueue env queue).attempted =
      (runDueQueue env queue).succeeded + (runDueQueue env queue).failed ∧
    (runDueQueue env queue).succeeded =
      (runDueQueue env queue).published.length ∧
    (runDueQueue env queue).remaining.length +
      (runDueQueue env queue).published.length = queue.length := by
  have h := foldl_counts env queue initRunAcc
  rcases h with ⟨h1, h2, h3, h4⟩
  simp only [initRunAcc, List.length_nil] at h1 h2 h3 h4
  refine ⟨?_, ?_, ?_⟩ <;>
    simp only [runDueQueue, length_sSort, initRunAcc, List.length_nil] <;>
    omega

/-! ## Idempotence of the autofixes: generic adjacency lemmas -/

theorem noAdj_tail (p q : Nat → Bool) (c : Nat) (l : Str)
    (h : noAdj p q (c :: l) = true) : noAdj p q l = true := by
  cases l with
  | nil => rfl
  | cons c2 l2 =>
    have heq : noAdj p q (c :: c2 :: l2) =
        ((!(p c && q c2)) && noAdj p q (c2 :: l2)) := rfl
    rw [heq] at h
    exact (Bool.and_eq_true_iff.mp h).2

theorem noAdj_cons (p q : Nat → Bool) (c : Nat) (l : Str)
    (h : ∀ d, l.head? = some d → (p c && q d) = false)
    (hl : noAdj p q l = true) : noAdj p q (c :: l) = true := by
  cases l with
  | nil => rfl
  | cons c2 l2 =>
    have hstep : (p c && q c2) = false := h c2 rfl
    show ((!(p c && q c2)) && noAdj p q (c2 :: l2)) = true
    rw [hstep, hl]
    rfl

theorem noAdj_cons_head (p q : Nat → Bool) (c1 c2 : Nat) (l : Str)
    (h : noAdj p q (c1 :: c2 :: l) = true) : (p c1 && q c2) = false := by
  have heq : noAdj p q (c1 :: c2 :: l) =
      ((!(p c1 && q c2)) && noAdj p q (c2 :: l)) := rfl
  rw [heq] at h
  have h1 := (Bool.and_eq_true_iff.mp h).1
  cases hpq : (p c1 && q c2)
  · rfl
  · rw [hpq] at h1
    simp at h1

theorem insPair_cons_pos (p q : Nat → Bool) (c1 c2 : Nat) (rest : Str)
    (h : (p c1 && q c2) = true) :
    insPair p q (c1 :: c2 :: rest) = c1 :: 0x20 :: c2 :: insPair p q rest := by
  show (if p c1 && q c2 then c1 :: 0x20 :: c2 :: insPair p q rest
    else c1 :: insPair p q (c2 :: rest)) = _
  rw [if_pos h]

theorem insPair_cons_neg (p q : Nat → Bool) (c1 c2 : Nat) (rest : Str)
    (h : ¬ (p c1 && q c2) = true) :
    insPair p q (c1 :: c2 :: rest) = c1 :: insPair p q (c2 :: rest) := by
  show (if p c1 && q c2 then c1 :: 0x20 :: c2 :: insPair p q rest
    else c1 :: insPair p q (c2 :: rest)) = _
  rw [if_neg h]

theorem insPair_head (p q : Nat → Bool) (c : Nat) (l : Str) :
    (insPair p q (c :: l)).head? = some c := by
  cases l with
  | nil => rfl
  | cons c2 l2 =>
    by_cases h : (p c && q c2) = true
    · rw [insPair_cons_pos p q c c2 l2 h]
      rfl
    · rw [insPair_cons_neg p q c c2 l2 h]
      rfl

theorem collapseSp_head (c : Nat) (l : Str) :
    (collapseSp (c :: l)).head? = some c := by
  induction l generalizing c with
  | nil => rfl
  | cons c2 l2 ih =>
    show (if c = 0x20 && c2 = 0x20 then collapseSp (c2 :: l2)
      else c :: collapseSp (c2 :: l2)).head? = some c
    by_cases h : (c = 0x20 && c2 = 0x20) = true
    · rw [if_pos h]
      have hc : c = 0x20 := of_decide_eq_true (Bool.and_eq_true_iff.mp h).1
      have hc2 : c2 = 0x20 := of_decide_eq_true (Bool.and_eq_true_iff.mp h).2
      rw [ih c2, hc, hc2]
    · rw [if_neg h]
      rfl

theorem noAdj_insPair_self (p q : Nat → Bool)
    (hdisj : ∀ c, q c = true → p c = false)
    (hpsp : p 0x20 = false) (hqsp : q 0x20 = false) (s : Str) :
    noAdj p q (insPair p q s) = true := by
  induction s using insPair.induct p q with
  | case1 => rfl
  | case2 c => rfl
  | case3 c1 c2 rest h ih =>
    have hq2 : q c2 = true := (Bool.and_eq_true_iff.mp h).2
    have hp2 : p c2 = false := hdisj c2 hq2
    rw [insPair_cons_pos p q c1 c2 rest h]
    apply noAdj_cons
    · intro d hd
      have hd2 : d = 0x20 := by simpa using hd.symm
      rw [hd2, hqsp]
      simp
    apply noAdj_cons
    · intro d hd
      rw [hpsp]
      simp
    apply noAdj_cons
    · intro d hd
      rw [hp2]
      simp
    exact ih
  | case4 c1 c2 rest h ih =>
    rw [insPair_cons_neg p q c1 c2 rest h]
    apply noAdj_cons
    · intro d hd
      rw [insPair_head] at hd
      have hd2 : d = c2 := by simpa using hd.symm
      rw [hd2]
      simpa using h
    exact ih

theorem noAdj_insPair_pres (a b p q : Nat → Bool)
    (hasp : a 0x20 = false) (hbsp : b 0x20 = false) (s : Str)
    (hs : noAdj a b s = true) :
    noAdj a b (insPair p q s) = true := by
  induction s using insPair.induct p q with
  | case1 => rfl
  | case2 c => rfl
  | case3 c1 c2 rest h ih =>
    have hrest : noAdj a b rest = true :=
      noAdj_tail a b c2 rest (noAdj_tail a b c1 (c2 :: rest) hs)
    rw [insPair_cons_pos p q c1 c2 rest h]
    apply noAdj_cons
    · intro d hd
      have hd2 : d = 0x20 := by simpa using hd.symm
      rw [hd2, hbsp]
      simp
    apply noAdj_cons
    · intro d hd
      rw [hasp]
      simp
    apply noAdj_cons
    · intro d hd
      cases rest with
      | nil => simp [insPair] at hd
      | cons c3 rest2 =>
        rw [insPair_head] at hd
        have hd2 : d = c3 := by simpa using hd.symm
        rw [hd2]
        exact noAdj_cons_head a b c2 c3 rest2
          (noAdj_tail a b c1 (c2 :: c3 :: rest2) hs)
    exact ih hrest
  | case4 c1 c2 rest h ih =>
    rw [insPair_cons_neg p q c1 c2 rest h]
    apply noAdj_cons
    · intro d hd
      rw [insPair_head] at hd
      have hd2 : d = c2 := by simpa using hd.symm
      rw [hd2]
      exact noAdj_cons_head a b c1 c2 rest hs
    exact ih (noAdj_tail a b c1 (c2 :: rest) hs)

theorem insPair_id (p q : Nat → Bool) (s : Str)
    (hs : noAdj p q s = true) : insPair p q s = s := by
  induction s using insPair.induct p q with
  | case1 => rfl
  | case2 c => rfl
  | case3 c1 c2 rest h ih =>
    exfalso
    have := noAdj_cons_head p q c1 c2 rest hs
    rw [h] at this
    simp at this
  | case4 c1 c2 rest h ih =>
    rw [insPair_cons_neg p q c1 c2 rest h,
      ih (noAdj_tail p q c1 (c2 :: rest) hs)]

theorem collapseSp_cons_pos (c1 c2 : Nat) (rest : Str)
    (h : (c1 = 0x20 && c2 = 0x20) = true) :
    collapseSp (c1 :: c2 :: rest) = collapseSp (c2 :: rest) := by
  show (if c1 = 0x20 && c2 = 0x20 then collapseSp (c2 :: rest)
    else c1 :: collapseSp (c2 :: rest)) = collapseSp (c2 :: rest)
  rw [if_pos h]

theorem collapseSp_cons_neg (c1 c2 : Nat) (rest : Str)
    (h : ¬ (c1 = 0x20 && c2 = 0x20) = true) :
    collapseSp (c1 :: c2 :: rest) = c1 :: collapseSp (c2 :: rest) := by
  show (if c1 = 0x20 && c2 = 0x20 then collapseSp (c2 :: rest)
    else c1 :: collapseSp (c2 :: rest)) = c1 :: collapseSp (c2 :: rest)
  rw [if_neg h]

theorem noAdj_collapseSp (a b : Nat → Bool) (s : Str)
    (hs : noAdj a b s = true) : noAdj a b (collapseSp s) = true := by
  induction s using collapseSp.induct with
  | case1 => rfl
  | case2 c => rfl
  | case3 c1 c2 rest h ih =>
    rw [collapseSp_cons_pos c1 c2 rest h]
    exact ih (noAdj_tail a b c1 (c2 :: rest) hs)
  | case4 c1 c2 rest h ih =>
    rw [collapseSp_cons_neg c1 c2 rest h]
    apply noAdj_cons
    · intro d hd
      rw [collapseSp_head] at hd
      have : d = c2 := by simpa using hd.symm
      rw [this]
      exact noAdj_cons_head a b c1 c2 rest hs
    exact ih (noAdj_tail a b c1 (c2 :: rest) hs)

theorem noAdj_collapseSp_sp (s : Str) :
    noAdj isSp isSp (collapseSp s) = true := by
  induction s using collapseSp.induct with
  | case1 => rfl
  | case2 c => rfl
  | case3 c1 c2 rest h ih =>
    rw [collapseSp_cons_pos c1 c2 rest h]
    exact ih
  | case4 c1 c2 rest h ih =>
    rw [collapseSp_cons_neg c1 c2 rest h]
    apply noAdj_cons
    · intro d hd
      rw [collapseSp_head] at hd
      have hd2 : d = c2 := by simpa using hd.symm
      rw [hd2]
      cases hsp1 : isSp c1
      · rfl
      · cases hsp2 : isSp c2
        · simp
        · exfalso
          apply h
          unfold isSp at hsp1 hsp2
          rw [of_decide_eq_true hsp1, of_decide_eq_true hsp2]
          simp
    exact ih

theorem collapseSp_id (s : Str) (hs : noAdj isSp isSp s = true) :
    collapseSp s = s := by
  induction s using collapseSp.induct with
  | case1 => rfl
  | case2 c => rfl
  | case3 c1 c2 rest h ih =>
    exfalso
    have := noAdj_cons_head isSp isSp c1 c2 rest hs
    rcases Bool.and_eq_true_iff.mp h with ⟨h1, h2⟩
    unfold isSp at this
    rw [h1, h2] at this
    simp at this
  | case4 c1 c2 rest h ih =>
    rw [collapseSp_cons_neg c1 c2 rest h,
      ih (noAdj_tail isSp isSp c1 (c2 :: rest) hs)]

/-- The full-width-digit map sends every unit outside the full-width
range. -/
theorem fixFullWidthDigits_idem (s : Str) :
    fixFullWidthDigits (fixFullWidthDigits s) = fixFullWidthDigits s := by
  unfold fixFullWidthDigits
  rw [List.map_map]
  apply List.map_congr_left
  intro a _
  simp only [Function.comp]
  by_cases h : isFwDigit a = true
  · rw [if_pos h]
    have h2 : isFwDigit (a - 0xFEE0) = false := by
      simp [isFwDigit] at h ⊢
      omega
    rw [if_neg (by simp [h2])]
  · rw [if_neg h, if_neg h]

theorem spacingCore_shape (q : Nat → Bool)
    (hd1 : ∀ c, q c = true → isCJK c = false)
    (hd2 : ∀ c, isCJK c = true → q c = false)
    (hqsp : q 0x20 = false) (s : Str) :
    noAdj isCJK q (spacingCore q s) = true ∧
    noAdj q isCJK (spacingCore q s) = true ∧
    noAdj isSp isSp (spacingCore q s) = true := by
  unfold spacingCore
  refine ⟨?_, ?_, noAdj_collapseSp_sp _⟩
  · apply noAdj_collapseSp
    apply noAdj_insPair_pres isCJK q q isCJK (by rfl) hqsp
    exact noAdj_insPair_self isCJK q hd1 (by rfl) hqsp s
  · apply noAdj_collapseSp
    exact noAdj_insPair_self q isCJK hd2 hqsp (by rfl) _

theorem spacingCore_id (q : Nat → Bool) (s : Str)
    (h1 : noAdj isCJK q s = true) (h2 : noAdj q isCJK s = true)
    (h3 : noAdj isSp isSp s = true) : spacingCore q s = s := by
  unfold spacingCore
  rw [insPair_id isCJK q s h1, insPair_id q isCJK s h2, collapseSp_id s h3]

theorem spacingCore_idem (q : Nat → Bool)
    (hd1 : ∀ c, q c = true → isCJK c = false)
    (hd2 : ∀ c, isCJK c = true → q c = false)
    (hqsp : q 0x20 = false) (s : Str) :
    spacingCore q (spacingCore q s) = spacingCore q s := by
  obtain ⟨h1, h2, h3⟩ := spacingCore_shape q hd1 hd2 hqsp s
  exact spacingCore_id q _ h1 h2 h3

theorem digit_not_cjk : ∀ c, isDigitU c = true → isCJK c = false := by
  intro c h
  simp [isDigitU, isCJK] at h ⊢
  omega

theorem cjk_not_digit : ∀ c, isCJK c = true → isDigitU c = false := by
  intro c h
  simp [isDigitU, isCJK] at h ⊢
  omega

theorem latin_not_cjk : ∀ c, isLatin c = true → isCJK c = false := by
  intro c h
  simp [isLatin, isCJK] at h ⊢
  omega

theorem cjk_not_latin : ∀ c, isCJK c = true → isLatin c = false := by
  intro c h
  simp [isLatin, isCJK] at h ⊢
  omega

theorem fixCjkNumber_idem (s : Str) :
    fixSpacingBetweenCjkAndNumber (fixSpacingBetweenCjkAndNumber s) =
      fixSpacingBetweenCjkAndNumber s :=
  spacingCore_idem isDigitU digit_not_cjk cjk_not_digit (by rfl) s

theorem fixNU_cons (c : Nat) (rest : Str) :
    fixSpacingBetweenNumberAndUnit (c :: rest) =
      if isDigitU c then
        (if unitCond rest then
          c :: 0x20 :: fixSpacingBetweenNumberAndUnit rest
         else c :: fixSpacingBetweenNumberAndUnit rest)
      else c :: fixSpacingBetweenNumberAndUnit rest := rfl

theorem fixNU_head (c : Nat) (rest : Str) :
    ∃ t, fixSpacingBetweenNumberAndUnit (c :: rest) = c :: t := by
  rw [fixNU_cons]
  by_cases h1 : isDigitU c = true
  · rw [if_pos h1]
    by_cases h2 : unitCond rest = true
    · rw [if_pos h2]
      exact ⟨_, rfl⟩
    · rw [if_neg h2]
      exact ⟨_, rfl⟩
  · rw [if_neg h1]
    exact ⟨_, rfl⟩

theorem latin_not_digit (c : Nat) (h : isLatin c = true) :
    isDigitU c = false := by
  simp [isLatin, isDigitU] at h ⊢
  omega

theorem fixNU_latin_prefix (run tail : Str)
    (hrun : ∀ c ∈ run, isLatin c = true) :
    fixSpacingBetweenNumberAndUnit (run ++ tail) =
      run ++ fixSpacingBetweenNumberAndUnit tail := by
  induction run with
  | nil => rfl
  | cons c r ih =>
    have hcd : isDigitU c = false := latin_not_digit c (hrun c (by simp))
    rw [List.cons_append, fixNU_cons, if_neg (by simp [hcd])]
    rw [ih (fun d hd => hrun d (by simp [hd]))]
    rfl

theorem takeWhile_append_all (p : Nat → Bool) (l1 l2 : Str)
    (h : ∀ c ∈ l1, p c = true) :
    (l1 ++ l2).takeWhile p = l1 ++ l2.takeWhile p := by
  induction l1 with
  | nil => rfl
  | cons c r ih =>
    have hc := h c (by simp)
    rw [List.cons_append, List.takeWhile_cons, if_pos hc,
      ih (fun d hd => h d (by simp [hd]))]
    rfl

theorem dropWhile_head_not (p : Nat → Bool) (l : Str) :
    ∀ d, (l.dropWhile p).head? = some d → p d = false := by
  induction l with
  | nil =>
    intro d hd
    simp at hd
  | cons c r ih =>
    intro d hd
    rw [List.dropWhile_cons] at hd
    by_cases h : p c = true
    · rw [if_pos h] at hd
      exact ih d hd
    · rw [if_neg h] at hd
      simp at hd
      exact hd ▸ Bool.eq_false_iff.mpr h

theorem unitCond_fixNU (rest : Str) :
    unitCond (fixSpacingBetweenNumberAndUnit rest) = unitCond rest := by
  have hsplit : rest.takeWhile isLatin ++ rest.dropWhile isLatin = rest :=
    List.takeWhile_append_dropWhile isLatin rest
  have hall : ∀ c ∈ rest.takeWhile isLatin, isLatin c = true :=
    fun c hc => List.mem_takeWhile_imp hc
  have hpref : fixSpacingBetweenNumberAndUnit rest =
      rest.takeWhile isLatin ++
        fixSpacingBetweenNumberAndUnit (rest.dropWhile isLatin) := by
    conv_lhs => rw [← hsplit]
    exact fixNU_latin_prefix _ _ hall
  cases htail : rest.dropWhile isLatin with
  | nil =>
    have hre : rest.takeWhile isLatin = rest := by
      conv_rhs => rw [← hsplit]
      rw [htail, List.append_nil]
    rw [htail] at hpref
    rw [hpref]
    simp [fixSpacingBetweenNumberAndUnit, hre]
  | cons d t =>
    have hld : isLatin d = false :=
      dropWhile_head_not isLatin rest d (by rw [htail]; rfl)
    obtain ⟨u, hu⟩ := fixNU_head d t
    rw [htail, hu] at hpref
    have hrest : rest = rest.takeWhile isLatin ++ d :: t := by
      conv_lhs => rw [← hsplit]
      rw [htail]
    have h1 : (rest.takeWhile isLatin ++ d :: u).takeWhile isLatin =
        rest.takeWhile isLatin := by
      rw [takeWhile_append_all isLatin _ _ hall, List.takeWhile_cons,
        if_neg (by simp [hld]), List.append_nil]
    have h2 : (rest.takeWhile isLatin ++ d :: t).takeWhile isLatin =
        rest.takeWhile isLatin := by
      rw [takeWhile_append_all isLatin _ _ hall, List.takeWhile_cons,
        if_neg (by simp [hld]), List.append_nil]
    rw [hpref]
    conv_rhs => rw [hrest]
    simp only [unitCond]
    rw [h1, h2, List.drop_left, List.drop_left]
    rfl

theorem fixNU_idem (s : Str) :
    fixSpacingBetweenNumberAndUnit (fixSpacingBetweenNumberAndUnit s) =
      fixSpacingBetweenNumberAndUnit s := by
  induction s with
  | nil => rfl
  | cons c rest ih =>
    rw [fixNU_cons]
    by_cases h1 : isDigitU c = true
    · rw [if_pos h1]
      by_cases h2 : unitCond rest = true
      · rw [if_pos h2]
        rw [fixNU_cons, if_pos h1]
        have hsp : unitCond (0x20 :: fixSpacingBetweenNumberAndUnit rest) =
            false := by
          simp [unitCond, List.takeWhile_cons, isLatin]
        rw [if_neg (by simp [hsp]), fixNU_cons,
          if_neg (by decide : ¬ isDigitU 0x20 = true), ih]
      · rw [if_neg h2]
        rw [fixNU_cons, if_pos h1,
          if_neg (by rw [unitCond_fixNU]; exact h2), ih]
    · rw [if_neg h1]
      rw [fixNU_cons, if_neg h1, ih]

theorem ws_not_close (c : Nat) (h : jsWs c = true) : isClosePunc c = false := by
  simp [jsWs, isClosePunc] at h ⊢
  omega

theorem open_not_ws (c : Nat) (h : isOpenPunc c = true) : jsWs c = false := by
  simp [jsWs, isOpenPunc] at h ⊢
  omega

theorem noAdj_suffix (p q : Nat → Bool) (l1 l2 : Str)
    (h : noAdj p q (l1 ++ l2) = true) : noAdj p q l2 = true := by
  induction l1 with
  | nil => exact h
  | cons c t ih => exact ih (noAdj_tail p q c (t ++ l2) h)

theorem noAdj_mid (p q : Nat → Bool) (xs : Str) (y z : Nat) (t : Str)
    (h : noAdj p q (xs ++ y :: z :: t) = true) : (p y && q z) = false :=
  noAdj_cons_head p q y z t (noAdj_suffix p q xs (y :: z :: t) h)

theorem noAdj_of_all_snd (p q : Nat → Bool) (l : Str)
    (h : ∀ c ∈ l, q c = false) : noAdj p q l = true := by
  induction l with
  | nil => rfl
  | cons c t ih =>
    apply noAdj_cons
    · intro d hd
      have : d ∈ t := by
        cases t with
        | nil => exact Option.noConfusion hd
        | cons e t2 =>
          have : d = e := by simpa using hd.symm
          simp [this]
      rw [h d (by simp [this])]
      simp
    exact ih (fun c hc => h c (by simp [hc]))

theorem noAdjWC_allws_append (l1 l2 : Str)
    (h1 : ∀ a ∈ l1, jsWs a = true)
    (hhead : ∀ d, l2.head? = some d → isClosePunc d = false)
    (h2 : noAdj jsWs isClosePunc l2 = true) :
    noAdj jsWs isClosePunc (l1 ++ l2) = true := by
  induction l1 with
  | nil => exact h2
  | cons a t ih =>
    apply noAdj_cons
    · intro d hd
      cases t with
      | nil =>
        rw [hhead d hd]
        simp
      | cons b t2 =>
        have hdb : d = b := by simpa using hd.symm
        rw [hdb, ws_not_close b (h1 b (by simp))]
        simp
    exact ih (fun a ha => h1 a (by simp [ha]))

theorem delWsBC_cons (acc : Str) (c : Nat) (rest : Str) :
    delWsBeforeClose acc (c :: rest) =
      if jsWs c then delWsBeforeClose (c :: acc) rest
      else if isClosePunc c then c :: delWsBeforeClose [] rest
      else acc.reverse ++ c :: delWsBeforeClose [] rest := rfl

theorem delWsBC_id_gen (s : Str) : ∀ acc : Str,
    (∀ c ∈ acc, jsWs c = true) →
    noAdj jsWs isClosePunc (acc.reverse ++ s) = true →
    delWsBeforeClose acc s = acc.reverse ++ s := by
  induction s with
  | nil =>
    intro acc _ _
    simp [delWsBeforeClose]
  | cons c rest ih =>
    intro acc hacc h
    rw [delWsBC_cons]
    by_cases hws : jsWs c = true
    · rw [if_pos hws]
      have := ih (c :: acc)
        (by
          intro d hd
          rcases List.mem_cons.mp hd with hd | hd
          · rw [hd]; exact hws
          · exact hacc d hd)
        (by
          rw [List.reverse_cons, List.append_assoc]
          simpa using h)
      rw [this, List.reverse_cons, List.append_assoc]
      rfl
    · rw [if_neg hws]
      by_cases hcl : isClosePunc c = true
      · rw [if_pos hcl]
        cases acc with
        | nil =>
          simp only [List.reverse_nil, List.nil_append] at h ⊢
          rw [ih [] (by simp) (by simpa using noAdj_tail _ _ c rest h)]
          rfl
        | cons a acc2 =>
          exfalso
          have hmid : (jsWs a && isClosePunc c) = false := by
            apply noAdj_mid jsWs isClosePunc acc2.reverse a c rest
            rw [List.reverse_cons, List.append_assoc] at h
            simpa using h
          rw [hacc a (by simp), hcl] at hmid
          simp at hmid
      · rw [if_neg hcl]
        have hrest : noAdj jsWs isClosePunc rest = true := by
          have := noAdj_suffix jsWs isClosePunc acc.reverse (c :: rest) h
          exact noAdj_tail _ _ c rest this
        rw [ih [] (by simp) (by simpa using hrest)]
        rfl

theorem delWsBC_shape (s : Str) : ∀ acc : Str,
    (∀ c ∈ acc, jsWs c = true) →
    noAdj jsWs isClosePunc (delWsBeforeClose acc s) = true := by
  induction s with
  | nil =>
    intro acc hacc
    simp only [delWsBeforeClose]
    apply noAdj_of_all_snd
    intro d hd
    exact ws_not_close d (hacc d (List.mem_reverse.mp hd))
  | cons c rest ih =>
    intro acc hacc
    rw [delWsBC_cons]
    by_cases hws : jsWs c = true
    · rw [if_pos hws]
      apply ih
      intro d hd
      rcases List.mem_cons.mp hd with hd | hd
      · rw [hd]; exact hws
      · exact hacc d hd
    · rw [if_neg hws]
      have hcns : jsWs c = false := by
        cases hq : jsWs c
        · rfl
        · exact absurd hq hws
      by_cases hcl : isClosePunc c = true
      · rw [if_pos hcl]
        apply noAdj_cons
        · intro d _
          rw [hcns]
          simp
        exact ih [] (by simp)
      · rw [if_neg hcl]
        apply noAdjWC_allws_append
        · intro a ha
          exact hacc a (List.mem_reverse.mp ha)
        · intro d hd
          have : d = c := by simpa using hd.symm
          rw [this]
          cases hq : isClosePunc c
          · rfl
          · exact absurd hq hcl
        · apply noAdj_cons
          · intro d _
            rw [hcns]
            simp
          exact ih [] (by simp)

theorem delWsAO_cons (skip : Bool) (c : Nat) (rest : Str) :
    delWsAfterOpen skip (c :: rest) =
      if skip && jsWs c then delWsAfterOpen true rest
      else if isOpenPunc c then c :: delWsAfterOpen true rest
      else c :: delWsAfterOpen false rest := rfl

theorem delWsAO_head_true (l : Str) :
    ∀ d, (delWsAfterOpen true l).head? = some d → jsWs d = false := by
  induction l with
  | nil =>
    intro d hd
    simp [delWsAfterOpen] at hd
  | cons c rest ih =>
    intro d hd
    rw [delWsAO_cons] at hd
    by_cases hws : jsWs c = true
    · rw [if_pos (by simp [hws])] at hd
      exact ih d hd
    · have hcf : jsWs c = false := by
        cases hq : jsWs c
        · rfl
        · exact absurd hq hws
      rw [if_neg (by simp [hcf])] at hd
      by_cases hop : isOpenPunc c = true
      · rw [if_pos hop] at hd
        have : d = c := by simpa using hd.symm
        rw [this]
        exact hcf
      · rw [if_neg hop] at hd
        have : d = c := by simpa using hd.symm
        rw [this]
        exact hcf

theorem delWsAO_head_false (c : Nat) (rest : Str) :
    (delWsAfterOpen false (c :: rest)).head? = some c := by
  rw [delWsAO_cons]
  rw [if_neg (by simp)]
  by_cases hop : isOpenPunc c = true
  · rw [if_pos hop]
    rfl
  · rw [if_neg hop]
    rfl

theorem delWsAO_id (s : Str) : ∀ skip : Bool,
    noAdj isOpenPunc jsWs s = true →
    (skip = true → ∀ d, s.head? = some d → jsWs d = false) →
    delWsAfterOpen skip s = s := by
  induction s with
  | nil =>
    intro skip _ _
    rfl
  | cons c rest ih =>
    intro skip h hskip
    rw [delWsAO_cons]
    have hnot : (skip && jsWs c) = false := by
      cases hsk : skip
      · rfl
      · rw [hskip hsk c rfl]
        rfl
    rw [if_neg (by simp [hnot])]
    by_cases hop : isOpenPunc c = true
    · rw [if_pos hop]
      rw [ih true (noAdj_tail _ _ c rest h)
        (by
          intro _ d hd
          cases rest with
          | nil => simp at hd
          | cons e t =>
            have hde : d = e := by simpa using hd.symm
            have := noAdj_cons_head isOpenPunc jsWs c e t h
            rw [hop] at this
            simp at this
            rw [hde]
            exact this)]
    · rw [if_neg hop]
      rw [ih false (noAdj_tail _ _ c rest h) (by intro hf; cases hf)]

theorem delWsAO_shape (s : Str) : ∀ skip : Bool,
    noAdj isOpenPunc jsWs (delWsAfterOpen skip s) = true := by
  induction s with
  | nil =>
    intro skip
    rfl
  | cons c rest ih =>
    intro skip
    rw [delWsAO_cons]
    by_cases h1 : (skip && jsWs c) = true
    · rw [if_pos h1]
      exact ih true
    · rw [if_neg h1]
      by_cases hop : isOpenPunc c = true
      · rw [if_pos hop]
        apply noAdj_cons
        · intro d hd
          rw [delWsAO_head_true rest d hd]
          simp
        exact ih true
      · rw [if_neg hop]
        apply noAdj_cons
        · intro d _
          have : isOpenPunc c = false := by
            cases hq : isOpenPunc c
            · rfl
            · exact absurd hq hop
          rw [this]
          simp
        exact ih false

theorem delWsAO_pres (s : Str) : ∀ skip : Bool,
    noAdj jsWs isClosePunc s = true →
    noAdj jsWs isClosePunc (delWsAfterOpen skip s) = true := by
  induction s with
  | nil =>
    intro skip _
    rfl
  | cons c rest ih =>
    intro skip h
    rw [delWsAO_cons]
    by_cases h1 : (skip && jsWs c) = true
    · rw [if_pos h1]
      exact ih true (noAdj_tail _ _ c rest h)
    · rw [if_neg h1]
      have hpair : ∀ d, (delWsAfterOpen false rest).head? = some d →
          (jsWs c && isClosePunc d) = false := by
        intro d hd
        cases rest with
        | nil => simp [delWsAfterOpen] at hd
        | cons e t =>
          rw [delWsAO_head_false e t] at hd
          have hde : d = e := by simpa using hd.symm
          rw [hde]
          exact noAdj_cons_head jsWs isClosePunc c e t h
      by_cases hop : isOpenPunc c = true
      · rw [if_pos hop]
        apply noAdj_cons
        · intro d _
          rw [open_not_ws c hop]
          simp
        exact ih true (noAdj_tail _ _ c rest h)
      · rw [if_neg hop]
        apply noAdj_cons
        · exact hpair
        exact ih false (noAdj_tail _ _ c rest h)

theorem fixPunct_idem (s : Str) :
    fixPunctuationSpacing (fixPunctuationSpacing s) =
      fixPunctuationSpacing s := by
  unfold fixPunctuationSpacing
  have h1 : noAdj jsWs isClosePunc
      (delWsAfterOpen false (delWsBeforeClose [] s)) = true :=
    delWsAO_pres _ false (delWsBC_shape s [] (by simp))
  have h2 : noAdj isOpenPunc jsWs
      (delWsAfterOpen false (delWsBeforeClose [] s)) = true :=
    delWsAO_shape _ false
  rw [delWsBC_id_gen _ [] (by simp) (by simpa using h1)]
  simp only [List.reverse_nil, List.nil_append]
  rw [delWsAO_id _ false h2 (by intro hf; cases hf)]

theorem noRun3_tail (t c : Nat) (l : Str) (h : noRun3 t (c :: l) = true) :
    noRun3 t l = true := by
  cases l with
  | nil => rfl
  | cons a m =>
    cases m with
    | nil => rfl
    | cons b m2 =>
      have heq : noRun3 t (c :: a :: b :: m2) =
          ((!(decide (c = t) && decide (a = t) && decide (b = t))) &&
            noRun3 t (a :: b :: m2)) := rfl
      rw [heq] at h
      exact (Bool.and_eq_true_iff.mp h).2

theorem noRun3_short (t : Nat) (l : Str) (h : l.length ≤ 2) :
    noRun3 t l = true := by
  cases l with
  | nil => rfl
  | cons a m =>
    cases m with
    | nil => rfl
    | cons b m2 =>
      cases m2 with
      | nil => rfl
      | cons c m3 =>
        exfalso
        simp only [List.length_cons] at h
        omega

theorem noRun3_cons_fstNe (t c : Nat) (l : Str) (hc : ¬ c = t)
    (h : noRun3 t l = true) : noRun3 t (c :: l) = true := by
  cases l with
  | nil => rfl
  | cons a m =>
    cases m with
    | nil => rfl
    | cons b m2 =>
      show ((!(decide (c = t) && decide (a = t) && decide (b = t))) &&
        noRun3 t (a :: b :: m2)) = true
      rw [h, decide_eq_false hc]
      simp

theorem noRun3_cons_sndNe (t a b : Nat) (l : Str) (hb : ¬ b = t)
    (h : noRun3 t l = true) : noRun3 t (a :: b :: l) = true := by
  cases l with
  | nil => rfl
  | cons e m =>
    show ((!(decide (a = t) && decide (b = t) && decide (e = t))) &&
      noRun3 t (b :: e :: m)) = true
    rw [noRun3_cons_fstNe t b (e :: m) hb h, decide_eq_false hb]
    simp

theorem noRun3_cons_thirdNe (t a b c : Nat) (l : Str) (hc : ¬ c = t)
    (h : noRun3 t (b :: c :: l) = true) :
    noRun3 t (a :: b :: c :: l) = true := by
  show ((!(decide (a = t) && decide (b = t) && decide (c = t))) &&
    noRun3 t (b :: c :: l)) = true
  rw [h, decide_eq_false hc]
  simp

theorem noRun3_cons3 (t a b c : Nat) (l : Str)
    (habc : (decide (a = t) && decide (b = t) && decide (c = t)) = false)
    (h : noRun3 t (b :: c :: l) = true) :
    noRun3 t (a :: b :: c :: l) = true := by
  show ((!(decide (a = t) && decide (b = t) && decide (c = t))) &&
    noRun3 t (b :: c :: l)) = true
  rw [h, habc]
  rfl

theorem noRun3_of_all_ne (t : Nat) (l : Str) (h : ∀ c ∈ l, ¬ c = t) :
    noRun3 t l = true := by
  induction l with
  | nil => rfl
  | cons c m ih =>
    exact noRun3_cons_fstNe t c m (h c (by simp))
      (ih (fun d hd => h d (by simp [hd])))

theorem noRun3_append_allNe (t : Nat) (l1 l2 : Str)
    (h1 : ∀ a ∈ l1, ¬ a = t) (h2 : noRun3 t l2 = true) :
    noRun3 t (l1 ++ l2) = true := by
  induction l1 with
  | nil => exact h2
  | cons a m ih =>
    exact noRun3_cons_fstNe t a _ (h1 a (by simp))
      (ih (fun d hd => h1 d (by simp [hd])))

theorem noRun3_suffix (t : Nat) (l1 l2 : Str)
    (h : noRun3 t (l1 ++ l2) = true) : noRun3 t l2 = true := by
  induction l1 with
  | nil => exact h
  | cons a m ih => exact ih (noRun3_tail t a _ h)

theorem noRun3_append_nonT (t : Nat) (l1 : Str) (c : Nat) (l2 : Str)
    (hc : ¬ c = t) (h1 : noRun3 t l1 = true) (h2 : noRun3 t l2 = true) :
    noRun3 t (l1 ++ c :: l2) = true := by
  induction l1 with
  | nil => exact noRun3_cons_fstNe t c l2 hc h2
  | cons a l1 ih =>
    cases l1 with
    | nil => exact noRun3_cons_sndNe t a c l2 hc h2
    | cons b l1p =>
      cases l1p with
      | nil =>
        exact noRun3_cons_thirdNe t a b c l2 hc
          (noRun3_cons_sndNe t b c l2 hc h2)
      | cons d r =>
        have heq : noRun3 t (a :: b :: d :: r) =
            ((!(decide (a = t) && decide (b = t) && decide (d = t))) &&
              noRun3 t (b :: d :: r)) := rfl
        rw [heq] at h1
        obtain ⟨hfst, htl⟩ := Bool.and_eq_true_iff.mp h1
        have hT : (decide (a = t) && decide (b = t) && decide (d = t)) =
            false := by
          cases hq : (decide (a = t) && decide (b = t) && decide (d = t))
          · rfl
          · rw [hq] at hfst
            exact absurd hfst (by simp)
        exact noRun3_cons3 t a b d (r ++ c :: l2) hT (ih htl)

theorem runRepl_nil (t acc : Nat) :
    runRepl t acc [] =
      if 3 ≤ acc then [0x2026, 0x2026] else List.replicate acc t := rfl

theorem runRepl_cons (t acc c : Nat) (rest : Str) :
    runRepl t acc (c :: rest) =
      if c = t then runRepl t (acc + 1) rest
      else (if 3 ≤ acc then [0x2026, 0x2026] else List.replicate acc t) ++
        c :: runRepl t 0 rest := rfl

theorem flush_noRun3 (t acc : Nat) :
    noRun3 t (if 3 ≤ acc then [0x2026, 0x2026] else List.replicate acc t) =
      true := by
  by_cases h : 3 ≤ acc
  · rw [if_pos h]
    rfl
  · rw [if_neg h]
    apply noRun3_short
    rw [List.length_replicate]
    omega

theorem noRun3_runRepl (t : Nat) (s : Str) :
    ∀ acc, noRun3 t (runRepl t acc s) = true := by
  induction s with
  | nil =>
    intro acc
    rw [runRepl_nil]
    exact flush_noRun3 t acc
  | cons c rest ih =>
    intro acc
    rw [runRepl_cons]
    by_cases hc : c = t
    · rw [if_pos hc]
      exact ih (acc + 1)
    · rw [if_neg hc]
      exact noRun3_append_nonT t _ c _ hc (flush_noRun3 t acc) (ih 0)

theorem runRepl_pos_head (t : Nat) (s : Str) : ∀ acc, 1 ≤ acc →
    (runRepl t acc s).head? = some t ∨
      (runRepl t acc s).head? = some 0x2026 := by
  induction s with
  | nil =>
    intro acc h1
    rw [runRepl_nil]
    by_cases h3 : 3 ≤ acc
    · rw [if_pos h3]
      right
      rfl
    · rw [if_neg h3]
      obtain ⟨n, rfl⟩ : ∃ n, acc = n + 1 := ⟨acc - 1, by omega⟩
      rw [List.replicate_succ]
      left
      rfl
  | cons c rest ih =>
    intro acc h1
    rw [runRepl_cons]
    by_cases hc : c = t
    · rw [if_pos hc]
      exact ih (acc + 1) (by omega)
    · rw [if_neg hc]
      by_cases h3 : 3 ≤ acc
      · rw [if_pos h3]
        right
        rfl
      · rw [if_neg h3]
        obtain ⟨n, rfl⟩ : ∃ n, acc = n + 1 := ⟨acc - 1, by omega⟩
        rw [List.replicate_succ]
        left
        rfl

theorem runRepl_zero_head (t : Nat) (s : Str) :
    (runRepl t 0 s).head? = s.head? ∨
      ((runRepl t 0 s).head? = some t ∨
        (runRepl t 0 s).head? = some 0x2026) := by
  cases s with
  | nil =>
    left
    rfl
  | cons c rest =>
    rw [runRepl_cons]
    by_cases hc : c = t
    · rw [if_pos hc]
      right
      exact runRepl_pos_head t rest 1 (by omega)
    · rw [if_neg hc, if_neg (by omega : ¬ 3 ≤ 0)]
      left
      rfl

theorem runRepl_pres_noRun3 (t tp : Nat) (htt : ¬ t = tp)
    (h26 : ¬ (0x2026 : Nat) = tp) (s : Str) :
    ∀ acc, noRun3 tp s = true → noRun3 tp (runRepl t acc s) = true := by
  induction s with
  | nil =>
    intro acc _
    rw [runRepl_nil]
    by_cases h3 : 3 ≤ acc
    · rw [if_pos h3]
      apply noRun3_of_all_ne
      intro d hd
      have hd26 : d = 0x2026 := by
        rcases List.mem_cons.mp hd with h | h
        · exact h
        · simpa using h
      rw [hd26]
      exact h26
    · rw [if_neg h3]
      apply noRun3_of_all_ne
      intro d hd
      rw [(List.mem_replicate.mp hd).2]
      exact htt
  | cons c rest ih =>
    intro acc hs
    rw [runRepl_cons]
    by_cases hc : c = t
    · rw [if_pos hc]
      exact ih (acc + 1) (noRun3_tail tp c rest hs)
    · rw [if_neg hc]
      apply noRun3_append_allNe
      · intro a ha
        by_cases h3 : 3 ≤ acc
        · rw [if_pos h3] at ha
          have ha26 : a = 0x2026 := by
            rcases List.mem_cons.mp ha with h | h
            · exact h
            · simpa using h
          rw [ha26]
          exact h26
        · rw [if_neg h3] at ha
          rw [(List.mem_replicate.mp ha).2]
          exact htt
      · have hX : noRun3 tp (runRepl t 0 rest) = true :=
          ih 0 (noRun3_tail tp c rest hs)
        cases hX0 : runRepl t 0 rest with
        | nil => exact noRun3_short tp [c] (by simp)
        | cons x1 X1 =>
          cases hX1 : X1 with
          | nil => exact noRun3_short tp [c, x1] (by simp)
          | cons x2 X2 =>
            rw [hX1] at hX0
            rw [hX0] at hX
            by_cases hx1 : x1 = tp
            · have hhd := runRepl_zero_head t rest
              rw [hX0] at hhd
              have hr1 : rest.head? = some x1 := by
                rcases hhd with h | h | h
                · exact h.symm
                · exfalso
                  have hx1t : x1 = t := by simpa using h
                  exact htt (hx1t ▸ hx1)
                · exfalso
                  have hx126 : x1 = 0x2026 := by simpa using h
                  exact h26 (hx126 ▸ hx1)
              cases hrest : rest with
              | nil =>
                rw [hrest] at hr1
                exact Option.noConfusion hr1
              | cons d r =>
                rw [hrest] at hr1 hX0
                have hdx1 : d = x1 := by simpa using hr1
                have hdt : ¬ d = t := by
                  rw [hdx1]
                  intro hq
                  exact htt (hq ▸ hx1)
                rw [runRepl_cons, if_neg hdt,
                  if_neg (by omega : ¬ 3 ≤ 0)] at hX0
                simp only [List.replicate_zero, List.nil_append] at hX0
                have hXr : runRepl t 0 r = x2 :: X2 := by
                  injection hX0 with hh1 hh2
                by_cases hx2 : x2 = tp
                · have hhd2 := runRepl_zero_head t r
                  rw [hXr] at hhd2
                  have hr2 : r.head? = some x2 := by
                    rcases hhd2 with h | h | h
                    · exact h.symm
                    · exfalso
                      have hx2t : x2 = t := by simpa using h
                      exact htt (hx2t ▸ hx2)
                    · exfalso
                      have hx226 : x2 = 0x2026 := by simpa using h
                      exact h26 (hx226 ▸ hx2)
                  cases hrr : r with
                  | nil =>
                    rw [hrr] at hr2
                    exact Option.noConfusion hr2
                  | cons e r2 =>
                    rw [hrr] at hr2
                    have hex2 : e = x2 := by simpa using hr2
                    rw [hrest, hrr] at hs
                    have heq : noRun3 tp (c :: d :: e :: r2) =
                        ((!(decide (c = tp) && decide (d = tp) &&
                          decide (e = tp))) && noRun3 tp (d :: e :: r2)) := rfl
                    rw [heq] at hs
                    obtain ⟨h1s, _⟩ := Bool.and_eq_true_iff.mp hs
                    have hctp : ¬ c = tp := by
                      intro hq
                      rw [decide_eq_true hq,
                        decide_eq_true (hdx1.trans hx1),
                        decide_eq_true (hex2.trans hx2)] at h1s
                      simp at h1s
                    exact noRun3_cons_fstNe tp c _ hctp hX
                · exact noRun3_cons_thirdNe tp c x1 x2 X2 hx2 hX
            · exact noRun3_cons_sndNe tp c x1 (x2 :: X2) hx1
                (noRun3_tail tp x1 _ hX)

theorem runRepl_id_gen (t : Nat) (s : Str) : ∀ acc, acc ≤ 2 →
    noRun3 t (List.replicate acc t ++ s) = true →
    runRepl t acc s = List.replicate acc t ++ s := by
  induction s with
  | nil =>
    intro acc h2 _
    rw [runRepl_nil, if_neg (by omega : ¬ 3 ≤ acc), List.append_nil]
  | cons c rest ih =>
    intro acc h2 h3
    rw [runRepl_cons]
    by_cases hc : c = t
    · rw [if_pos hc]
      have hacc1 : acc ≤ 1 := by
        by_contra hq
        have hacc2 : acc = 2 := by omega
        rw [hacc2, hc] at h3
        have heq : noRun3 t (List.replicate 2 t ++ t :: rest) =
            ((!(decide (t = t) && decide (t = t) && decide (t = t))) &&
              noRun3 t (t :: t :: rest)) := rfl
        rw [heq] at h3
        simp at h3
      have hlist : List.replicate (acc + 1) t ++ rest =
          List.replicate acc t ++ t :: rest := by
        rw [List.replicate_succ' acc t, List.append_assoc]
        rfl
      have h3p : noRun3 t (List.replicate acc t ++ t :: rest) = true := by
        rw [hc] at h3
        exact h3
      rw [ih (acc + 1) (by omega) (by rw [hlist]; exact h3p), hlist, hc]
    · rw [if_neg hc, if_neg (by omega : ¬ 3 ≤ acc)]
      have hrest : noRun3 t rest = true := by
        have := noRun3_suffix t (List.replicate acc t) (c :: rest) h3
        exact noRun3_tail t c rest this
      rw [ih 0 (by omega) (by simpa using hrest)]
      rfl

theorem runRepl_id (t : Nat) (s : Str) (h : noRun3 t s = true) :
    runRepl t 0 s = s := by
  have := runRepl_id_gen t s 0 (by omega) (by simpa using h)
  simpa using this

theorem ellSpace_step (c1 c2 c3 : Nat) (rest : Str) :
    ellSpace (c1 :: c2 :: c3 :: rest) =
      if c1 = 0x2026 && c2 = 0x2026 && !(isEllStop c3) then
        c1 :: c2 :: 0x20 :: ellSpace (c3 :: rest)
      else c1 :: ellSpace (c2 :: c3 :: rest) := rfl

theorem ellSpace_cons2 (l : Str) : ∀ a b : Nat,
    ∃ v, ellSpace (a :: b :: l) = a :: b :: v := by
  induction l with
  | nil =>
    intro a b
    exact ⟨[], rfl⟩
  | cons c r ih =>
    intro a b
    rw [ellSpace_step]
    by_cases h : (a = 0x2026 && b = 0x2026 && !(isEllStop c)) = true
    · rw [if_pos h]
      exact ⟨0x20 :: ellSpace (c :: r), rfl⟩
    · rw [if_neg h]
      obtain ⟨v, hv⟩ := ih b c
      rw [hv]
      exact ⟨c :: v, rfl⟩

theorem ellSpace_cons1 (l : Str) (a : Nat) :
    ∃ v, ellSpace (a :: l) = a :: v := by
  cases l with
  | nil => exact ⟨[], rfl⟩
  | cons b m =>
    obtain ⟨v, hv⟩ := ellSpace_cons2 m a b
    exact ⟨b :: v, hv⟩

theorem noEllGap_tail (c : Nat) (l : Str) (h : noEllGap (c :: l) = true) :
    noEllGap l = true := by
  cases l with
  | nil => rfl
  | cons a m =>
    cases m with
    | nil => rfl
    | cons b m2 =>
      have heq : noEllGap (c :: a :: b :: m2) =
          ((!(decide (c = 0x2026) && decide (a = 0x2026) && !(isEllStop b))) &&
            noEllGap (a :: b :: m2)) := rfl
      rw [heq] at h
      exact (Bool.and_eq_true_iff.mp h).2

theorem noEllGap_short (l : Str) (h : l.length ≤ 2) : noEllGap l = true := by
  cases l with
  | nil => rfl
  | cons a m =>
    cases m with
    | nil => rfl
    | cons b m2 =>
      cases m2 with
      | nil => rfl
      | cons c m3 =>
        exfalso
        simp only [List.length_cons] at h
        omega

theorem noEllGap_cons_fstNe (a : Nat) (l : Str) (ha : ¬ a = 0x2026)
    (h : noEllGap l = true) : noEllGap (a :: l) = true := by
  cases l with
  | nil => rfl
  | cons b m =>
    cases m with
    | nil => rfl
    | cons c m2 =>
      show ((!(decide (a = 0x2026) && decide (b = 0x2026) && !(isEllStop c))) &&
        noEllGap (b :: c :: m2)) = true
      rw [h, decide_eq_false ha]
      simp

theorem noEllGap_cons_sndNe (a b : Nat) (l : Str) (hb : ¬ b = 0x2026)
    (h : noEllGap l = true) : noEllGap (a :: b :: l) = true := by
  cases l with
  | nil => rfl
  | cons c m =>
    show ((!(decide (a = 0x2026) && decide (b = 0x2026) && !(isEllStop c))) &&
      noEllGap (b :: c :: m)) = true
    rw [noEllGap_cons_fstNe b (c :: m) hb h, decide_eq_false hb]
    simp

theorem noEllGap_cons3 (a b c : Nat) (l : Str)
    (h1 : (decide (a = 0x2026) && decide (b = 0x2026) && !(isEllStop c)) =
      false)
    (h2 : noEllGap (b :: c :: l) = true) :
    noEllGap (a :: b :: c :: l) = true := by
  show ((!(decide (a = 0x2026) && decide (b = 0x2026) && !(isEllStop c))) &&
    noEllGap (b :: c :: l)) = true
  rw [h1, h2]
  rfl

theorem ellSpace_pres_noRun3 (t : Nat) (ht : ¬ (0x20 : Nat) = t) (s : Str)
    (hs : noRun3 t s = true) : noRun3 t (ellSpace s) = true := by
  induction s using ellSpace.induct with
  | case1 c1 c2 c3 rest h ih =>
    rw [ellSpace_step, if_pos h]
    have h3 : noRun3 t (c3 :: rest) = true :=
      noRun3_tail t c2 _ (noRun3_tail t c1 _ hs)
    exact noRun3_cons_thirdNe t c1 c2 0x20 _ ht
      (noRun3_cons_sndNe t c2 0x20 _ ht (ih h3))
  | case2 c1 c2 c3 rest h ih =>
    rw [ellSpace_step, if_neg h]
    obtain ⟨v, hv⟩ := ellSpace_cons2 rest c2 c3
    rw [hv]
    have heq : noRun3 t (c1 :: c2 :: c3 :: rest) =
        ((!(decide (c1 = t) && decide (c2 = t) && decide (c3 = t))) &&
          noRun3 t (c2 :: c3 :: rest)) := rfl
    rw [heq] at hs
    obtain ⟨h1, h2⟩ := Bool.and_eq_true_iff.mp hs
    have hT : (decide (c1 = t) && decide (c2 = t) && decide (c3 = t)) =
        false := by
      cases hq : (decide (c1 = t) && decide (c2 = t) && decide (c3 = t))
      · rfl
      · rw [hq] at h1
        exact absurd h1 (by simp)
    apply noRun3_cons3 t c1 c2 c3 v hT
    rw [← hv]
    exact ih h2
  | case3 s h =>
    cases s with
    | nil => exact hs
    | cons a m =>
      cases m with
      | nil => exact hs
      | cons b m2 =>
        cases m2 with
        | nil => exact hs
        | cons c m3 => exact absurd rfl (h a b c m3)

theorem ellStop_sp : isEllStop 0x20 = true := by decide

theorem ellSpace_estab (s : Str) : noEllGap (ellSpace s) = true := by
  induction s using ellSpace.induct with
  | case1 c1 c2 c3 rest h ih =>
    rw [ellSpace_step, if_pos h]
    obtain ⟨v, hv⟩ := ellSpace_cons1 rest c3
    rw [hv]
    rw [hv] at ih
    apply noEllGap_cons3
    · rw [ellStop_sp]
      simp
    apply noEllGap_cons_sndNe _ _ _ (by decide)
    exact ih
  | case2 c1 c2 c3 rest h ih =>
    rw [ellSpace_step, if_neg h]
    obtain ⟨v, hv⟩ := ellSpace_cons2 rest c2 c3
    rw [hv]
    rw [hv] at ih
    apply noEllGap_cons3
    · cases hq : (decide (c1 = 0x2026) && decide (c2 = 0x2026) &&
        !(isEllStop c3))
      · rfl
      · exact absurd hq (by simpa using h)
    exact ih
  | case3 s h =>
    cases s with
    | nil => rfl
    | cons a m =>
      cases m with
      | nil => rfl
      | cons b m2 =>
        cases m2 with
        | nil => exact noEllGap_short (a :: b :: []) (by simp)
        | cons c m3 => exact absurd rfl (h a b c m3)

theorem ellSpace_id (s : Str) (hs : noEllGap s = true) : ellSpace s = s := by
  induction s using ellSpace.induct with
  | case1 c1 c2 c3 rest h ih =>
    exfalso
    have heq : noEllGap (c1 :: c2 :: c3 :: rest) =
        ((!(decide (c1 = 0x2026) && decide (c2 = 0x2026) &&
          !(isEllStop c3))) && noEllGap (c2 :: c3 :: rest)) := rfl
    rw [heq] at hs
    obtain ⟨h1, _⟩ := Bool.and_eq_true_iff.mp hs
    have hh : (decide (c1 = 0x2026) && decide (c2 = 0x2026) &&
        !(isEllStop c3)) = true := by simpa using h
    rw [hh] at h1
    simp at h1
  | case2 c1 c2 c3 rest h ih =>
    rw [ellSpace_step, if_neg h, ih (noEllGap_tail c1 _ hs)]
  | case3 s h =>
    cases s with
    | nil => rfl
    | cons a m =>
      cases m with
      | nil => rfl
      | cons b m2 =>
        cases m2 with
        | nil => rfl
        | cons c m3 => exact absurd rfl (h a b c m3)

theorem fixEllipsis_idem (s : Str) :
    fixEllipsis (fixEllipsis s) = fixEllipsis s := by
  unfold fixEllipsis
  have hdot : noRun3 0x2E
      (ellSpace (runRepl 0x2026 0 (runRepl 0x3002 0 (runRepl 0x2E 0 s)))) =
        true := by
    apply ellSpace_pres_noRun3 _ (by decide)
    apply runRepl_pres_noRun3 _ _ (by decide) (by decide)
    apply runRepl_pres_noRun3 _ _ (by decide) (by decide)
    exact noRun3_runRepl 0x2E s 0
  have h02 : noRun3 0x3002
      (ellSpace (runRepl 0x2026 0 (runRepl 0x3002 0 (runRepl 0x2E 0 s)))) =
        true := by
    apply ellSpace_pres_noRun3 _ (by decide)
    apply runRepl_pres_noRun3 _ _ (by decide) (by decide)
    exact noRun3_runRepl 0x3002 _ 0
  have h26 : noRun3 0x2026
      (ellSpace (runRepl 0x2026 0 (runRepl 0x3002 0 (runRepl 0x2E 0 s)))) =
        true := by
    apply ellSpace_pres_noRun3 _ (by decide)
    exact noRun3_runRepl 0x2026 _ 0
  have hgap : noEllGap
      (ellSpace (runRepl 0x2026 0 (runRepl 0x3002 0 (runRepl 0x2E 0 s)))) =
        true := ellSpace_estab _
  rw [runRepl_id _ _ hdot, runRepl_id _ _ h02, runRepl_id _ _ h26,
    ellSpace_id _ hgap]

theorem uniqueTerms_default :
    uniqueTerms (DEFAULT_WHITELIST ++ DEFAULT_WHITELIST) = [dbTerm] := by
  decide

theorem tokenOf_zero : tokenOf 0 = dbToken := by decide

theorem replaceAll_term_eq (s : Str) :
    replaceAll dbTerm dbToken s =
      replGo 0x8C46 [0x74E3, 0x46, 0x4D] dbToken s := rfl

theorem replaceAll_token_eq (s : Str) :
    replaceAll dbToken dbTerm s =
      replGo 0x5F [0x5F, 0x54, 0x45, 0x52, 0x4D, 0x5F, 0x30, 0x5F, 0x5F]
        dbTerm s := rfl

theorem replGo_nil (p0 : Nat) (prest repl : Str) :
    replGo p0 prest repl [] = [] := by
  simp [replGo]

theorem replGo_cons (p0 : Nat) (prest repl : Str) (c : Nat) (rest : Str) :
    replGo p0 prest repl (c :: rest) =
      if (p0 :: prest).isPrefixOf (c :: rest) then
        repl ++ replGo p0 prest repl (rest.drop prest.length)
      else c :: replGo p0 prest repl rest := by
  rw [replGo]

theorem fixCL_eq (input : Str) :
    fixSpacingBetweenCjkAndLatin input DEFAULT_WHITELIST =
      replaceAll dbToken dbTerm
        (spacingCore isLatin (replaceAll dbTerm dbToken input)) := by
  simp only [fixSpacingBetweenCjkAndLatin, uniqueTerms_default, protectTerms,
    protectTermsGo, restoreTerms, List.foldl, tokenOf_zero]
  rw [show trimU (su "豆瓣FM") = dbTerm from by decide]

theorem hasSub_cons (pat : Str) (c : Nat) (rest : Str) :
    hasSub pat (c :: rest) =
      (pat.isPrefixOf (c :: rest) || hasSub pat rest) := rfl

theorem replGo_id (p0 : Nat) (prest repl : Str) (z : Str)
    (h : hasSub (p0 :: prest) z = false) : replGo p0 prest repl z = z := by
  induction z with
  | nil => exact replGo_nil p0 prest repl
  | cons c rest ih =>
    rw [replGo_cons]
    rw [hasSub_cons] at h
    obtain ⟨h1, h2⟩ := Bool.or_eq_false_iff.mp h
    rw [if_neg (by simp [h1]), ih h2]

theorem isPrefixOf_append_self (l X : Str) : l.isPrefixOf (l ++ X) = true := by
  induction l with
  | nil => simp
  | cons a m ih =>
    show (a == a && m.isPrefixOf (m ++ X)) = true
    rw [ih]
    simp

theorem isPrefixOf_eq_append (l : Str) : ∀ z : Str, l.isPrefixOf z = true →
    z = l ++ z.drop l.length := by
  induction l with
  | nil =>
    intro z _
    rfl
  | cons a m ih =>
    intro z h
    cases z with
    | nil => exact Bool.noConfusion h
    | cons b z2 =>
      have hab := Bool.and_eq_true_iff.mp
        (h : (a == b && m.isPrefixOf z2) = true)
      have ha : a = b := by simpa using hab.1
      have h2 := ih z2 hab.2
      show b :: z2 = a :: (m ++ List.drop m.length z2)
      rw [← ha, ← h2]

theorem hasSub_drop (pat z : Str) (h : hasSub pat z = false) :
    ∀ k, hasSub pat (z.drop k) = false := by
  induction z with
  | nil =>
    intro k
    rw [List.drop_nil]
    exact h
  | cons c rest ih =>
    intro k
    cases k with
    | zero => exact h
    | succ k2 =>
      rw [hasSub_cons] at h
      obtain ⟨_, h2⟩ := Bool.or_eq_false_iff.mp h
      exact ih h2 k2

theorem prefix_restore (tok0 : Nat) (tokRest : Str) (rest : Str) :
    ∀ q : Str, (∀ a ∈ q, ¬ a = 0x8C46) →
    q.isPrefixOf (replGo tok0 tokRest dbTerm rest) = true →
    q.isPrefixOf rest = true := by
  induction rest with
  | nil =>
    intro q hq h
    rw [replGo_nil] at h
    cases q with
    | nil => rfl
    | cons q0 q2 => exact Bool.noConfusion h
  | cons r0 rest2 ih =>
    intro q hq h
    rw [replGo_cons] at h
    cases q with
    | nil => rfl
    | cons q0 q2 =>
      by_cases hp : ((tok0 :: tokRest).isPrefixOf (r0 :: rest2)) = true
      · rw [if_pos hp] at h
        exfalso
        have h2 : (q0 == 0x8C46 &&
            q2.isPrefixOf ([0x74E3, 0x46, 0x4D] ++
              replGo tok0 tokRest dbTerm (rest2.drop tokRest.length))) =
            true := h
        have hq0 : q0 = 0x8C46 := by
          simpa using (Bool.and_eq_true_iff.mp h2).1
        exact hq q0 (by simp) hq0
      · rw [if_neg hp] at h
        have h2 := Bool.and_eq_true_iff.mp
          (h : (q0 == r0 &&
            q2.isPrefixOf (replGo tok0 tokRest dbTerm rest2)) = true)
        show (q0 == r0 && q2.isPrefixOf rest2) = true
        rw [h2.1, ih q2 (fun a ha => hq a (by simp [ha])) h2.2]
        rfl

theorem replGo_term_front (X : Str) :
    replGo 0x8C46 [0x74E3, 0x46, 0x4D] dbToken (dbTerm ++ X) =
      dbToken ++ replGo 0x8C46 [0x74E3, 0x46, 0x4D] dbToken X := by
  have hcnd : ((0x8C46 :: [0x74E3, 0x46, 0x4D]) : Str).isPrefixOf
      (0x8C46 :: ([0x74E3, 0x46, 0x4D] ++ X)) = true :=
    isPrefixOf_append_self [0x8C46, 0x74E3, 0x46, 0x4D] X
  show replGo 0x8C46 [0x74E3, 0x46, 0x4D] dbToken
      (0x8C46 :: ([0x74E3, 0x46, 0x4D] ++ X)) =
    dbToken ++ replGo 0x8C46 [0x74E3, 0x46, 0x4D] dbToken X
  rw [replGo_cons, if_pos hcnd, List.drop_left]

theorem protect_restore : ∀ n : Nat, ∀ z : Str, z.length ≤ n →
    hasSub dbTerm z = false →
    replaceAll dbTerm dbToken (replaceAll dbToken dbTerm z) = z := by
  intro n
  induction n with
  | zero =>
    intro z hlen _
    have hz : z = [] := List.length_eq_zero.mp (by omega)
    rw [hz, replaceAll_token_eq, replGo_nil, replaceAll_term_eq, replGo_nil]
  | succ n ih =>
    intro z hlen hsub
    cases z with
    | nil =>
      rw [replaceAll_token_eq, replGo_nil, replaceAll_term_eq, replGo_nil]
    | cons c rest =>
      rw [replaceAll_token_eq, replGo_cons]
      by_cases hA : ((0x5F ::
          [0x5F, 0x54, 0x45, 0x52, 0x4D, 0x5F, 0x30, 0x5F, 0x5F]).isPrefixOf
            (c :: rest)) = true
      · rw [if_pos hA]
        have hu := ih (rest.drop 9)
          (by
            rw [List.length_drop]
            simp only [List.length_cons] at hlen
            omega)
          (by
            have := hasSub_drop dbTerm (c :: rest) hsub 10
            exact this)
        rw [replaceAll_term_eq, replaceAll_token_eq] at hu
        show replGo 0x8C46 [0x74E3, 0x46, 0x4D] dbToken
            (dbTerm ++
              replGo 0x5F [0x5F, 0x54, 0x45, 0x52, 0x4D, 0x5F, 0x30, 0x5F, 0x5F]
                dbTerm (rest.drop 9)) = c :: rest
        rw [replGo_term_front, hu]
        exact (isPrefixOf_eq_append
          (0x5F :: [0x5F, 0x54, 0x45, 0x52, 0x4D, 0x5F, 0x30, 0x5F, 0x5F])
          (c :: rest) hA).symm
      · rw [if_neg hA]
        rw [hasSub_cons] at hsub
        obtain ⟨hs1, hs2⟩ := Bool.or_eq_false_iff.mp hsub
        rw [replaceAll_term_eq, replGo_cons]
        have hnp : ((0x8C46 :: [0x74E3, 0x46, 0x4D]).isPrefixOf
            (c :: replGo 0x5F
              [0x5F, 0x54, 0x45, 0x52, 0x4D, 0x5F, 0x30, 0x5F, 0x5F]
              dbTerm rest)) = false := by
          cases hqq : ((0x8C46 :: [0x74E3, 0x46, 0x4D]).isPrefixOf
            (c :: replGo 0x5F
              [0x5F, 0x54, 0x45, 0x52, 0x4D, 0x5F, 0x30, 0x5F, 0x5F]
              dbTerm rest))
          · rfl
          · exfalso
            have h2 := Bool.and_eq_true_iff.mp
              (hqq : (0x8C46 == c &&
                ([0x74E3, 0x46, 0x4D] : Str).isPrefixOf
                  (replGo 0x5F
                    [0x5F, 0x54, 0x45, 0x52, 0x4D, 0x5F, 0x30, 0x5F, 0x5F]
                    dbTerm rest)) = true)
            have hpr := prefix_restore 0x5F
              [0x5F, 0x54, 0x45, 0x52, 0x4D, 0x5F, 0x30, 0x5F, 0x5F] rest
              [0x74E3, 0x46, 0x4D] (by decide) h2.2
            have : dbTerm.isPrefixOf (c :: rest) = true := by
              show (0x8C46 == c && ([0x74E3, 0x46, 0x4D] : Str).isPrefixOf
                rest) = true
              rw [h2.1, hpr]
              rfl
            rw [this] at hs1
            exact Bool.noConfusion hs1
        rw [if_neg (by simp [hnp])]
        have hrest := ih rest
          (by
            simp only [List.length_cons] at hlen
            omega) hs2
        rw [replaceAll_term_eq, replaceAll_token_eq] at hrest
        rw [hrest]

theorem noAdj_no_dbTerm (z : Str) (h : noAdj isCJK isLatin z = true) :
    hasSub dbTerm z = false := by
  induction z with
  | nil => rfl
  | cons c rest ih =>
    rw [hasSub_cons, ih (noAdj_tail _ _ c rest h)]
    cases hp : dbTerm.isPrefixOf (c :: rest)
    · rfl
    · exfalso
      cases rest with
      | nil => simp [List.isPrefixOf] at hp
      | cons d rest2 =>
        cases rest2 with
        | nil => simp [List.isPrefixOf] at hp
        | cons e rest3 =>
          have h3 : (0x8C46 == c && (0x74E3 == d && (0x46 == e &&
              ([0x4D] : Str).isPrefixOf rest3))) = true := hp
          have hd0 : (0x74E3 : Nat) = d := by
            simpa using (Bool.and_eq_true_iff.mp
              (Bool.and_eq_true_iff.mp h3).2).1
          have he0 : (0x46 : Nat) = e := by
            simpa using (Bool.and_eq_true_iff.mp
              (Bool.and_eq_true_iff.mp
                (Bool.and_eq_true_iff.mp h3).2).2).1
          have hd : d = 0x74E3 := hd0.symm
          have he : e = 0x46 := he0.symm
          have hadj := noAdj_cons_head isCJK isLatin d e rest3
            (noAdj_tail _ _ c (d :: e :: rest3) h)
          rw [hd, he] at hadj
          simp [isCJK, isLatin] at hadj

theorem fixCjkLatin_idem (s : Str) :
    fixSpacingBetweenCjkAndLatin
      (fixSpacingBetweenCjkAndLatin s DEFAULT_WHITELIST) DEFAULT_WHITELIST =
    fixSpacingBetweenCjkAndLatin s DEFAULT_WHITELIST := by
  rw [fixCL_eq s, fixCL_eq]
  obtain ⟨hz1, hz2, hz3⟩ := spacingCore_shape isLatin latin_not_cjk
    cjk_not_latin (by decide) (replaceAll dbTerm dbToken s)
  rw [protect_restore
    (spacingCore isLatin (replaceAll dbTerm dbToken s)).length _ (le_refl _)
    (noAdj_no_dbTerm _ hz1)]
  rw [spacingCore_id isLatin _ hz1 hz2 hz3]

theorem dashRepl_nil (pairc : Nat) (skip : Bool) (acc : Str) :
    dashRepl pairc skip acc [] = acc.reverse := rfl

theorem dashRepl_one (pairc : Nat) (skip : Bool) (acc : Str) (c : Nat) :
    dashRepl pairc skip acc [c] =
      if skip && jsWs c then acc.reverse else acc.reverse ++ [c] := rfl

theorem dashRepl_cons (pairc : Nat) (skip : Bool) (acc : Str) (c1 c2 : Nat)
    (rest : Str) :
    dashRepl pairc skip acc (c1 :: c2 :: rest) =
      if skip && jsWs c1 then dashRepl pairc true acc (c2 :: rest)
      else if jsWs c1 then dashRepl pairc false (c1 :: acc) (c2 :: rest)
      else if c1 = pairc && c2 = pairc then
        0x20 :: 0x2014 :: 0x2014 :: 0x20 :: dashRepl pairc true [] rest
      else acc.reverse ++ c1 :: dashRepl pairc false [] (c2 :: rest) := rfl

theorem dashRepl_id (pairc : Nat) (s : Str) : ∀ acc : Str,
    noAdj (fun c => decide (c = pairc)) (fun c => decide (c = pairc)) s =
      true →
    dashRepl pairc false acc s = acc.reverse ++ s := by
  induction s with
  | nil =>
    intro acc _
    rw [dashRepl_nil, List.append_nil]
  | cons c1 s2 ih =>
    intro acc hs
    cases s2 with
    | nil =>
      rw [dashRepl_one, if_neg (by simp)]
    | cons c2 rest =>
      rw [dashRepl_cons, if_neg (by simp)]
      by_cases hw : jsWs c1 = true
      · rw [if_pos hw, ih (c1 :: acc) (noAdj_tail _ _ c1 _ hs),
          List.reverse_cons, List.append_assoc]
        rfl
      · rw [if_neg hw]
        have hpair := noAdj_cons_head
          (fun c => decide (c = pairc)) (fun c => decide (c = pairc))
          c1 c2 rest hs
        rw [if_neg (by simp only [hpair]; exact fun h => Bool.noConfusion h)]
        rw [ih [] (noAdj_tail _ _ c1 _ hs)]
        rfl

theorem getLast?_cons_some (c : Nat) (l : Str) (a : Nat)
    (h : l.getLast? = some a) : (c :: l).getLast? = some a := by
  cases l with
  | nil => exact Option.noConfusion h
  | cons b m =>
    rw [List.getLast?_cons_cons]
    exact h

theorem dashRepl_head_acc (pairc : Nat) (s : Str) :
    ∀ (skip : Bool) (acc : Str) (a : Nat), acc.getLast? = some a →
    ∀ d, (dashRepl pairc skip acc s).head? = some d → d = a ∨ d = 0x20 := by
  induction s with
  | nil =>
    intro skip acc a ha d hd
    rw [dashRepl_nil, List.head?_reverse, ha] at hd
    left
    exact (by simpa using hd.symm)
  | cons c1 s2 ih =>
    intro skip acc a ha d hd
    cases s2 with
    | nil =>
      rw [dashRepl_one] at hd
      by_cases hsw : (skip && jsWs c1) = true
      · rw [if_pos hsw, List.head?_reverse, ha] at hd
        left
        exact (by simpa using hd.symm)
      · rw [if_neg hsw] at hd
        cases hrev : acc.reverse with
        | nil =>
          rw [List.getLast?_eq_head?_reverse, hrev] at ha
          exact Option.noConfusion ha
        | cons x xs =>
          rw [hrev] at hd
          have hx : x = a := by
            rw [List.getLast?_eq_head?_reverse, hrev] at ha
            simpa using ha
          left
          have : d = x := by simpa using hd.symm
          rw [this, hx]
    | cons c2 rest =>
      rw [dashRepl_cons] at hd
      by_cases hsw : (skip && jsWs c1) = true
      · rw [if_pos hsw] at hd
        exact ih true acc a ha d hd
      · rw [if_neg hsw] at hd
        by_cases hw : jsWs c1 = true
        · rw [if_pos hw] at hd
          exact ih false (c1 :: acc) a (getLast?_cons_some c1 acc a ha) d hd
        · rw [if_neg hw] at hd
          by_cases hp : (c1 = pairc && c2 = pairc) = true
          · rw [if_pos hp] at hd
            right
            simpa using hd.symm
          · rw [if_neg hp] at hd
            cases hrev : acc.reverse with
            | nil =>
              rw [List.getLast?_eq_head?_reverse, hrev] at ha
              exact Option.noConfusion ha
            | cons x xs =>
              rw [hrev] at hd
              have hx : x = a := by
                rw [List.getLast?_eq_head?_reverse, hrev] at ha
                simpa using ha
              left
              have : d = x := by simpa using hd.symm
              rw [this, hx]

theorem dashRepl_head_nilF (pairc : Nat) (s : Str) :
    ∀ d, (dashRepl pairc false [] s).head? = some d →
      s.head? = some d ∨ d = 0x20 := by
  intro d hd
  cases s with
  | nil =>
    rw [dashRepl_nil] at hd
    exact Option.noConfusion hd
  | cons c1 s2 =>
    cases s2 with
    | nil =>
      rw [dashRepl_one, if_neg (by simp)] at hd
      left
      exact hd
    | cons c2 rest =>
      rw [dashRepl_cons, if_neg (by simp)] at hd
      by_cases hw : jsWs c1 = true
      · rw [if_pos hw] at hd
        rcases dashRepl_head_acc pairc (c2 :: rest) false [c1] c1 rfl d hd
          with h | h
        · left
          rw [h]
          rfl
        · right
          exact h
      · rw [if_neg hw] at hd
        by_cases hp : (c1 = pairc && c2 = pairc) = true
        · rw [if_pos hp] at hd
          right
          simpa using hd.symm
        · rw [if_neg hp] at hd
          left
          exact hd

theorem noAdj_cons_fstFalse (p q : Nat → Bool) (c : Nat) (l : Str)
    (hc : p c = false) (h : noAdj p q l = true) :
    noAdj p q (c :: l) = true := by
  apply noAdj_cons p q c l
  · intro d _
    rw [hc]
    rfl
  exact h

theorem noAdj_append_allFst (p q : Nat → Bool) (l1 l2 : Str)
    (h1 : ∀ a ∈ l1, p a = false) (h2 : noAdj p q l2 = true) :
    noAdj p q (l1 ++ l2) = true := by
  induction l1 with
  | nil => exact h2
  | cons a t ih =>
    exact noAdj_cons_fstFalse p q a _ (h1 a (by simp))
      (ih (fun b hb => h1 b (by simp [hb])))

theorem ws_not_hy (c : Nat) (h : jsWs c = true) : isHy c = false := by
  simp [jsWs, isHy] at h ⊢
  omega

theorem noAdj_allFst (p q : Nat → Bool) (l : Str)
    (h : ∀ a ∈ l, p a = false) : noAdj p q l = true := by
  induction l with
  | nil => rfl
  | cons a t ih =>
    exact noAdj_cons_fstFalse p q a t (h a (by simp))
      (ih (fun b hb => h b (by simp [hb])))

theorem dashRepl_estab_noHy : ∀ n : Nat, ∀ s : Str, s.length ≤ n →
    ∀ (skip : Bool) (acc : Str), (∀ c ∈ acc, jsWs c = true) →
    noAdj isHy isHy (dashRepl 0x2D skip acc s) = true := by
  intro n
  induction n with
  | zero =>
    intro s hlen skip acc hacc
    have hs : s = [] := List.length_eq_zero.mp (by omega)
    rw [hs, dashRepl_nil]
    apply noAdj_allFst
    intro a ha
    exact ws_not_hy a (hacc a (List.mem_reverse.mp ha))
  | succ n ih =>
    intro s hlen skip acc hacc
    cases s with
    | nil =>
      rw [dashRepl_nil]
      apply noAdj_allFst
      intro a ha
      exact ws_not_hy a (hacc a (List.mem_reverse.mp ha))
    | cons c1 s2 =>
      cases s2 with
      | nil =>
        rw [dashRepl_one]
        by_cases hsw : (skip && jsWs c1) = true
        · rw [if_pos hsw]
          apply noAdj_allFst
          intro a ha
          exact ws_not_hy a (hacc a (List.mem_reverse.mp ha))
        · rw [if_neg hsw]
          by_cases hc1 : isHy c1 = true
          · apply noAdj_append_allFst
            · intro a ha
              exact ws_not_hy a (hacc a (List.mem_reverse.mp ha))
            rfl
          · apply noAdj_append_allFst
            · intro a ha
              exact ws_not_hy a (hacc a (List.mem_reverse.mp ha))
            rfl
      | cons c2 rest =>
        simp only [List.length_cons] at hlen
        rw [dashRepl_cons]
        by_cases hsw : (skip && jsWs c1) = true
        · rw [if_pos hsw]
          exact ih (c2 :: rest) (by simp; omega) true acc hacc
        · rw [if_neg hsw]
          by_cases hw : jsWs c1 = true
          · rw [if_pos hw]
            apply ih (c2 :: rest) (by simp; omega) false (c1 :: acc)
            intro a ha
            rcases List.mem_cons.mp ha with h | h
            · rw [h]; exact hw
            · exact hacc a h
          · rw [if_neg hw]
            by_cases hp : (c1 = 0x2D && c2 = 0x2D) = true
            · rw [if_pos hp]
              apply noAdj_cons_fstFalse isHy isHy 0x20 _ (by decide)
              apply noAdj_cons_fstFalse isHy isHy 0x2014 _ (by decide)
              apply noAdj_cons_fstFalse isHy isHy 0x2014 _ (by decide)
              apply noAdj_cons_fstFalse isHy isHy 0x20 _ (by decide)
              exact ih rest (by omega) true [] (by simp)
            · rw [if_neg hp]
              apply noAdj_append_allFst isHy isHy acc.reverse
              · intro a ha
                exact ws_not_hy a (hacc a (List.mem_reverse.mp ha))
              apply noAdj_cons isHy isHy c1 _
              · intro d hd
                rcases dashRepl_head_nilF 0x2D (c2 :: rest) d hd with h | h
                · have hdc2 : d = c2 := by simpa using h.symm
                  rw [hdc2]
                  cases hq1 : isHy c1
                  · rfl
                  · cases hq2 : isHy c2
                    · rfl
                    · exfalso
                      apply hp
                      unfold isHy at hq1 hq2
                      rw [of_decide_eq_true hq1, of_decide_eq_true hq2]
                      simp
                · rw [h]
                  cases hq1 : isHy c1 <;> rfl
              exact ih (c2 :: rest) (by simp; omega) false [] (by simp)

theorem dashRepl_pres_noHy (pairc : Nat) : ∀ n : Nat, ∀ s : Str,
    s.length ≤ n →
    ∀ (skip : Bool) (acc : Str), (∀ c ∈ acc, jsWs c = true) →
    noAdj isHy isHy s = true →
    noAdj isHy isHy (dashRepl pairc skip acc s) = true := by
  intro n
  induction n with
  | zero =>
    intro s hlen skip acc hacc _
    have hs : s = [] := List.length_eq_zero.mp (by omega)
    rw [hs, dashRepl_nil]
    apply noAdj_allFst
    intro a ha
    exact ws_not_hy a (hacc a (List.mem_reverse.mp ha))
  | succ n ih =>
    intro s hlen skip acc hacc hs
    cases s with
    | nil =>
      rw [dashRepl_nil]
      apply noAdj_allFst
      intro a ha
      exact ws_not_hy a (hacc a (List.mem_reverse.mp ha))
    | cons c1 s2 =>
      cases s2 with
      | nil =>
        rw [dashRepl_one]
        by_cases hsw : (skip && jsWs c1) = true
        · rw [if_pos hsw]
          apply noAdj_allFst
          intro a ha
          exact ws_not_hy a (hacc a (List.mem_reverse.mp ha))
        · rw [if_neg hsw]
          apply noAdj_append_allFst
          · intro a ha
            exact ws_not_hy a (hacc a (List.mem_reverse.mp ha))
          rfl
      | cons c2 rest =>
        simp only [List.length_cons] at hlen
        rw [dashRepl_cons]
        by_cases hsw : (skip && jsWs c1) = true
        · rw [if_pos hsw]
          exact ih (c2 :: rest) (by simp; omega) true acc hacc
            (noAdj_tail isHy isHy c1 (c2 :: rest) hs)
        · rw [if_neg hsw]
          by_cases hw : jsWs c1 = true
          · rw [if_pos hw]
            apply ih (c2 :: rest) (by simp; omega) false (c1 :: acc)
            · intro a ha
              rcases List.mem_cons.mp ha with h | h
              · rw [h]; exact hw
              · exact hacc a h
            exact noAdj_tail isHy isHy c1 (c2 :: rest) hs
          · rw [if_neg hw]
            by_cases hp : (c1 = pairc && c2 = pairc) = true
            · rw [if_pos hp]
              apply noAdj_cons_fstFalse isHy isHy 0x20 _ (by decide)
              apply noAdj_cons_fstFalse isHy isHy 0x2014 _ (by decide)
              apply noAdj_cons_fstFalse isHy isHy 0x2014 _ (by decide)
              apply noAdj_cons_fstFalse isHy isHy 0x20 _ (by decide)
              exact ih rest (by omega) true [] (by simp)
                (noAdj_tail isHy isHy c2 rest
                  (noAdj_tail isHy isHy c1 (c2 :: rest) hs))
            · rw [if_neg hp]
              apply noAdj_append_allFst isHy isHy acc.reverse
              · intro a ha
                exact ws_not_hy a (hacc a (List.mem_reverse.mp ha))
              apply noAdj_cons isHy isHy c1 _
              · intro d hd
                rcases dashRepl_head_nilF pairc (c2 :: rest) d hd with h | h
                · have hdc2 : d = c2 := by simpa using h.symm
                  rw [hdc2]
                  exact noAdj_cons_head isHy isHy c1 c2 rest hs
                · rw [h]
                  cases hq1 : isHy c1 <;> rfl
              exact ih (c2 :: rest) (by simp; omega) false [] (by simp)
                (noAdj_tail isHy isHy c1 (c2 :: rest) hs)

theorem collapseSp_cons_ne (c : Nat) (l : Str) (hc : ¬ c = 0x20) :
    collapseSp (c :: l) = c :: collapseSp l := by
  cases l with
  | nil => rfl
  | cons b m =>
    exact collapseSp_cons_neg c b m (by simp [hc])

theorem collapseSp_sp_ne (l : Str)
    (hl : ∀ d, l.head? = some d → ¬ d = 0x20) :
    collapseSp (0x20 :: l) = 0x20 :: collapseSp l := by
  cases l with
  | nil => rfl
  | cons b m =>
    exact collapseSp_cons_neg 0x20 b m
      (by simp [hl b rfl])

theorem collapseSp_congr_midNe (w : Str) (c : Nat) (u v : Str)
    (hc : ¬ c = 0x20) (h : collapseSp u = collapseSp v) :
    collapseSp (w ++ c :: u) = collapseSp (w ++ c :: v) := by
  induction w with
  | nil =>
    rw [List.nil_append, List.nil_append, collapseSp_cons_ne c u hc,
      collapseSp_cons_ne c v hc, h]
  | cons a w2 ih =>
    cases w2 with
    | nil =>
      by_cases hsp : (a = 0x20 && c = 0x20) = true
      · exact absurd (by simpa using (Bool.and_eq_true_iff.mp hsp).2) hc
      · rw [List.cons_append, List.nil_append,
          collapseSp_cons_neg a c u hsp,
          List.cons_append, List.nil_append,
          collapseSp_cons_neg a c v hsp,
          collapseSp_cons_ne c u hc, collapseSp_cons_ne c v hc, h]
    | cons b w3 =>
      show collapseSp (a :: b :: (w3 ++ c :: u)) =
        collapseSp (a :: b :: (w3 ++ c :: v))
      have ih2 : collapseSp (b :: (w3 ++ c :: u)) =
          collapseSp (b :: (w3 ++ c :: v)) := ih
      by_cases hsp : (a = 0x20 && b = 0x20) = true
      · rw [collapseSp_cons_pos a b _ hsp, collapseSp_cons_pos a b _ hsp]
        exact ih2
      · rw [collapseSp_cons_neg a b _ hsp, collapseSp_cons_neg a b _ hsp,
          ih2]

theorem DG_mono0 (s : Str) (h : DG 1 s) : DG 0 s := by
  cases h with
  | nil0 hm hs => exact absurd hm (by omega)
  | nil1 hm hs => exact DG.nil0 rfl hs
  | blk hm hs h2 => exact absurd hm (by omega)
  | chain hm hs h2 => exact absurd hm (by omega)
  | blkEndNil hm hs => exact absurd hm (by omega)
  | blkEnd hm hs hc h2 => exact absurd hm (by omega)
  | spCh hm hs hh h2 => exact DG.spCh (Or.inl rfl) hs hh h2
  | otherCh hm hs hc hp h2 => exact DG.otherCh (Or.inl rfl) hs hc hp h2

theorem DG2_head (s : Str) (h : DG 2 s) : ∃ r, s = 0x20 :: r := by
  cases h with
  | nil0 hm hs => exact absurd hm (by omega)
  | nil1 hm hs => exact absurd hm (by omega)
  | blk hm hs h2 => exact absurd hm (by omega)
  | chain hm hs h2 => exact ⟨_, hs⟩
  | blkEndNil hm hs => exact ⟨_, hs⟩
  | blkEnd hm hs hc h2 => exact ⟨_, hs⟩
  | spCh hm hs hh h2 =>
    rcases hm with hm | hm
    · exact absurd hm (by omega)
    · exact absurd hm (by omega)
  | otherCh hm hs hc hp h2 =>
    rcases hm with hm | hm
    · exact absurd hm (by omega)
    · exact absurd hm (by omega)

theorem PD2_head (s : Str) (h : PD 2 s) : ∃ r, s = 0x20 :: r := by
  cases h with
  | nil0 hm hs => exact absurd hm (by omega)
  | nil1 hm hs => exact absurd hm (by omega)
  | blk hm hs h2 => exact absurd hm (by omega)
  | chain1 hm hs h2 => exact ⟨_, hs⟩
  | chain2 hm hs h2 => exact ⟨_, hs⟩
  | blkEndNil hm hs => exact ⟨_, hs⟩
  | blkEnd hm hs hc h2 => exact ⟨_, hs⟩
  | spCh hm hs h2 =>
    rcases hm with hm | hm
    · exact absurd hm (by omega)
    · exact absurd hm (by omega)
  | otherCh hm hs hc hp h2 =>
    rcases hm with hm | hm
    · exact absurd hm (by omega)
    · exact absurd hm (by omega)

theorem DG_noDblSp : ∀ n : Nat, ∀ s : Str, s.length ≤ n → ∀ m : Nat,
    DG m s → noAdj isSp isSp s = true := by
  intro n
  induction n with
  | zero =>
    intro s hlen m _
    have hs : s = [] := List.length_eq_zero.mp (by omega)
    rw [hs]
    rfl
  | succ n ih =>
    intro s hlen m hdg
    cases hdg with
    | nil0 hm hs =>
      rw [hs]
      rfl
    | nil1 hm hs =>
      rw [hs]
      rfl
    | blk hm hs h2 =>
      subst hs
      simp only [List.length_cons] at hlen
      apply noAdj_cons isSp isSp 0x20
      · intro d hd
        have : d = 0x2014 := by simpa using hd.symm
        rw [this]
        cases hq : isSp 0x20 <;> rfl
      apply noAdj_cons_fstFalse isSp isSp 0x2014 _ (by decide)
      apply noAdj_cons_fstFalse isSp isSp 0x2014 _ (by decide)
      exact ih _ (by omega) 2 h2
    | chain hm hs h2 =>
      subst hs
      simp only [List.length_cons] at hlen
      apply noAdj_cons isSp isSp 0x20
      · intro d hd
        have : d = 0x2014 := by simpa using hd.symm
        rw [this]
        cases hq : isSp 0x20 <;> rfl
      apply noAdj_cons_fstFalse isSp isSp 0x2014 _ (by decide)
      apply noAdj_cons_fstFalse isSp isSp 0x2014 _ (by decide)
      exact ih _ (by omega) 2 h2
    | blkEndNil hm hs =>
      rw [hs]
      rfl
    | @blkEnd m s cc rr hm hs hc h2 =>
      subst hs
      simp only [List.length_cons] at hlen
      apply noAdj_cons isSp isSp 0x20
      · intro d hd
        have hdc : d = cc := by simpa using hd.symm
        have hccsp : ¬ cc = 0x20 := by
          intro hq
          rw [hq] at hc
          exact Bool.noConfusion
            (hc.symm.trans (by decide : jsWs 0x20 = true))
        have hcc : isSp cc = false := by
          unfold isSp
          exact decide_eq_false hccsp
        rw [hdc, hcc]
        cases isSp 0x20 <;> rfl
      exact ih _ (by simp only [List.length_cons] at hlen ⊢; omega) 1 h2
    | spCh hm hs hh h2 =>
      subst hs
      simp only [List.length_cons] at hlen
      apply noAdj_cons isSp isSp 0x20
      · intro d hd
        have : isSp d = false := by
          unfold isSp
          simp
          exact hh d hd
        rw [this]
        cases isSp 0x20 <;> rfl
      exact ih _ (by omega) 1 h2
    | otherCh hm hs hc hp h2 =>
      subst hs
      simp only [List.length_cons] at hlen
      apply noAdj_cons_fstFalse isSp isSp _ _
        (by unfold isSp; simp; exact hc)
      exact ih _ (by omega) _ h2

theorem dashRepl_skip_nonws (pairc c : Nat) (rest : Str)
    (hc : jsWs c = false) :
    dashRepl pairc true [] (c :: rest) =
      dashRepl pairc false [] (c :: rest) := by
  cases rest with
  | nil => simp [dashRepl_one, hc]
  | cons c2 rest2 => simp [dashRepl_cons, hc]

theorem DG1_cons_pairOk (c r1 : Nat) (rr2 : Str) (hcw : jsWs c = false)
    (h : DG 1 (c :: r1 :: rr2)) :
    ¬ (c = 0x2014 ∧ r1 = 0x2014) ∧ DG 0 (r1 :: rr2) := by
  cases h with
  | nil0 hm _ => exact absurd hm (by omega)
  | nil1 _ hs => exact absurd hs (by simp)
  | blk hm _ _ => exact absurd hm (by omega)
  | chain hm _ _ => exact absurd hm (by omega)
  | blkEndNil hm _ => exact absurd hm (by omega)
  | blkEnd hm _ _ _ => exact absurd hm (by omega)
  | spCh _ hs _ _ =>
    exfalso
    have hc0 : c = 0x20 := by
      injection hs
    rw [hc0] at hcw
    exact Bool.noConfusion (hcw.symm.trans (by decide : jsWs 0x20 = true))
  | otherCh hm hs hcx hp h2 =>
    injection hs with h1 h2x
    subst h1
    subst h2x
    constructor
    · rintro ⟨hce, hr1e⟩
      apply hp
      refine ⟨hce, ?_⟩
      rw [hr1e]
      rfl
    · rw [if_neg (by simp [hcw])] at h2
      exact h2

set_option maxHeartbeats 1000000 in
theorem dem_collapse : ∀ n : Nat, ∀ s : Str, s.length ≤ n →
    (DG 0 s → collapseSp (dashRepl 0x2014 false [] s) = collapseSp s) ∧
    (DG 1 s → ∀ acc : Str, (∀ c ∈ acc, jsWs c = true) →
      collapseSp (dashRepl 0x2014 false acc s) =
        collapseSp (acc.reverse ++ s)) ∧
    (DG 2 s → collapseSp (0x20 :: dashRepl 0x2014 true [] s) =
      collapseSp (0x20 :: s)) := by
  intro n
  induction n with
  | zero =>
    intro s hlen
    have hs : s = [] := List.length_eq_zero.mp (by omega)
    subst hs
    refine ⟨fun _ => rfl, fun _ acc _ => ?_, fun h2 => ?_⟩
    · rw [dashRepl_nil, List.append_nil]
    · obtain ⟨r, hr⟩ := DG2_head _ h2
      exact List.noConfusion hr
  | succ n ih =>
    intro s hlen
    refine ⟨?_, ?_, ?_⟩
    · intro h0
      cases h0 with
      | nil0 _ hs =>
        subst hs
        rfl
      | nil1 hm _ => exact absurd hm (by omega)
      | chain hm _ _ => exact absurd hm (by omega)
      | blkEndNil hm _ => exact absurd hm (by omega)
      | blkEnd hm _ _ _ => exact absurd hm (by omega)
      | @blk m s rest0 _ hs h2 =>
        subst hs
        simp only [List.length_cons] at hlen
        rw [dashRepl_cons, if_neg (by simp),
          if_pos (by decide : jsWs 0x20 = true),
          dashRepl_cons, if_neg (by simp),
          if_neg (by decide : ¬ jsWs 0x2014 = true),
          if_pos (by decide :
            ((0x2014 : Nat) = 0x2014 && (0x2014 : Nat) = 0x2014) = true)]
        obtain ⟨r2, hr2⟩ := DG2_head _ h2
        have hih := (ih rest0 (by omega)).2.2 h2
        have hL : collapseSp (0x20 :: 0x2014 :: 0x2014 :: 0x20 ::
            dashRepl 0x2014 true [] rest0) =
            0x20 :: 0x2014 :: 0x2014 ::
              collapseSp (0x20 :: dashRepl 0x2014 true [] rest0) := by
          rw [collapseSp_cons_neg 0x20 0x2014 _ (by decide),
            collapseSp_cons_ne 0x2014 _ (by decide),
            collapseSp_cons_ne 0x2014 _ (by decide)]
        have hR : collapseSp (0x20 :: 0x2014 :: 0x2014 :: rest0) =
            0x20 :: 0x2014 :: 0x2014 :: collapseSp rest0 := by
          rw [collapseSp_cons_neg 0x20 0x2014 _ (by decide),
            collapseSp_cons_ne 0x2014 _ (by decide),
            collapseSp_cons_ne 0x2014 _ (by decide)]
        rw [hL, hR, hih, hr2,
          collapseSp_cons_pos 0x20 0x20 _ (by decide)]
      | @spCh m s rest _ hs hh h1 =>
        subst hs
        simp only [List.length_cons] at hlen
        cases rest with
        | nil =>
          rw [dashRepl_one, if_neg (by simp)]
          rfl
        | cons r1 rest2 =>
          rw [dashRepl_cons, if_neg (by simp),
            if_pos (by decide : jsWs 0x20 = true)]
          have hih := (ih (r1 :: rest2)
            (by simp only [List.length_cons] at hlen ⊢; omega)).2.1 h1 [0x20]
            (by intro c hc; simp at hc; rw [hc]; decide)
          rw [hih]
          rfl
      | @otherCh m s c rest _ hs hc hp h1 =>
        subst hs
        simp only [List.length_cons] at hlen
        cases rest with
        | nil =>
          rw [dashRepl_one, if_neg (by simp)]
          rfl
        | cons r1 rest2 =>
          by_cases hw : jsWs c = true
          · rw [dashRepl_cons, if_neg (by simp), if_pos hw]
            rw [if_pos hw] at h1
            have hih := (ih (r1 :: rest2)
              (by simp only [List.length_cons] at hlen ⊢; omega)).2.1 h1 [c]
              (by intro d hd; simp at hd; rw [hd]; exact hw)
            rw [hih]
            rfl
          · rw [dashRepl_cons, if_neg (by simp), if_neg hw,
              if_neg (by
                intro hq
                obtain ⟨hq1, hq2⟩ := Bool.and_eq_true_iff.mp hq
                exact hp ⟨by simpa using hq1, by
                  have : r1 = 0x2014 := by simpa using hq2
                  rw [this]
                  rfl⟩)]
            rw [if_neg hw] at h1
            have hih := (ih (r1 :: rest2)
              (by simp only [List.length_cons] at hlen ⊢; omega)).1 h1
            have hcsp : ¬ c = 0x20 := by
              intro hq
              rw [hq] at hw
              exact hw (by decide)
            show collapseSp (c :: dashRepl 0x2014 false [] (r1 :: rest2)) =
              collapseSp (c :: r1 :: rest2)
            rw [collapseSp_cons_ne c _ hcsp, collapseSp_cons_ne c _ hcsp,
              hih]
    · intro h1x acc hacc
      cases h1x with
      | nil1 _ hs =>
        subst hs
        rw [dashRepl_nil, List.append_nil]
      | nil0 hm _ => exact absurd hm (by omega)
      | blk hm _ _ => exact absurd hm (by omega)
      | chain hm _ _ => exact absurd hm (by omega)
      | blkEndNil hm _ => exact absurd hm (by omega)
      | blkEnd hm _ _ _ => exact absurd hm (by omega)
      | @spCh m s rest _ hs hh h1 =>
        subst hs
        simp only [List.length_cons] at hlen
        cases rest with
        | nil =>
          rw [dashRepl_one, if_neg (by simp)]
        | cons r1 rest2 =>
          rw [dashRepl_cons, if_neg (by simp),
            if_pos (by decide : jsWs 0x20 = true)]
          have hih := (ih (r1 :: rest2)
            (by simp only [List.length_cons] at hlen ⊢; omega)).2.1 h1 (0x20 :: acc)
            (by
              intro d hd
              rcases List.mem_cons.mp hd with h | h
              · rw [h]; decide
              · exact hacc d h)
          rw [hih, List.reverse_cons, List.append_assoc]
          rfl
      | @otherCh m s c rest _ hs hc hp h1 =>
        subst hs
        simp only [List.length_cons] at hlen
        cases rest with
        | nil =>
          rw [dashRepl_one, if_neg (by simp)]
        | cons r1 rest2 =>
          by_cases hw : jsWs c = true
          · rw [dashRepl_cons, if_neg (by simp), if_pos hw]
            rw [if_pos hw] at h1
            have hih := (ih (r1 :: rest2)
              (by simp only [List.length_cons] at hlen ⊢; omega)).2.1 h1 (c :: acc)
              (by
                intro d hd
                rcases List.mem_cons.mp hd with h | h
                · rw [h]; exact hw
                · exact hacc d h)
            rw [hih, List.reverse_cons, List.append_assoc]
            rfl
          · rw [dashRepl_cons, if_neg (by simp), if_neg hw,
              if_neg (by
                intro hq
                obtain ⟨hq1, hq2⟩ := Bool.and_eq_true_iff.mp hq
                exact hp ⟨by simpa using hq1, by
                  have : r1 = 0x2014 := by simpa using hq2
                  rw [this]
                  rfl⟩)]
            rw [if_neg hw] at h1
            have hih := (ih (r1 :: rest2)
              (by simp only [List.length_cons] at hlen ⊢; omega)).1 h1
            have hcsp : ¬ c = 0x20 := by
              intro hq
              rw [hq] at hw
              exact hw (by decide)
            exact collapseSp_congr_midNe acc.reverse c _ _ hcsp hih
    · intro h2x
      cases h2x with
      | nil0 hm _ => exact absurd hm (by omega)
      | nil1 hm _ => exact absurd hm (by omega)
      | blk hm _ _ => exact absurd hm (by omega)
      | spCh hm _ _ _ =>
        rcases hm with hm | hm
        · exact absurd hm (by omega)
        · exact absurd hm (by omega)
      | otherCh hm _ _ _ _ =>
        rcases hm with hm | hm
        · exact absurd hm (by omega)
        · exact absurd hm (by omega)
      | blkEndNil _ hs =>
        subst hs
        rw [dashRepl_one, if_pos (by decide)]
        show collapseSp [0x20] = collapseSp (0x20 :: [0x20])
        rw [collapseSp_cons_pos 0x20 0x20 [] (by decide)]
      | @chain m s rest0 _ hs h2 =>
        subst hs
        simp only [List.length_cons] at hlen
        rw [dashRepl_cons, if_pos (by decide : (true && jsWs 0x20) = true),
          dashRepl_cons,
          if_neg (by decide : ¬ (true && jsWs 0x2014) = true),
          if_neg (by decide : ¬ jsWs 0x2014 = true),
          if_pos (by decide :
            ((0x2014 : Nat) = 0x2014 && (0x2014 : Nat) = 0x2014) = true)]
        obtain ⟨r2, hr2⟩ := DG2_head _ h2
        have hih := (ih rest0 (by omega)).2.2 h2
        rw [collapseSp_cons_pos 0x20 0x20 _ (by decide),
          collapseSp_cons_pos 0x20 0x20 _ (by decide)]
        have hL : collapseSp (0x20 :: 0x2014 :: 0x2014 :: 0x20 ::
            dashRepl 0x2014 true [] rest0) =
            0x20 :: 0x2014 :: 0x2014 ::
              collapseSp (0x20 :: dashRepl 0x2014 true [] rest0) := by
          rw [collapseSp_cons_neg 0x20 0x2014 _ (by decide),
            collapseSp_cons_ne 0x2014 _ (by decide),
            collapseSp_cons_ne 0x2014 _ (by decide)]
        have hR : collapseSp (0x20 :: 0x2014 :: 0x2014 :: rest0) =
            0x20 :: 0x2014 :: 0x2014 :: collapseSp rest0 := by
          rw [collapseSp_cons_neg 0x20 0x2014 _ (by decide),
            collapseSp_cons_ne 0x2014 _ (by decide),
            collapseSp_cons_ne 0x2014 _ (by decide)]
        rw [hL, hR, hih, hr2,
          collapseSp_cons_pos 0x20 0x20 _ (by decide)]
      | @blkEnd m s cc rr _ hs hcw hsub =>
        subst hs
        simp only [List.length_cons] at hlen
        rw [dashRepl_cons, if_pos (by decide : (true && jsWs 0x20) = true)]
        cases rr with
        | nil =>
          rw [dashRepl_one, if_neg (by simp [hcw])]
          show collapseSp (0x20 :: [cc]) = collapseSp (0x20 :: 0x20 :: [cc])
          rw [collapseSp_cons_pos 0x20 0x20 _ (by decide)]
        | cons r1 rr2 =>
          obtain ⟨hpair, h0sub⟩ := DG1_cons_pairOk cc r1 rr2 hcw hsub
          rw [dashRepl_cons, if_neg (by simp [hcw]), if_neg (by simp [hcw]),
            if_neg (by
              intro hq
              obtain ⟨hq1, hq2⟩ := Bool.and_eq_true_iff.mp hq
              exact hpair ⟨by simpa using hq1, by simpa using hq2⟩)]
          have hih := (ih (r1 :: rr2)
            (by simp only [List.length_cons] at hlen ⊢; omega)).1 h0sub
          have hccsp : ¬ cc = 0x20 := by
            intro hq
            rw [hq] at hcw
            exact Bool.noConfusion
              (hcw.symm.trans (by decide : jsWs 0x20 = true))
          rw [collapseSp_cons_pos 0x20 0x20 _ (by decide)]
          show collapseSp (0x20 :: cc ::
              dashRepl 0x2014 false [] (r1 :: rr2)) =
            collapseSp (0x20 :: cc :: r1 :: rr2)
          rw [collapseSp_cons_neg 0x20 cc _ (by simp [hccsp]),
            collapseSp_cons_neg 0x20 cc _ (by simp [hccsp]),
            collapseSp_cons_ne cc _ hccsp, collapseSp_cons_ne cc _ hccsp,
            hih]

theorem ws_not_em (c : Nat) (h : jsWs c = true) : ¬ c = 0x2014 := by
  intro hq
  rw [hq] at h
  exact Bool.noConfusion ((by decide : jsWs 0x2014 = false).symm.trans h)

theorem nonws_not_sp (c : Nat) (h : ¬ jsWs c = true) : ¬ c = 0x20 := by
  intro hq
  rw [hq] at h
  exact h (by decide)

theorem PD_one (c : Nat) : PD 0 [c] ∧ PD 1 [c] := by
  by_cases hc : c = 0x20
  · subst hc
    exact ⟨PD.spCh (Or.inl rfl) rfl (PD.nil1 rfl rfl),
      PD.spCh (Or.inr rfl) rfl (PD.nil1 rfl rfl)⟩
  · refine ⟨PD.otherCh (Or.inl rfl) rfl hc ?_ ?_,
      PD.otherCh (Or.inr rfl) rfl hc ?_ ?_⟩
    · rintro ⟨_, hh⟩
      exact Option.noConfusion hh
    · by_cases hw : jsWs c = true
      · rw [if_pos hw]
        exact PD.nil1 rfl rfl
      · rw [if_neg hw]
        exact PD.nil0 rfl rfl
    · rintro ⟨_, hh⟩
      exact Option.noConfusion hh
    · by_cases hw : jsWs c = true
      · rw [if_pos hw]
        exact PD.nil1 rfl rfl
      · rw [if_neg hw]
        exact PD.nil0 rfl rfl

theorem PD_ws_prefix1 (L : Str) (M : Str) (hL : ∀ c ∈ L, jsWs c = true)
    (hM : PD 1 M) : PD 1 (L ++ M) := by
  induction L with
  | nil => exact hM
  | cons a t ih =>
    have hta := hL a (by simp)
    have ht : PD 1 (t ++ M) := ih (fun c hc => hL c (by simp [hc]))
    by_cases ha : a = 0x20
    · subst ha
      exact PD.spCh (Or.inr rfl) rfl ht
    · refine PD.otherCh (Or.inr rfl) rfl ha ?_ ?_
      · rintro ⟨he, _⟩
        exact ws_not_em a hta he
      · rw [if_pos hta]
        exact ht

theorem PD_mono0 (s : Str) (h : PD 1 s) : PD 0 s := by
  cases h with
  | nil0 hm hs => exact absurd hm (by omega)
  | nil1 hm hs => exact PD.nil0 rfl hs
  | blk hm hs h2 => exact absurd hm (by omega)
  | chain1 hm hs h2 => exact absurd hm (by omega)
  | chain2 hm hs h2 => exact absurd hm (by omega)
  | blkEndNil hm hs => exact absurd hm (by omega)
  | blkEnd hm hs hc h2 => exact absurd hm (by omega)
  | spCh hm hs h2 => exact PD.spCh (Or.inl rfl) hs h2
  | otherCh hm hs hc hp h2 => exact PD.otherCh (Or.inl rfl) hs hc hp h2

theorem PD_ws_prefix0 (L : Str) (M : Str) (hL : ∀ c ∈ L, jsWs c = true)
    (hM : PD 1 M) : PD 0 (L ++ M) := by
  cases L with
  | nil =>
    -- at the start the previous-unit context is mode 0; an empty prefix
    -- leaves M, and a mode-1 shape is also a mode-0 shape unless it
    -- starts with a pair block, which a whitespace-context shape never
    -- does; we only use this lemma with M built at mode 1.
    exact PD_mono0 M hM
  | cons a t =>
    have hta := hL a (by simp)
    have ht : PD 1 (t ++ M) :=
      PD_ws_prefix1 t M (fun c hc => hL c (by simp [hc])) hM
    by_cases ha : a = 0x20
    · subst ha
      exact PD.spCh (Or.inl rfl) rfl ht
    · refine PD.otherCh (Or.inl rfl) rfl ha ?_ ?_
      · rintro ⟨he, _⟩
        exact ws_not_em a hta he
      · rw [if_pos hta]
        exact ht

theorem dem_estab : ∀ n : Nat, ∀ s : Str, s.length ≤ n →
    (∀ acc : Str, (∀ c ∈ acc, jsWs c = true) →
      PD 0 (dashRepl 0x2014 false acc s)) ∧
    PD 2 (0x20 :: dashRepl 0x2014 true [] s) := by
  intro n
  induction n with
  | zero =>
    intro s hlen
    have hs : s = [] := List.length_eq_zero.mp (by omega)
    subst hs
    constructor
    · intro acc hacc
      rw [dashRepl_nil]
      have : PD 0 (acc.reverse ++ []) :=
        PD_ws_prefix0 acc.reverse []
          (fun c hc => hacc c (List.mem_reverse.mp hc)) (PD.nil1 rfl rfl)
      rw [List.append_nil] at this
      exact this
    · rw [dashRepl_nil]
      exact PD.blkEndNil rfl rfl
  | succ n ih =>
    intro s hlen
    constructor
    · intro acc hacc
      cases s with
      | nil =>
        rw [dashRepl_nil]
        have : PD 0 (acc.reverse ++ []) :=
          PD_ws_prefix0 acc.reverse []
            (fun c hc => hacc c (List.mem_reverse.mp hc)) (PD.nil1 rfl rfl)
        rw [List.append_nil] at this
        exact this
      | cons c1 s2 =>
        cases s2 with
        | nil =>
          rw [dashRepl_one, if_neg (by simp)]
          exact PD_ws_prefix0 acc.reverse [c1]
            (fun c hc => hacc c (List.mem_reverse.mp hc)) (PD_one c1).2
        | cons c2 rest =>
          simp only [List.length_cons] at hlen
          rw [dashRepl_cons, if_neg (by simp)]
          by_cases hw : jsWs c1 = true
          · rw [if_pos hw]
            apply (ih (c2 :: rest)
              (by simp only [List.length_cons]; omega)).1 (c1 :: acc)
            intro d hd
            rcases List.mem_cons.mp hd with h | h
            · rw [h]; exact hw
            · exact hacc d h
          · rw [if_neg hw]
            by_cases hp : (c1 = 0x2014 && c2 = 0x2014) = true
            · rw [if_pos hp]
              exact PD.blk rfl rfl ((ih rest (by omega)).2)
            · rw [if_neg hp]
              have hrec := (ih (c2 :: rest)
                (by simp only [List.length_cons]; omega)).1 [] (by simp)
              have hpair : ¬ (c1 = 0x2014 ∧
                  (dashRepl 0x2014 false [] (c2 :: rest)).head? =
                    some 0x2014) := by
                rintro ⟨he, hh⟩
                rcases dashRepl_head_nilF 0x2014 (c2 :: rest) 0x2014 hh
                  with h | h
                · have hc2 : c2 = 0x2014 := by simpa using h
                  apply hp
                  rw [he, hc2]
                  simp
                · exact absurd h (by decide)
              have h1 : PD 1
                  (c1 :: dashRepl 0x2014 false [] (c2 :: rest)) :=
                PD.otherCh (Or.inr rfl) rfl (nonws_not_sp c1 hw) hpair
                  (by rw [if_neg hw]; exact hrec)
              exact PD_ws_prefix0 acc.reverse _
                (fun c hc => hacc c (List.mem_reverse.mp hc)) h1
    · cases s with
      | nil =>
        rw [dashRepl_nil]
        exact PD.blkEndNil rfl rfl
      | cons c1 s2 =>
        by_cases hw : jsWs c1 = true
        · cases s2 with
          | nil =>
            rw [dashRepl_one, if_pos (by simp [hw])]
            exact PD.blkEndNil rfl rfl
          | cons c2 rest =>
            simp only [List.length_cons] at hlen
            rw [dashRepl_cons, if_pos (by simp [hw])]
            exact (ih (c2 :: rest)
              (by simp only [List.length_cons]; omega)).2
        · cases s2 with
          | nil =>
            rw [dashRepl_one, if_neg (by simp [hw])]
            exact PD.blkEnd rfl rfl (Bool.eq_false_iff.mpr hw) (PD_one c1).2
          | cons c2 rest =>
            simp only [List.length_cons] at hlen
            rw [dashRepl_cons, if_neg (by simp [hw]), if_neg hw]
            by_cases hp : (c1 = 0x2014 && c2 = 0x2014) = true
            · rw [if_pos hp]
              exact PD.chain2 rfl rfl ((ih rest (by omega)).2)
            · rw [if_neg hp]
              have hrec := (ih (c2 :: rest)
                (by simp only [List.length_cons]; omega)).1 [] (by simp)
              have hpair : ¬ (c1 = 0x2014 ∧
                  (dashRepl 0x2014 false [] (c2 :: rest)).head? =
                    some 0x2014) := by
                rintro ⟨he, hh⟩
                rcases dashRepl_head_nilF 0x2014 (c2 :: rest) 0x2014 hh
                  with h | h
                · have hc2 : c2 = 0x2014 := by simpa using h
                  apply hp
                  rw [he, hc2]
                  simp
                · exact absurd h (by decide)
              have h1 : PD 1
                  (c1 :: dashRepl 0x2014 false [] (c2 :: rest)) :=
                PD.otherCh (Or.inr rfl) rfl (nonws_not_sp c1 hw) hpair
                  (by rw [if_neg hw]; exact hrec)
              exact PD.blkEnd rfl rfl (Bool.eq_false_iff.mpr hw) h1

theorem PD01_inv_cons (m : Nat) (c : Nat) (rest : Str)
    (hcsp : ¬ c = 0x20) (h : PD m (c :: rest)) (hm : m = 0 ∨ m = 1) :
    ¬ (c = 0x2014 ∧ rest.head? = some 0x2014) ∧
      PD (if jsWs c then 1 else 0) rest := by
  cases h with
  | nil0 _ hs => exact absurd hs (by simp)
  | nil1 _ hs => exact absurd hs (by simp)
  | blk hmx hs _ =>
    exfalso
    apply hcsp
    injection hs
  | chain1 hmx _ _ =>
    rcases hm with h | h <;> omega
  | chain2 hmx _ _ =>
    rcases hm with h | h <;> omega
  | blkEndNil hmx _ =>
    rcases hm with h | h <;> omega
  | blkEnd hmx _ _ _ =>
    rcases hm with h | h <;> omega
  | spCh _ hs _ =>
    exfalso
    apply hcsp
    injection hs
  | otherCh _ hs hc hp h2 =>
    injection hs with h1 h2x
    subst h1
    subst h2x
    exact ⟨hp, h2⟩

theorem PD1_keep (c : Nat) (u : Str) (hw : ¬ jsWs c = true)
    (hpair : ¬ (c = 0x2014 ∧ u.head? = some 0x2014))
    (hu : PD 0 u) : PD 1 (c :: u) :=
  PD.otherCh (Or.inr rfl) rfl (nonws_not_sp c hw) hpair
    (by rw [if_neg hw]; exact hu)

theorem d2d_keep_pairOk (c c2 : Nat) (rest : Str)
    (hpair : ¬ (c = 0x2014 ∧ c2 = 0x2014)) :
    ¬ (c = 0x2014 ∧
      (dashRepl 0x2D false [] (c2 :: rest)).head? = some 0x2014) := by
  rintro ⟨he, hh⟩
  rcases dashRepl_head_nilF 0x2D (c2 :: rest) 0x2014 hh with h | h
  · exact hpair ⟨he, by simpa using h⟩
  · exact absurd h (by decide)

theorem headPair_of_head (c r1 : Nat) (rest : Str)
    (hp : ¬ (c = 0x2014 ∧ (r1 :: rest).head? = some 0x2014)) :
    ¬ (c = 0x2014 ∧ r1 = 0x2014) := by
  rintro ⟨he, hr⟩
  apply hp
  refine ⟨he, ?_⟩
  rw [hr]
  rfl

set_option maxHeartbeats 1600000 in
theorem d2d_estab : ∀ n : Nat, ∀ s : Str, s.length ≤ n →
    (PD 0 s → PD 0 (dashRepl 0x2D false [] s)) ∧
    (PD 1 s → ∀ acc : Str, (∀ c ∈ acc, jsWs c = true) →
      PD 0 (dashRepl 0x2D false acc s)) ∧
    (PD 2 s → PD 2 (dashRepl 0x2D false [] s)) ∧
    ((PD 0 s ∨ PD 1 s) → PD 2 (0x20 :: dashRepl 0x2D true [] s)) := by
  intro n
  induction n with
  | zero =>
    intro s hlen
    have hs : s = [] := List.length_eq_zero.mp (by omega)
    subst hs
    refine ⟨fun _ => PD.nil0 rfl rfl, fun _ acc hacc => ?_, fun h2 => ?_,
      fun _ => ?_⟩
    · rw [dashRepl_nil]
      have : PD 0 (acc.reverse ++ []) :=
        PD_ws_prefix0 acc.reverse []
          (fun c hc => hacc c (List.mem_reverse.mp hc)) (PD.nil1 rfl rfl)
      rw [List.append_nil] at this
      exact this
    · obtain ⟨r, hr⟩ := PD2_head _ h2
      exact List.noConfusion hr
    · rw [dashRepl_nil]
      exact PD.blkEndNil rfl rfl
  | succ n ih =>
    intro s hlen
    refine ⟨?_, ?_, ?_, ?_⟩
    · intro h0
      cases h0 with
      | nil0 _ hs =>
        subst hs
        exact PD.nil0 rfl rfl
      | nil1 hm _ => exact absurd hm (by omega)
      | chain1 hm _ _ => exact absurd hm (by omega)
      | chain2 hm _ _ => exact absurd hm (by omega)
      | blkEndNil hm _ => exact absurd hm (by omega)
      | blkEnd hm _ _ _ => exact absurd hm (by omega)
      | @blk m s rest0 _ hs h2 =>
        subst hs
        simp only [List.length_cons] at hlen
        obtain ⟨r2, hr2⟩ := PD2_head _ h2
        subst hr2
        rw [dashRepl_cons, if_neg (by simp), if_pos (by decide),
          dashRepl_cons, if_neg (by simp), if_neg (by decide),
          if_neg (by simp), dashRepl_cons, if_neg (by simp),
          if_neg (by decide), if_neg (by simp)]
        exact PD.blk rfl rfl
          ((ih (0x20 :: r2)
            (by simp only [List.length_cons] at hlen ⊢; omega)).2.2.1 h2)
      | @spCh m s rest _ hs h1 =>
        subst hs
        simp only [List.length_cons] at hlen
        cases rest with
        | nil =>
          rw [dashRepl_one, if_neg (by simp)]
          exact (PD_one 0x20).1
        | cons r1 rest2 =>
          rw [dashRepl_cons, if_neg (by simp), if_pos (by decide)]
          exact (ih (r1 :: rest2)
            (by simp only [List.length_cons] at hlen ⊢; omega)).2.1 h1 [0x20]
            (by intro d hd; simp at hd; rw [hd]; decide)
      | @otherCh m s c rest _ hs hc hp h1 =>
        subst hs
        simp only [List.length_cons] at hlen
        cases rest with
        | nil =>
          rw [dashRepl_one, if_neg (by simp)]
          exact (PD_one c).1
        | cons r1 rest2 =>
          by_cases hw : jsWs c = true
          · rw [dashRepl_cons, if_neg (by simp), if_pos hw]
            rw [if_pos hw] at h1
            exact (ih (r1 :: rest2)
              (by simp only [List.length_cons] at hlen ⊢; omega)).2.1 h1 [c]
              (by intro d hd; simp at hd; rw [hd]; exact hw)
          · rw [dashRepl_cons, if_neg (by simp), if_neg hw]
            rw [if_neg hw] at h1
            by_cases hm2 : (c = 0x2D && r1 = 0x2D) = true
            · rw [if_pos hm2]
              have hc2d : c = 0x2D := by
                simpa using (Bool.and_eq_true_iff.mp hm2).1
              have hr2d : r1 = 0x2D := by
                simpa using (Bool.and_eq_true_iff.mp hm2).2
              have hsub : PD 0 rest2 := by
                have := PD01_inv_cons 0 r1 rest2
                  (by rw [hr2d]; decide) h1 (Or.inl rfl)
                have h3 := this.2
                rw [if_neg (by rw [hr2d]; decide)] at h3
                exact h3
              exact PD.blk rfl rfl
                ((ih rest2
                  (by simp only [List.length_cons] at hlen ⊢; omega)).2.2.2
                  (Or.inl hsub))
            · rw [if_neg hm2]
              exact PD.otherCh (Or.inl rfl) rfl (nonws_not_sp c hw)
                (d2d_keep_pairOk c r1 rest2 (headPair_of_head c r1 rest2 hp))
                (by
                  rw [if_neg hw]
                  exact (ih (r1 :: rest2)
                    (by simp only [List.length_cons] at hlen ⊢; omega)).1 h1)
    · intro h1x acc hacc
      cases h1x with
      | nil1 _ hs =>
        subst hs
        rw [dashRepl_nil]
        have : PD 0 (acc.reverse ++ []) :=
          PD_ws_prefix0 acc.reverse []
            (fun c hc => hacc c (List.mem_reverse.mp hc)) (PD.nil1 rfl rfl)
        rw [List.append_nil] at this
        exact this
      | nil0 hm _ => exact absurd hm (by omega)
      | blk hm _ _ => exact absurd hm (by omega)
      | chain1 hm _ _ => exact absurd hm (by omega)
      | chain2 hm _ _ => exact absurd hm (by omega)
      | blkEndNil hm _ => exact absurd hm (by omega)
      | blkEnd hm _ _ _ => exact absurd hm (by omega)
      | @spCh m s rest _ hs h1 =>
        subst hs
        simp only [List.length_cons] at hlen
        cases rest with
        | nil =>
          rw [dashRepl_one, if_neg (by simp)]
          exact PD_ws_prefix0 acc.reverse [0x20]
            (fun c hc => hacc c (List.mem_reverse.mp hc)) (PD_one 0x20).2
        | cons r1 rest2 =>
          rw [dashRepl_cons, if_neg (by simp), if_pos (by decide)]
          exact (ih (r1 :: rest2)
            (by simp only [List.length_cons] at hlen ⊢; omega)).2.1 h1
            (0x20 :: acc)
            (by
              intro d hd
              rcases List.mem_cons.mp hd with h | h
              · rw [h]; decide
              · exact hacc d h)
      | @otherCh m s c rest _ hs hc hp h1 =>
        subst hs
        simp only [List.length_cons] at hlen
        cases rest with
        | nil =>
          rw [dashRepl_one, if_neg (by simp)]
          exact PD_ws_prefix0 acc.reverse [c]
            (fun d hd => hacc d (List.mem_reverse.mp hd)) (PD_one c).2
        | cons r1 rest2 =>
          by_cases hw : jsWs c = true
          · rw [dashRepl_cons, if_neg (by simp), if_pos hw]
            rw [if_pos hw] at h1
            exact (ih (r1 :: rest2)
              (by simp only [List.length_cons] at hlen ⊢; omega)).2.1 h1
              (c :: acc)
              (by
                intro d hd
                rcases List.mem_cons.mp hd with h | h
                · rw [h]; exact hw
                · exact hacc d h)
          · rw [dashRepl_cons, if_neg (by simp), if_neg hw]
            rw [if_neg hw] at h1
            by_cases hm2 : (c = 0x2D && r1 = 0x2D) = true
            · rw [if_pos hm2]
              have hr2d : r1 = 0x2D := by
                simpa using (Bool.and_eq_true_iff.mp hm2).2
              have hsub : PD 0 rest2 := by
                have := PD01_inv_cons 0 r1 rest2
                  (by rw [hr2d]; decide) h1 (Or.inl rfl)
                have h3 := this.2
                rw [if_neg (by rw [hr2d]; decide)] at h3
                exact h3
              exact PD.blk rfl rfl
                ((ih rest2
                  (by simp only [List.length_cons] at hlen ⊢; omega)).2.2.2
                  (Or.inl hsub))
            · rw [if_neg hm2]
              apply PD_ws_prefix0 acc.reverse _
                (fun d hd => hacc d (List.mem_reverse.mp hd))
              exact PD1_keep c _ hw
                (d2d_keep_pairOk c r1 rest2 (headPair_of_head c r1 rest2 hp))
                ((ih (r1 :: rest2)
                  (by simp only [List.length_cons] at hlen ⊢; omega)).1 h1)
    · intro h2x
      cases h2x with
      | nil0 hm _ => exact absurd hm (by omega)
      | nil1 hm _ => exact absurd hm (by omega)
      | blk hm _ _ => exact absurd hm (by omega)
      | spCh hm _ _ =>
        rcases hm with hm | hm <;> omega
      | otherCh hm _ _ _ _ =>
        rcases hm with hm | hm <;> omega
      | blkEndNil _ hs =>
        subst hs
        rw [dashRepl_one, if_neg (by simp)]
        exact PD.blkEndNil rfl rfl
      | @blkEnd m s cc rr _ hs hcw hsub =>
        subst hs
        simp only [List.length_cons] at hlen
        cases rr with
        | nil =>
          rw [dashRepl_cons, if_neg (by simp), if_pos (by decide),
            dashRepl_one, if_neg (by simp [hcw])]
          exact PD.blkEnd rfl rfl hcw (PD_one cc).2
        | cons r1 rr2 =>
          rw [dashRepl_cons, if_neg (by simp), if_pos (by decide),
            dashRepl_cons, if_neg (by simp), if_neg (by simp [hcw])]
          have hinv := PD01_inv_cons 1 cc (r1 :: rr2)
            (nonws_not_sp cc (by simp [hcw])) hsub (Or.inr rfl)
          have hsub2 : PD 0 (r1 :: rr2) := by
            have h3 := hinv.2
            rw [if_neg (by simp [hcw])] at h3
            exact h3
          by_cases hm2 : (cc = 0x2D && r1 = 0x2D) = true
          · rw [if_pos hm2]
            have hr2d : r1 = 0x2D := by
              simpa using (Bool.and_eq_true_iff.mp hm2).2
            have hsub3 : PD 0 rr2 := by
              have := PD01_inv_cons 0 r1 rr2
                (by rw [hr2d]; decide) hsub2 (Or.inl rfl)
              have h3 := this.2
              rw [if_neg (by rw [hr2d]; decide)] at h3
              exact h3
            exact PD.chain1 rfl rfl
              ((ih rr2
                (by simp only [List.length_cons] at hlen ⊢; omega)).2.2.2
                (Or.inl hsub3))
          · rw [if_neg hm2]
            exact PD.blkEnd rfl rfl hcw
              (PD1_keep cc _ (by simp [hcw])
                (d2d_keep_pairOk cc r1 rr2
                  (headPair_of_head cc r1 rr2 hinv.1))
                ((ih (r1 :: rr2)
                  (by simp only [List.length_cons] at hlen ⊢; omega)).1 hsub2))
      | @chain1 m s rest0 _ hs h2 =>
        subst hs
        simp only [List.length_cons] at hlen
        obtain ⟨r2, hr2⟩ := PD2_head _ h2
        subst hr2
        rw [dashRepl_cons, if_neg (by simp), if_pos (by decide),
          dashRepl_cons, if_neg (by simp), if_neg (by decide),
          if_neg (by simp), dashRepl_cons, if_neg (by simp),
          if_neg (by decide), if_neg (by simp)]
        exact PD.chain1 rfl rfl
          ((ih (0x20 :: r2)
            (by simp only [List.length_cons] at hlen ⊢; omega)).2.2.1 h2)
      | @chain2 m s rest0 _ hs h2 =>
        subst hs
        simp only [List.length_cons] at hlen
        obtain ⟨r2, hr2⟩ := PD2_head _ h2
        subst hr2
        rw [dashRepl_cons, if_neg (by simp), if_pos (by decide),
          dashRepl_cons, if_neg (by simp), if_pos (by decide),
          dashRepl_cons, if_neg (by simp), if_neg (by decide),
          if_neg (by simp), dashRepl_cons, if_neg (by simp),
          if_neg (by decide), if_neg (by simp)]
        exact PD.chain2 rfl rfl
          ((ih (0x20 :: r2)
            (by simp only [List.length_cons] at hlen ⊢; omega)).2.2.1 h2)
    · intro hor
      have hcases : s = [] ∨
          (∃ rest, s = 0x20 :: rest ∧ PD 1 rest) ∨
          (∃ c rest, s = c :: rest ∧ ¬ c = 0x20 ∧
            ¬ (c = 0x2014 ∧ rest.head? = some 0x2014) ∧
            PD (if jsWs c then 1 else 0) rest) ∨
          (∃ rest0, s = 0x20 :: 0x2014 :: 0x2014 :: rest0 ∧ PD 2 rest0) := by
        rcases hor with h | h
        · cases h with
          | nil0 _ hs => exact Or.inl hs
          | nil1 hm _ => exact absurd hm (by omega)
          | blk _ hs h2 => exact Or.inr (Or.inr (Or.inr ⟨_, hs, h2⟩))
          | chain1 hm _ _ => exact absurd hm (by omega)
          | chain2 hm _ _ => exact absurd hm (by omega)
          | blkEndNil hm _ => exact absurd hm (by omega)
          | blkEnd hm _ _ _ => exact absurd hm (by omega)
          | spCh _ hs h1 => exact Or.inr (Or.inl ⟨_, hs, h1⟩)
          | otherCh _ hs hc hp h1 =>
            exact Or.inr (Or.inr (Or.inl ⟨_, _, hs, hc, hp, h1⟩))
        · cases h with
          | nil1 _ hs => exact Or.inl hs
          | nil0 hm _ => exact absurd hm (by omega)
          | blk hm _ _ => exact absurd hm (by omega)
          | chain1 hm _ _ => exact absurd hm (by omega)
          | chain2 hm _ _ => exact absurd hm (by omega)
          | blkEndNil hm _ => exact absurd hm (by omega)
          | blkEnd hm _ _ _ => exact absurd hm (by omega)
          | spCh _ hs h1 => exact Or.inr (Or.inl ⟨_, hs, h1⟩)
          | otherCh _ hs hc hp h1 =>
            exact Or.inr (Or.inr (Or.inl ⟨_, _, hs, hc, hp, h1⟩))
      rcases hcases with hs | ⟨rest, hs, h1⟩ | ⟨c, rest, hs, hc, hp, h1⟩ |
        ⟨rest0, hs, h2⟩
      · subst hs
        rw [dashRepl_nil]
        exact PD.blkEndNil rfl rfl
      · subst hs
        simp only [List.length_cons] at hlen
        cases rest with
        | nil =>
          rw [dashRepl_one, if_pos (by decide)]
          exact PD.blkEndNil rfl rfl
        | cons r1 rest2 =>
          rw [dashRepl_cons, if_pos (by decide)]
          exact (ih (r1 :: rest2)
            (by simp only [List.length_cons] at hlen ⊢; omega)).2.2.2
            (Or.inr h1)
      · subst hs
        simp only [List.length_cons] at hlen
        by_cases hw : jsWs c = true
        · rw [if_pos hw] at h1
          cases rest with
          | nil =>
            rw [dashRepl_one, if_pos (by simp [hw])]
            exact PD.blkEndNil rfl rfl
          | cons r1 rest2 =>
            rw [dashRepl_cons, if_pos (by simp [hw])]
            exact (ih (r1 :: rest2)
              (by simp only [List.length_cons] at hlen ⊢; omega)).2.2.2
              (Or.inr h1)
        · rw [if_neg hw] at h1
          cases rest with
          | nil =>
            rw [dashRepl_one, if_neg (by simp [hw])]
            exact PD.blkEnd rfl rfl (Bool.eq_false_iff.mpr hw) (PD_one c).2
          | cons r1 rest2 =>
            rw [dashRepl_cons, if_neg (by simp [hw]), if_neg hw]
            by_cases hm2 : (c = 0x2D && r1 = 0x2D) = true
            · rw [if_pos hm2]
              have hr2d : r1 = 0x2D := by
                simpa using (Bool.and_eq_true_iff.mp hm2).2
              have hsub : PD 0 rest2 := by
                have := PD01_inv_cons 0 r1 rest2
                  (by rw [hr2d]; decide) h1 (Or.inl rfl)
                have h3 := this.2
                rw [if_neg (by rw [hr2d]; decide)] at h3
                exact h3
              exact PD.chain2 rfl rfl
                ((ih rest2
                  (by simp only [List.length_cons] at hlen ⊢; omega)).2.2.2
                  (Or.inl hsub))
            · rw [if_neg hm2]
              exact PD.blkEnd rfl rfl (Bool.eq_false_iff.mpr hw)
                (PD1_keep c _ hw
                  (d2d_keep_pairOk c r1 rest2
                    (headPair_of_head c r1 rest2 hp))
                  ((ih (r1 :: rest2)
                    (by simp only [List.length_cons] at hlen ⊢; omega)).1 h1))
      · subst hs
        simp only [List.length_cons] at hlen
        obtain ⟨r2, hr2⟩ := PD2_head _ h2
        subst hr2
        rw [dashRepl_cons, if_pos (by decide), dashRepl_cons,
          if_neg (by decide), if_neg (by decide), if_neg (by simp),
          dashRepl_cons, if_neg (by simp), if_neg (by decide),
          if_neg (by simp)]
        exact PD.chain1 rfl rfl
          ((ih (0x20 :: r2)
            (by simp only [List.length_cons] at hlen ⊢; omega)).2.2.1 h2)

theorem collapseSp_spemem (rest : Str) :
    collapseSp (0x20 :: 0x2014 :: 0x2014 :: rest) =
      0x20 :: 0x2014 :: 0x2014 :: collapseSp rest := by
  rw [collapseSp_cons_neg 0x20 0x2014 _ (by decide),
    collapseSp_cons_ne 0x2014 _ (by decide),
    collapseSp_cons_ne 0x2014 _ (by decide)]

set_option maxHeartbeats 1000000 in
theorem collapse_estab : ∀ n : Nat, ∀ s : Str, s.length ≤ n →
    (PD 0 s → DG 0 (collapseSp s)) ∧
    (PD 1 s → DG 1 (collapseSp s)) ∧
    (PD 2 s → DG 2 (collapseSp s)) := by
  intro n
  induction n with
  | zero =>
    intro s hlen
    have hs : s = [] := List.length_eq_zero.mp (by omega)
    subst hs
    refine ⟨fun _ => DG.nil0 rfl rfl, fun _ => DG.nil1 rfl rfl, fun h2 => ?_⟩
    obtain ⟨r, hr⟩ := PD2_head _ h2
    exact List.noConfusion hr
  | succ n ih =>
    intro s hlen
    refine ⟨?_, ?_, ?_⟩
    · intro h0
      cases h0 with
      | nil0 _ hs =>
        subst hs
        exact DG.nil0 rfl rfl
      | nil1 hm _ => exact absurd hm (by omega)
      | chain1 hm _ _ => exact absurd hm (by omega)
      | chain2 hm _ _ => exact absurd hm (by omega)
      | blkEndNil hm _ => exact absurd hm (by omega)
      | blkEnd hm _ _ _ => exact absurd hm (by omega)
      | @blk m s rest0 _ hs h2 =>
        subst hs
        simp only [List.length_cons] at hlen
        rw [collapseSp_spemem]
        exact DG.blk rfl rfl ((ih rest0 (by omega)).2.2 h2)
      | @spCh m s rest _ hs h1 =>
        subst hs
        simp only [List.length_cons] at hlen
        cases rest with
        | nil =>
          exact DG.spCh (Or.inl rfl) rfl
            (fun d hd => Option.noConfusion hd) (DG.nil1 rfl rfl)
        | cons r1 rest2 =>
          by_cases hr1 : (r1 = 0x20)
          · subst hr1
            rw [collapseSp_cons_pos 0x20 0x20 _ (by decide)]
            exact DG_mono0 _ ((ih (0x20 :: rest2)
              (by simp only [List.length_cons] at hlen ⊢; omega)).2.1 h1)
          · rw [collapseSp_cons_neg 0x20 r1 _ (by simp [hr1])]
            apply DG.spCh (Or.inl rfl) rfl
            · intro d hd
              rw [collapseSp_head] at hd
              have : d = r1 := by simpa using hd.symm
              rw [this]
              exact hr1
            exact (ih (r1 :: rest2)
              (by simp only [List.length_cons] at hlen ⊢; omega)).2.1 h1
      | @otherCh m s c rest _ hs hc hp h1 =>
        subst hs
        simp only [List.length_cons] at hlen
        rw [collapseSp_cons_ne c rest hc]
        apply DG.otherCh (Or.inl rfl) rfl hc
        · rintro ⟨he, hh⟩
          apply hp
          refine ⟨he, ?_⟩
          cases rest with
          | nil => exact Option.noConfusion hh
          | cons r1 rest2 =>
            rw [collapseSp_head] at hh
            exact hh
        · by_cases hw : jsWs c = true
          · rw [if_pos hw]
            rw [if_pos hw] at h1
            exact (ih rest (by omega)).2.1 h1
          · rw [if_neg hw]
            rw [if_neg hw] at h1
            exact (ih rest (by omega)).1 h1
    · intro h1x
      cases h1x with
      | nil1 _ hs =>
        subst hs
        exact DG.nil1 rfl rfl
      | nil0 hm _ => exact absurd hm (by omega)
      | blk hm _ _ => exact absurd hm (by omega)
      | chain1 hm _ _ => exact absurd hm (by omega)
      | chain2 hm _ _ => exact absurd hm (by omega)
      | blkEndNil hm _ => exact absurd hm (by omega)
      | blkEnd hm _ _ _ => exact absurd hm (by omega)
      | @spCh m s rest _ hs h1 =>
        subst hs
        simp only [List.length_cons] at hlen
        cases rest with
        | nil =>
          exact DG.spCh (Or.inr rfl) rfl
            (fun d hd => Option.noConfusion hd) (DG.nil1 rfl rfl)
        | cons r1 rest2 =>
          by_cases hr1 : (r1 = 0x20)
          · subst hr1
            rw [collapseSp_cons_pos 0x20 0x20 _ (by decide)]
            exact (ih (0x20 :: rest2)
              (by simp only [List.length_cons] at hlen ⊢; omega)).2.1 h1
          · rw [collapseSp_cons_neg 0x20 r1 _ (by simp [hr1])]
            apply DG.spCh (Or.inr rfl) rfl
            · intro d hd
              rw [collapseSp_head] at hd
              have : d = r1 := by simpa using hd.symm
              rw [this]
              exact hr1
            exact (ih (r1 :: rest2)
              (by simp only [List.length_cons] at hlen ⊢; omega)).2.1 h1
      | @otherCh m s c rest _ hs hc hp h1 =>
        subst hs
        simp only [List.length_cons] at hlen
        rw [collapseSp_cons_ne c rest hc]
        apply DG.otherCh (Or.inr rfl) rfl hc
        · rintro ⟨he, hh⟩
          apply hp
          refine ⟨he, ?_⟩
          cases rest with
          | nil => exact Option.noConfusion hh
          | cons r1 rest2 =>
            rw [collapseSp_head] at hh
            exact hh
        · by_cases hw : jsWs c = true
          · rw [if_pos hw]
            rw [if_pos hw] at h1
            exact (ih rest (by omega)).2.1 h1
          · rw [if_neg hw]
            rw [if_neg hw] at h1
            exact (ih rest (by omega)).1 h1
    · intro h2x
      cases h2x with
      | nil0 hm _ => exact absurd hm (by omega)
      | nil1 hm _ => exact absurd hm (by omega)
      | blk hm _ _ => exact absurd hm (by omega)
      | spCh hm _ _ => rcases hm with hm | hm <;> omega
      | otherCh hm _ _ _ _ => rcases hm with hm | hm <;> omega
      | blkEndNil _ hs =>
        subst hs
        exact DG.blkEndNil rfl rfl
      | @blkEnd m s cc rr _ hs hcw hsub =>
        subst hs
        simp only [List.length_cons] at hlen
        have hccsp : ¬ cc = 0x20 := by
          intro hq
          rw [hq] at hcw
          exact Bool.noConfusion
            (hcw.symm.trans (by decide : jsWs 0x20 = true))
        rw [collapseSp_cons_neg 0x20 cc _ (by simp [hccsp])]
        have hrec := (ih (cc :: rr)
          (by simp only [List.length_cons] at hlen ⊢; omega)).2.1 hsub
        rw [collapseSp_cons_ne cc rr hccsp] at hrec ⊢
        exact DG.blkEnd rfl rfl hcw hrec
      | @chain1 m s rest0 _ hs h2 =>
        subst hs
        simp only [List.length_cons] at hlen
        rw [collapseSp_spemem]
        exact DG.chain rfl rfl ((ih rest0 (by omega)).2.2 h2)
      | @chain2 m s rest0 _ hs h2 =>
        subst hs
        simp only [List.length_cons] at hlen
        rw [collapseSp_cons_pos 0x20 0x20 _ (by decide), collapseSp_spemem]
        exact DG.chain rfl rfl ((ih rest0 (by omega)).2.2 h2)

theorem fixDash_idem (x : Str) : fixDash (fixDash x) = fixDash x := by
  unfold fixDash
  have hPD : PD 0
      (dashRepl 0x2D false [] (dashRepl 0x2014 false [] x)) :=
    (d2d_estab (dashRepl 0x2014 false [] x).length _ (le_refl _)).1
      ((dem_estab x.length x (le_refl _)).1 [] (by simp))
  have hDG : DG 0 (collapseSp
      (dashRepl 0x2D false [] (dashRepl 0x2014 false [] x))) :=
    (collapse_estab (dashRepl 0x2D false []
      (dashRepl 0x2014 false [] x)).length _ (le_refl _)).1 hPD
  have hHHz : noAdj isHy isHy
      (dashRepl 0x2D false [] (dashRepl 0x2014 false [] x)) = true :=
    dashRepl_estab_noHy (dashRepl 0x2014 false [] x).length _ (le_refl _)
      false [] (by simp)
  have hHHy : noAdj isHy isHy (collapseSp
      (dashRepl 0x2D false [] (dashRepl 0x2014 false [] x))) = true :=
    noAdj_collapseSp isHy isHy _ hHHz
  have hHHdem : noAdj isHy isHy (dashRepl 0x2014 false []
      (collapseSp (dashRepl 0x2D false []
        (dashRepl 0x2014 false [] x)))) = true :=
    dashRepl_pres_noHy 0x2014 _ _ (le_refl _) false [] (by simp) hHHy
  have hD2Did : dashRepl 0x2D false [] (dashRepl 0x2014 false []
      (collapseSp (dashRepl 0x2D false [] (dashRepl 0x2014 false [] x)))) =
      dashRepl 0x2014 false [] (collapseSp (dashRepl 0x2D false []
        (dashRepl 0x2014 false [] x))) := by
    have := dashRepl_id 0x2D (dashRepl 0x2014 false []
      (collapseSp (dashRepl 0x2D false [] (dashRepl 0x2014 false [] x))))
      [] hHHdem
    simpa using this
  have hcrux : collapseSp (dashRepl 0x2014 false []
      (collapseSp (dashRepl 0x2D false [] (dashRepl 0x2014 false [] x)))) =
      collapseSp (collapseSp (dashRepl 0x2D false []
        (dashRepl 0x2014 false [] x))) :=
    (dem_collapse (collapseSp (dashRepl 0x2D false []
      (dashRepl 0x2014 false [] x))).length _ (le_refl _)).1 hDG
  have hDS : noAdj isSp isSp (collapseSp
      (dashRepl 0x2D false [] (dashRepl 0x2014 false [] x))) = true :=
    DG_noDblSp (collapseSp (dashRepl 0x2D false []
      (dashRepl 0x2014 false [] x))).length _ (le_refl _) 0 hDG
  have hid : collapseSp (collapseSp
      (dashRepl 0x2D false [] (dashRepl 0x2014 false [] x))) =
      collapseSp (dashRepl 0x2D false [] (dashRepl 0x2014 false [] x)) :=
    collapseSp_id _ hDS
  rw [hD2Did, hcrux, hid]

/-- C1: for every rule id and every input string, applying that rule's
autofix twice yields the same result as applying it once:
applyRuleFix (applyRuleFix x r) r = applyRuleFix x r.  This covers in
particular every autofixable rule R001-R007; for rules without an autofix
applyRuleFix is the identity, so the statement subsumes the claim. -/
theorem c1_fix_idempotent (r : RuleId) (x : Str) :
    applyRuleFix (applyRuleFix x r) r = applyRuleFix x r := by
  cases r with
  | R001 => exact fixCjkLatin_idem x
  | R002 => exact fixCjkNumber_idem x
  | R003 => exact fixNU_idem x
  | R004 => exact fixPunct_idem x
  | R005 => exact fixEllipsis_idem x
  | R006 => exact fixDash_idem x
  | R007 => exact fixFullWidthDigits_idem x
  | R101 => rfl
  | R102 => rfl
  | R103 => rfl
  | R104 => rfl
  | C201 => rfl
  | C202 => rfl
  | C203 => rfl

end Mango

